import Mathlib

/-!
RTree node storage and level iterator (`include/RTree/node.hpp`).

A shallow embedding of the node layer of the R-tree: the node header
(`node_base_t`), internal nodes (`node_t`), leaves (`leaf_node_t`), and the
operations `next`, `prev`, `insert`, `erase`, `calculate_bound` and
`clone_recursive`.

Pointers are addresses into an explicit heap (a list of objects; the address of
an object is its position).  `nullptr` is `none`.  Every function that the C++
code runs on the heap is a function from heaps to `Except Fault _`: an access
that C++ leaves undefined (null or dangling dereference, out-of-range
`operator[]`, `back()`/`pop_back()` on an empty vector, a failed `assert`,
using a leaf through a `node_t*`) yields `Fault.undefined`; a recursion that
exceeds its budget yields `Fault.fuel`.

`size_type` (`TreeType::size_type`, declared outside the node layer) is an
unsigned integer type of `w` bits, at least as wide as `unsigned int`; `w` is a
parameter of the functions that do `size_type` arithmetic, which is written
with explicit `% 2 ^ w`.

The tree class itself (`RTree.hpp`: choose-subtree, quadratic split, insert and
erase) is not part of the node layer; the section "The tree layer" models it
from the specification, on trees as values, and relates its node operations to
the embedded ones.
-/

namespace RTree

/-- Why an execution has no result. -/
inductive Fault
  | undefined
  | fuel
  deriving DecidableEq

/-- The `_child` vector of a node: `(bound, child pointer)` pairs for `node_t`,
`(key, mapped)` pairs for `leaf_node_t`. -/
inductive Entries (G V : Type)
  | node (c : List (G × Nat))
  | leaf (c : List (G × V))
  deriving DecidableEq

/-- An object on the heap: the `node_base_t` header followed by the `_child`
vector of the derived class. -/
structure Obj (G V : Type) where
  _parent : Option Nat
  _index_on_parent : Nat
  _child : Entries G V
  deriving DecidableEq

/-- The heap: the object at address `a` is `h[a]?`. -/
abbrev Heap (G V : Type) := List (Obj G V)

variable {G V : Type}

/-! ## Heap primitives -/

/-- Dereference a pointer. -/
def deref (h : Heap G V) (a : Nat) : Except Fault (Obj G V) :=
  match h[a]? with
  | some o => .ok o
  | none => .error .undefined

/-- The statement `a->_parent = p`. -/
def set_parent (h : Heap G V) (a : Nat) (p : Option Nat) : Except Fault (Heap G V) :=
  match h[a]? with
  | some o => .ok (h.set a { o with _parent := p })
  | none => .error .undefined

/-- The statement `a->_index_on_parent = i`. -/
def set_index_on_parent (h : Heap G V) (a : Nat) (i : Nat) : Except Fault (Heap G V) :=
  match h[a]? with
  | some o => .ok (h.set a { o with _index_on_parent := i })
  | none => .error .undefined

/-- Read `a->_child` through a `node_t*`. -/
def node_t._child (h : Heap G V) (a : Nat) : Except Fault (List (G × Nat)) :=
  match h[a]? with
  | some ⟨_, _, .node c⟩ => .ok c
  | _ => .error .undefined

/-- Overwrite `a->_child` through a `node_t*`. -/
def node_t.set_child (h : Heap G V) (a : Nat) (c : List (G × Nat)) :
    Except Fault (Heap G V) :=
  match h[a]? with
  | some ⟨p, i, .node _⟩ => .ok (h.set a ⟨p, i, .node c⟩)
  | _ => .error .undefined

/-- Read `a->_child` through a `leaf_node_t*`. -/
def leaf_node_t._child (h : Heap G V) (a : Nat) : Except Fault (List (G × V)) :=
  match h[a]? with
  | some ⟨_, _, .leaf c⟩ => .ok c
  | _ => .error .undefined

/-- Overwrite `a->_child` through a `leaf_node_t*`. -/
def leaf_node_t.set_child (h : Heap G V) (a : Nat) (c : List (G × V)) :
    Except Fault (Heap G V) :=
  match h[a]? with
  | some ⟨p, i, .leaf _⟩ => .ok (h.set a ⟨p, i, .leaf c⟩)
  | _ => .error .undefined

/-- The vector access `v[i]`. -/
def at_ {α : Type} (v : List α) (i : Nat) : Except Fault α :=
  match v[i]? with
  | some x => .ok x
  | none => .error .undefined

/-- The vector access `v.back()`. -/
def back {α : Type} (v : List α) : Except Fault α :=
  match v.getLast? with
  | some x => .ok x
  | none => .error .undefined

/-- The statement `v.pop_back()`. -/
def pop_back {α : Type} (v : List α) : Except Fault (List α) :=
  match v with
  | [] => .error .undefined
  | _ :: _ => .ok v.dropLast

/-- The statement `v[i] = x`. -/
def assign {α : Type} (v : List α) (i : Nat) (x : α) : Except Fault (List α) :=
  if i < v.length then .ok (v.set i x) else .error .undefined

/-! ## `node_base_t` -/

/-- `node_base_t::parent`. -/
def node_base_t.parent (h : Heap G V) (self : Nat) : Except Fault (Option Nat) := do
  let o ← deref h self
  pure o._parent

/-- `node_base_t::is_root`: `_parent == nullptr`. -/
def node_base_t.is_root (h : Heap G V) (self : Nat) : Except Fault Bool := do
  let o ← deref h self
  pure (o._parent == none)

/-- `node_t::size`: `_child.size()` as a `size_type`. -/
def node_t.size (w : Nat) (h : Heap G V) (self : Nat) : Except Fault Nat := do
  let c ← node_t._child h self
  pure (c.length % 2 ^ w)

/-- `leaf_node_t::size`. -/
def leaf_node_t.size (w : Nat) (h : Heap G V) (self : Nat) : Except Fault Nat := do
  let c ← leaf_node_t._child h self
  pure (c.length % 2 ^ w)

/-- `node_base_t::next` (lines 65-81; the `const` overload and the overrides in
`node_t` and `leaf_node_t`, which only cast the result, are the same function).
The first argument bounds the depth of the recursion through `parent()->next()`. -/
def node_base_t.next (w : Nat) (h : Heap G V) : Nat → Nat → Except Fault (Option Nat)
  | 0, _ => .error .fuel
  | fuel + 1, self => do
    let o ← deref h self
    match o._parent with
    | none => pure none
    | some p =>
      let sz ← node_t.size w h p
      if o._index_on_parent = (sz + 2 ^ w - 1) % 2 ^ w then
        let n ← node_base_t.next w h fuel p
        match n with
        | none => pure none
        | some n =>
          let nc ← node_t._child h n
          let e ← at_ nc 0
          pure (some e.2)
      else
        let pc ← node_t._child h p
        let e ← at_ pc ((o._index_on_parent + 1) % 2 ^ w)
        pure (some e.2)

/-- `node_base_t::prev` (lines 102-118). -/
def node_base_t.prev (w : Nat) (h : Heap G V) : Nat → Nat → Except Fault (Option Nat)
  | 0, _ => .error .fuel
  | fuel + 1, self => do
    let o ← deref h self
    match o._parent with
    | none => pure none
    | some p =>
      if o._index_on_parent = 0 then
        let n ← node_base_t.prev w h fuel p
        match n with
        | none => pure none
        | some n =>
          let nc ← node_t._child h n
          let e ← back nc
          pure (some e.2)
      else
        let pc ← node_t._child h p
        let e ← at_ pc ((o._index_on_parent + 2 ^ w - 1) % 2 ^ w)
        pure (some e.2)

/-! ## `node_t` -/

/-- `node_t::insert` (lines 158-163). -/
def node_t.insert (w : Nat) (h : Heap G V) (self : Nat) (child : G × Nat) :
    Except Fault (Heap G V) := do
  let h1 ← set_parent h child.2 (some self)
  let sz ← node_t.size w h1 self
  let h2 ← set_index_on_parent h1 child.2 sz
  let c ← node_t._child h2 self
  node_t.set_child h2 self (c ++ [child])

/-- `node_t::erase(node_base_type*)` (lines 164-173). -/
def node_t.erase (w : Nat) (h : Heap G V) (self : Nat) (node : Nat) :
    Except Fault (Heap G V) := do
  let nd ← deref h node
  let sz ← node_t.size w h self
  let h2 ←
    if nd._index_on_parent < (sz + 2 ^ w - 1) % 2 ^ w then do
      let c ← node_t._child h self
      let b ← back c
      let h1 ← set_index_on_parent h b.2 nd._index_on_parent
      let nd1 ← deref h1 node
      let c1 ← node_t._child h1 self
      let b1 ← back c1
      let c2 ← assign c1 nd1._index_on_parent b1
      node_t.set_child h1 self c2
    else pure h
  let h3 ← set_parent h2 node none
  let c3 ← node_t._child h3 self
  let c4 ← pop_back c3
  node_t.set_child h3 self c4

/-- `node_t::erase(iterator)` (lines 174-177): `erase(pos->second)`; the iterator
is given by its offset from `begin()`. -/
def node_t.erase_iterator (w : Nat) (h : Heap G V) (self : Nat) (pos : Nat) :
    Except Fault (Heap G V) := do
  let c ← node_t._child h self
  let e ← at_ c pos
  node_t.erase w h self e.2

/-- The loop of `calculate_bound` (lines 214-217 and 358-361), entered with the
counter `i` and the accumulator `merged`; the first argument bounds the number
of evaluations of the loop condition.  The counter is an `int` compared with
`_child.size()`; node sizes stay far below `INT_MAX`, so it is a natural
number here. -/
def calculate_bound.loop {α : Type} (merge : G → G → G) (c : List (G × α)) :
    Nat → Nat → G → Except Fault G
  | 0, _, _ => .error .fuel
  | k + 1, i, merged =>
    if i < c.length then do
      let e ← at_ c i
      calculate_bound.loop merge c k (i + 1) (merge merged e.1)
    else pure merged

/-- The body shared by `node_t::calculate_bound` and
`leaf_node_t::calculate_bound`, on the `_child` vector. -/
def calculate_bound.body {α : Type} (merge : G → G → G) (c : List (G × α)) :
    Except Fault G :=
  -- assert( empty() == false );
  if c.isEmpty then .error .undefined
  else do
    let e ← at_ c 0
    calculate_bound.loop merge c c.length 1 e.1

/-- `node_t::calculate_bound` (lines 210-219); `merge` is
`geometry_traits<geometry_type>::merge`. -/
def node_t.calculate_bound (merge : G → G → G) (h : Heap G V) (self : Nat) :
    Except Fault G := do
  let c ← node_t._child h self
  calculate_bound.body merge c

/-! ## `leaf_node_t` -/

/-- `leaf_node_t::insert` (lines 306-309). -/
def leaf_node_t.insert (h : Heap G V) (self : Nat) (child : G × V) :
    Except Fault (Heap G V) := do
  let c ← leaf_node_t._child h self
  leaf_node_t.set_child h self (c ++ [child])

/-- `leaf_node_t::erase(value_type*)` (lines 314-321), and through it
`erase(iterator)` (lines 310-313).  The pointer `data` is given by its offset
`std::distance(_child.data(), data)`. -/
def leaf_node_t.erase (w : Nat) (h : Heap G V) (self : Nat) (data : Nat) :
    Except Fault (Heap G V) := do
  let sz ← leaf_node_t.size w h self
  let h1 ←
    if data % 2 ^ w ≠ (sz + 2 ^ w - 1) % 2 ^ w then do
      let c ← leaf_node_t._child h self
      let b ← back c
      let c1 ← assign c data b
      leaf_node_t.set_child h self c1
    else pure h
  let c2 ← leaf_node_t._child h1 self
  let c3 ← pop_back c2
  leaf_node_t.set_child h1 self c3

/-- `leaf_node_t::calculate_bound` (lines 354-363). -/
def leaf_node_t.calculate_bound (merge : G → G → G) (h : Heap G V) (self : Nat) :
    Except Fault G := do
  let c ← leaf_node_t._child h self
  calculate_bound.body merge c

/-! ## Cloning -/

/-- The expression `new node_type`: the fresh object gets the next free address;
`_parent` is initialised to `nullptr`, `_index_on_parent` is left indeterminate
by the source and is `0` here. -/
def new_node (h : Heap G V) : Heap G V × Nat :=
  (h ++ [⟨none, 0, .node []⟩], h.length)

/-- The expression `new leaf_type`. -/
def new_leaf (h : Heap G V) : Heap G V × Nat :=
  (h ++ [⟨none, 0, .leaf []⟩], h.length)

/-- `leaf_node_t::clone_recursive` (lines 369-374): returns the new heap and the
pointer to the copy. -/
def leaf_node_t.clone_recursive (h : Heap G V) (self : Nat) :
    Except Fault (Heap G V × Nat) := do
  let c ← leaf_node_t._child h self
  let (h1, new_node) := new_leaf h
  let h2 ← leaf_node_t.set_child h1 new_node c
  pure (h2, new_node)

/-- `node_t::clone_recursive` (lines 240-264): returns the new heap and the
pointer to the copy.  The first argument bounds the depth of the recursion;
`leaf_level` is the `int` argument of the source. -/
def node_t.clone_recursive (w : Nat) :
    Nat → Heap G V → Nat → Int → Except Fault (Heap G V × Nat)
  | 0, _, _, _ => .error .fuel
  | fuel + 1, h, self, leaf_level => do
    let c ← node_t._child h self
    let (h0, new_node) := new_node h
    let hf ←
      if leaf_level = 1 then
        c.foldlM (fun (hk : Heap G V) (e : G × Nat) => do
          let (h1, cl) ← leaf_node_t.clone_recursive hk e.2
          node_t.insert w h1 new_node (e.1, cl)) h0
      else
        c.foldlM (fun (hk : Heap G V) (e : G × Nat) => do
          let (h1, cl) ← node_t.clone_recursive w fuel hk e.2 (leaf_level - 1)
          node_t.insert w h1 new_node (e.1, cl)) h0
    pure (hf, new_node)

/-! ## Trees on the heap -/

/-- The child pointers of the object at `a`, in entry order, when it is an
internal node; no pointers otherwise. -/
def kids (h : Heap G V) (a : Nat) : List Nat :=
  match h[a]? with
  | some ⟨_, _, .node c⟩ => c.map Prod.snd
  | _ => []

/-- The nodes at depth `L` below `root`, left to right. -/
def level (h : Heap G V) (root : Nat) : Nat → List Nat
  | 0 => [root]
  | L + 1 => (level h root L).flatMap (kids h)

/-- The object at `a` is an internal node. -/
def is_node (h : Heap G V) (a : Nat) : Bool :=
  match h[a]? with
  | some ⟨_, _, .node _⟩ => true
  | _ => false

/-- The object at `a` is a leaf. -/
def is_leaf (h : Heap G V) (a : Nat) : Bool :=
  match h[a]? with
  | some ⟨_, _, .leaf _⟩ => true
  | _ => false

/-- The number of entries of the object at `a` (as a natural number). -/
def entry_count (h : Heap G V) (a : Nat) : Nat :=
  match h[a]? with
  | some ⟨_, _, .node c⟩ => c.length
  | some ⟨_, _, .leaf c⟩ => c.length
  | none => 0

/-- The field `_parent` of the object at `a`. -/
def par (h : Heap G V) (a : Nat) : Option (Option Nat) :=
  (h[a]?).map Obj._parent

/-- The field `_index_on_parent` of the object at `a`. -/
def idx (h : Heap G V) (a : Nat) : Option Nat :=
  (h[a]?).map Obj._index_on_parent

/-- The field `_child` of the object at `a`. -/
def ents (h : Heap G V) (a : Nat) : Option (Entries G V) :=
  (h[a]?).map Obj._child

/-- The header `(_parent, _index_on_parent)` of the object at `a`. -/
def header (h : Heap G V) (a : Nat) : Option (Option Nat × Nat) :=
  (h[a]?).map fun o => (o._parent, o._index_on_parent)

/-- The back-reference invariant at `p`: the child at position `i` of `p` has
`_parent == p` and `_index_on_parent == i`. -/
def BackRefs (h : Heap G V) (p : Nat) : Prop :=
  ∀ x ∈ (kids h p).enum, header h x.2 = some (some p, x.1)

instance (h : Heap G V) (p : Nat) : Decidable (BackRefs h p) := by
  unfold BackRefs; infer_instance

/-- A well-formed tree of `w`-bit sizes with root `root` and leaves at depth `D`:
the root has no parent, all leaves are at depth `D` (the nodes above are
internal), every non-root node is non-empty, every child's `_parent` and
`_index_on_parent` are correct, and every size fits `size_type`. -/
structure WellFormed (w : Nat) (h : Heap G V) (root : Nat) (D : Nat) : Prop where
  root_is_root : par h root = some none
  leaves : ∀ a ∈ level h root D, is_leaf h a = true
  internal : ∀ L < D, ∀ a ∈ level h root L, is_node h a = true
  nonempty : ∀ L ≤ D, 0 < L → ∀ a ∈ level h root L, 0 < entry_count h a
  backrefs : ∀ L < D, ∀ a ∈ level h root L, BackRefs h a
  sizes : ∀ L < D, ∀ a ∈ level h root L, entry_count h a < 2 ^ w

/-- Start at `start` and apply `nx` until it returns the end marker, collecting
the visited nodes; the first argument bounds the number of nodes visited. -/
def traverse (nx : Nat → Except Fault (Option Nat)) :
    Nat → Option Nat → Except Fault (List Nat)
  | _, none => .ok []
  | 0, some _ => .error .fuel
  | k + 1, some a => do
    let r ← nx a
    let rest ← traverse nx k r
    pure (a :: rest)

/-- A list is linked by `nx`: the successor of each element is the element after
it, and the successor of the last element is the end marker. -/
def Linked (nx : Nat → Except Fault (Option Nat)) (xs : List Nat) : Prop :=
  ∀ i a, xs[i]? = some a → nx a = .ok xs[i + 1]?

/-- A list is linked backwards by `pv`. -/
def LinkedBack (pv : Nat → Except Fault (Option Nat)) (xs : List Nat) : Prop :=
  ∀ i a, xs[i]? = some a → pv a = .ok (if i = 0 then none else xs[i - 1]?)

/-- The left fold of `merge` over a sequence of bounds, as the claims word the
result of `calculate_bound`; there is none for the empty sequence. -/
def merge_bounds (merge : G → G → G) : List G → Option G
  | [] => none
  | b :: bs => some (bs.foldl merge b)

/-! ## Subtrees as values -/

/-- A tree as a value: what a subtree on the heap holds, without addresses and
headers. -/
inductive Tree (G V : Type)
  | leaf (entries : List (G × V))
  | node (entries : List (G × Tree G V))

/-- The subtree at `a` has its leaves exactly `d` levels below `a`: the objects
above are internal nodes (of a size that fits `size_type`), those at level `d`
are leaves. -/
def shaped (w : Nat) (h : Heap G V) : Nat → Nat → Bool
  | 0, a => is_leaf h a
  | d + 1, a =>
    match ents h a with
    | some (.node c) => decide (c.length < 2 ^ w) && c.all fun e => shaped w h d e.2
    | _ => false

/-- The value of the subtree of depth `d` at `a`: its shape, the entry bounds of
every internal node in order, the entries of every leaf in order.  (For an
address that holds no object of the expected kind the value is an empty leaf;
`shaped` excludes this.) -/
def abstraction (h : Heap G V) : Nat → Nat → Tree G V
  | 0, a =>
    match ents h a with
    | some (.leaf c) => .leaf c
    | _ => .leaf []
  | d + 1, a =>
    match ents h a with
    | some (.node c) => .node (c.map fun e => (e.1, abstraction h d e.2))
    | _ => .leaf []

/-- The subtree of depth `d` at `a` lies at addresses `≥ lo`, every child lies
above its parent, the leaves are exactly `d` levels below `a`, and every
internal node has a size that fits `size_type` and satisfies the back-reference
invariant. -/
def FreshTree (w : Nat) (h : Heap G V) : Nat → Nat → Nat → Prop
  | lo, 0, a => lo ≤ a ∧ is_leaf h a = true
  | lo, d + 1, a =>
    lo ≤ a ∧ BackRefs h a ∧
      ∃ c, ents h a = some (.node c) ∧ c.length < 2 ^ w ∧
        ∀ e ∈ c, FreshTree w h (a + 1) d e.2

/-- The fields of the objects at the addresses below `n` are the same in `h'` as
in `h`. -/
def SameBelow (n : Nat) (h h' : Heap G V) : Prop :=
  ∀ b, b < n → par h' b = par h b ∧ idx h' b = idx h b ∧ ents h' b = ents h b

/-- The body of `node_t::clone_recursive` (lines 242-263) with the function that
clones a child as a parameter: `leaf_node_t::clone_recursive` when
`leaf_level == 1`, the recursive call otherwise. -/
def clone_node_with (w : Nat) (cloneC : Heap G V → Nat → Except Fault (Heap G V × Nat))
    (h : Heap G V) (self : Nat) : Except Fault (Heap G V × Nat) := do
  let c ← node_t._child h self
  let (h0, new_node) := new_node h
  let hf ← c.foldlM (fun (hk : Heap G V) (e : G × Nat) => do
    let (h1, cl) ← cloneC hk e.2
    node_t.insert w h1 new_node (e.1, cl)) h0
  pure (hf, new_node)

/-- The contract of a function that clones subtrees of depth `d`: on a subtree
with its leaves `d` levels below, it returns the next free address and a heap
that keeps every object of the old heap and holds there a fresh subtree of the
same value, whose root has no parent. -/
def ClonesDepth (w d : Nat) (cloneC : Heap G V → Nat → Except Fault (Heap G V × Nat)) : Prop :=
  ∀ hk a, shaped w hk d a = true →
    ∃ h1, cloneC hk a = .ok (h1, hk.length) ∧ hk.length < h1.length ∧
      SameBelow hk.length hk h1 ∧ FreshTree w h1 hk.length d hk.length ∧
      abstraction h1 d hk.length = abstraction hk d a ∧ par h1 hk.length = some none

/-- The state of the loop of `node_t::clone_recursive` on the source heap `h`:
the new node is at `h.length` and holds the entries `done` so far, whose
children are fresh subtrees of depth `d` linked to the new node, and no object
of the source has changed. -/
structure CloneInv (w d : Nat) (h hk : Heap G V) (done : List (G × Nat)) : Prop where
  longer : h.length < hk.length
  same : SameBelow h.length h hk
  entries : ents hk h.length = some (.node done)
  root : par hk h.length = some none
  children : ∀ i x, done[i]? = some x →
    FreshTree w hk (h.length + 1) d x.2 ∧ par hk x.2 = some (some h.length) ∧
      idx hk x.2 = some i

/-! ## Sample heaps -/

/-- A tree with leaves at depth 2, over 1-D integer intervals: the root (address
0) has the internal children 1 and 2; node 1 has the leaves 3 and 4, node 2 has
the leaf 5. -/
def sample_tree : Heap (Int × Int) Nat :=
  [ ⟨none, 0, .node [((0, 9), 1), ((10, 20), 2)]⟩,
    ⟨some 0, 0, .node [((0, 4), 3), ((5, 9), 4)]⟩,
    ⟨some 0, 1, .node [((10, 20), 5)]⟩,
    ⟨some 1, 0, .leaf [((0, 4), 7)]⟩,
    ⟨some 1, 1, .leaf [((5, 9), 8), ((6, 7), 9)]⟩,
    ⟨some 2, 0, .leaf [((10, 20), 10)]⟩ ]

/-- A node (address 0) whose only child is the leaf at address 1. -/
def sample_pair : Heap (Int × Int) Nat :=
  [ ⟨none, 0, .node [((0, 1), 1)]⟩,
    ⟨some 0, 0, .leaf [((0, 1), 7)]⟩ ]

/-- Modelled from the spec: `merge` of the 1-D interval geometry of §8 (bounds
`[lo, hi]`), the smallest interval containing both arguments; its source,
`geometry_traits`, is not part of the node layer.  Used as a sample instance of
the geometry parameter. -/
def interval_merge (a b : Int × Int) : Int × Int :=
  (min a.1 b.1, max a.2 b.2)

/-- Modelled from the spec: `contains` of the 1-D interval geometry of §8:
`a` contains `b`.  Used as a sample instance of the geometry parameter. -/
def interval_contains (a b : Int × Int) : Bool :=
  decide (a.1 ≤ b.1 ∧ b.2 ≤ a.2)

/-- The tree of `sample_pair` with a second leaf, and with back-references that
are not correct: the leaves (addresses 1 and 2) name a parent and indices that
are not theirs. -/
def sample_unlinked : Heap (Int × Int) Nat :=
  [ ⟨none, 0, .node [((0, 1), 1), ((2, 3), 2)]⟩,
    ⟨some 5, 7, .leaf [((0, 1), 7)]⟩,
    ⟨none, 0, .leaf [((2, 3), 8)]⟩ ]

/-- The root of `sample_tree` with its two entries in the other order. -/
def sample_swapped : Heap (Int × Int) Nat :=
  [ ⟨none, 0, .node [((10, 20), 2), ((0, 9), 1)]⟩ ]

/-! ## Depth of a node, and `next` with its subtraction checked -/

/-- The parent links lead from `n` to a root, a node with a null parent, in `k`
steps: `n` has depth `k`. -/
def parent_chain (h : Heap G V) : Nat → Nat → Bool
  | 0, n => par h n == some none
  | k + 1, n =>
    match par h n with
    | some (some p) => parent_chain h k p
    | _ => false

/-- `node_base_t::next` (lines 65-81) with the unsigned subtraction
`parent()->size() - 1` checked: `Fault.undefined` when `parent()->size()` is
0, where the subtraction wraps.  Everything else is `node_base_t.next`. -/
def node_base_t.next_checked (w : Nat) (h : Heap G V) :
    Nat → Nat → Except Fault (Option Nat)
  | 0, _ => .error .fuel
  | fuel + 1, self => do
    let o ← deref h self
    match o._parent with
    | none => pure none
    | some p =>
      let sz ← node_t.size w h p
      if sz = 0 then .error .undefined
      else if o._index_on_parent = (sz + 2 ^ w - 1) % 2 ^ w then
        let n ← node_base_t.next_checked w h fuel p
        match n with
        | none => pure none
        | some n =>
          let nc ← node_t._child h n
          let e ← at_ nc 0
          pure (some e.2)
      else
        let pc ← node_t._child h p
        let e ← at_ pc ((o._index_on_parent + 1) % 2 ^ w)
        pure (some e.2)

/-- Modelled from the spec: the default `MIN_ENTRIES`, `⌈M·0.4⌉` (§3), in exact
arithmetic; the configuration constants are declared in `RTree.hpp`, which is
not part of the node layer. -/
def default_min_entries (M : Nat) : Nat :=
  Nat.ceil ((M : ℚ) * (4 / 10))

/-! ## The tree layer: insert and erase

`RTree.hpp`, which holds the tree class (choose-subtree, quadratic split, insert,
erase), is not part of the node layer embedded above.  This section models it
from the specification (§3, §4.D-§4.G), on trees as values: a node is the sequence
of its entries, as `_child` holds them, and an internal entry carries its child
node instead of a pointer to it.  The operations on one node are the ones the
node layer performs on `_child`: append (`insert`), overwrite with the last entry
and drop it (`erase`), and the left fold of `merge` (`calculate_bound`). -/

/-- Modelled from the spec: the geometry trait as far as insert and erase use it
(§4.A: `merge`, `area`) and the two fixed parameters of the tree (§3), which
`RTree.hpp` and `global.hpp` declare. -/
structure Params (G : Type) where
  merge : G → G → G
  area : G → Int
  MAX_ENTRIES : Nat
  MIN_ENTRIES : Nat

/-- Modelled from the spec: "Requires `2 ≤ m ≤ ⌈M/2⌉`" (§3), a requirement on the
constants of `RTree.hpp`; `⌈M/2⌉` is written `(M + 1) / 2` in natural-number
division. -/
def Params.Legal (P : Params G) : Prop :=
  2 ≤ P.MIN_ENTRIES ∧ P.MIN_ENTRIES ≤ (P.MAX_ENTRIES + 1) / 2

instance (P : Params G) : Decidable P.Legal := by
  unfold Params.Legal; exact inferInstance

/-- Modelled from the spec: the payload of an entry (glossary, "Entry": "a child-node
pointer in an internal node, a value in a leaf") of a node `k` levels above the
leaves; the child node of `RTree.hpp` is held by value, as the sequence of its
entries.  All leaves of a node of height `k` are `k` levels below it (§3,
invariant 1). -/
def Payload (G V : Type) : Nat → Type
  | 0 => V
  | k + 1 => List (G × Payload G V k)

/-- Modelled from the spec: a node (§3, "an ordered, bounded sequence of entries")
`k` levels above the leaves, a leaf for `k = 0`; the node types are declared in
`node.hpp`, the tree built from them in `RTree.hpp`. -/
abbrev RNode (G V : Type) (k : Nat) : Type := List (G × Payload G V k)

/-- Modelled from the spec: the child node of an internal entry `(bound,
child-node)` (§3) of the trees of `RTree.hpp`. -/
def child {k : Nat} (e : G × Payload G V (k + 1)) : RNode G V k := e.2

/-- Modelled from the spec: the internal entry `(bound, child-node)` (§3) of the
trees of `RTree.hpp`. -/
def entry {k : Nat} (b : G) (c : RNode G V k) : G × Payload G V (k + 1) := (b, c)

/-- Modelled from the spec: the tree (§3), "a single root pointer and the current
height `leaves_level`", the state of the class of `RTree.hpp`.  The empty tree
is the tree with `leaves_level = 0` whose root leaf has no entry. -/
structure TreeState (G V : Type) where
  leaves_level : Nat
  root : RNode G V leaves_level

/-- Modelled from the spec: "Default-construct yields an empty tree" (§6), the
constructor of `RTree.hpp`. -/
def TreeState.empty : TreeState G V := ⟨0, []⟩

/-- Modelled from the spec: the `(bound, value)` pairs below an entry, from left
to right: what the entry-level iterator of `RTree.hpp` enumerates inside one
subtree (§4.C, "running a leaf-level node iterator and flattening each leaf"). -/
def payload_entries : (k : Nat) → G × Payload G V k → List (G × V)
  | 0, e => [e]
  | k + 1, e => (child e).flatMap (payload_entries k)

/-- Modelled from the spec: the `(bound, value)` pairs below a node, from left to
right (§4.C), as the entry-level iterator of `RTree.hpp` yields them. -/
def entries (k : Nat) (n : RNode G V k) : List (G × V) :=
  n.flatMap (payload_entries k)

/-- Modelled from the spec: iteration from `begin()` to `end()` (§4.C, §6) of the
tree of `RTree.hpp`: every `(bound, value)` pair of every leaf, leaves from left
to right. -/
def TreeState.entries (t : TreeState G V) : List (G × V) :=
  RTree.entries t.leaves_level t.root

/-- Modelled from the spec: the sizes of the nodes at depth `d` below a node of
height `k`, from left to right: what the node-level iterator of `RTree.hpp` at a
specified depth (§4.C, §6) visits, the root being at depth 0. -/
def level_sizes : (k : Nat) → RNode G V k → Nat → List Nat
  | _, n, 0 => [n.length]
  | 0, _, _ + 1 => []
  | k + 1, n, d + 1 => n.flatMap fun e => level_sizes k (child e) d

/-- Modelled from the spec: "take the earliest" (§4.D) among the best elements of
a sequence: the position and the element that no other element beats, the
earliest one when several are equally good.  Shared by the selections of
`RTree.hpp`: choose-subtree, seed picking and the next entry to distribute. -/
def first_best {α : Type} (better : α → α → Bool) : List α → Option (Nat × α)
  | [] => none
  | a :: rest =>
    match first_best better rest with
    | none => some (0, a)
    | some (i, x) => if better x a then some (i + 1, x) else some (0, a)

/-- Modelled from the spec: the enlargement (glossary) `area(merge(a, b)) −
area(a)`, computed in `RTree.hpp` from the geometry trait. -/
def enlargement (P : Params G) (a b : G) : Int :=
  P.area (P.merge a b) - P.area a

/-- Modelled from the spec: choose-subtree (§4.D) of `RTree.hpp`: the child entry
of least enlargement by the incoming bound `b`, ties broken by smaller area, then
by position; `none` for a node without entries. -/
def choose_subtree {β : Type} (P : Params G) (n : List (G × β)) (b : G) :
    Option (Nat × (G × β)) :=
  first_best
    (fun x y =>
      decide (enlargement P x.1 b < enlargement P y.1 b ∨
        (enlargement P x.1 b = enlargement P y.1 b ∧ P.area x.1 < P.area y.1)))
    n

/-- Modelled from the spec: the pairs `(i, j)`, `i < j`, of a sequence, which seed
picking (§4.E step 1) of `RTree.hpp` ranges over. -/
def ordered_pairs {α : Type} : List α → List (α × α)
  | [] => []
  | x :: rest => rest.map (fun y => (x, y)) ++ ordered_pairs rest

/-- Modelled from the spec: the waste `area(merge(E_i, E_j)) − area(E_i) −
area(E_j)` of a pair of seeds (§4.E step 1) in the split of `RTree.hpp`. -/
def waste (P : Params G) (a b : G) : Int :=
  P.area (P.merge a b) - P.area a - P.area b

/-- Modelled from the spec: pick seeds (§4.E step 1) of the split of `RTree.hpp`:
the most wasteful pair, each seed with its position, the first such pair when
several are equally wasteful; `none` when there are fewer than two entries. -/
def pick_seeds {β : Type} (P : Params G) (es : List (G × β)) :
    Option ((Nat × (G × β)) × (Nat × (G × β))) :=
  (first_best
    (fun p q => decide (waste P q.1.2.1 q.2.2.1 < waste P p.1.2.1 p.2.2.1))
    (ordered_pairs es.enum)).map Prod.snd

/-- Modelled from the spec: a group of the split of `RTree.hpp` (§4.E): its bound
and its entries, in the order in which they were assigned. -/
abbrev Group (G β : Type) : Type := G × List (G × β)

/-- Modelled from the spec: assign an entry to a group (§4.E step 2) in the split
of `RTree.hpp`: the entry is appended and the group bound is merged with its
bound. -/
def Group.add {β : Type} (P : Params G) (g : Group G β) (e : G × β) : Group G β :=
  (P.merge g.1 e.1, g.2 ++ [e])

/-- Modelled from the spec: a group takes all remaining entries (§4.E step 2,
first case) in the split of `RTree.hpp`. -/
def Group.add_all {β : Type} (P : Params G) (g : Group G β) (es : List (G × β)) :
    Group G β :=
  es.foldl (Group.add P) g

/-- Modelled from the spec: the next entry to assign (§4.E step 2) in the split of
`RTree.hpp`: the ungrouped entry with the largest `d(E) = |enlargement(G1, E) −
enlargement(G2, E)|`, the one of lowest position among equals. -/
def pick_next {β : Type} (P : Params G) (g1 g2 : Group G β) (rest : List (G × β)) :
    Option (Nat × (G × β)) :=
  first_best
    (fun x y =>
      decide ((enlargement P g1.1 y.1 - enlargement P g2.1 y.1).natAbs <
        (enlargement P g1.1 x.1 - enlargement P g2.1 x.1).natAbs))
    rest

/-- Modelled from the spec: the group an entry is assigned to (§4.E step 2) in the
split of `RTree.hpp`: the one "whose bound requires less enlargement; tie-break by
smaller area, then by smaller current size", then the first group.  True when the
second group is taken. -/
def prefers_second {β : Type} (P : Params G) (g1 g2 : Group G β) (e : G × β) : Bool :=
  if enlargement P g2.1 e.1 < enlargement P g1.1 e.1 then true
  else if enlargement P g1.1 e.1 < enlargement P g2.1 e.1 then false
  else if P.area g2.1 < P.area g1.1 then true
  else if P.area g1.1 < P.area g2.1 then false
  else decide (g2.2.length < g1.2.length)

/-- Modelled from the spec: distribute the rest (§4.E step 2) in the split of
`RTree.hpp`.  Each round assigns at least one entry; the first argument bounds the
number of rounds and is the number of ungrouped entries at the call. -/
def distribute {β : Type} (P : Params G) :
    Nat → Group G β → Group G β → List (G × β) → Group G β × Group G β
  | 0, g1, g2, _ => (g1, g2)
  | rounds + 1, g1, g2, rest =>
    -- While entries remain:
    if rest.isEmpty then (g1, g2)
    -- one group must take all remaining entries to reach m
    else if g1.2.length + rest.length ≤ P.MIN_ENTRIES then (Group.add_all P g1 rest, g2)
    else if g2.2.length + rest.length ≤ P.MIN_ENTRIES then (g1, Group.add_all P g2 rest)
    else
      match pick_next P g1 g2 rest with
      | none => (g1, g2)
      | some (k, e) =>
        if prefers_second P g1 g2 e then
          distribute P rounds g1 (Group.add P g2 e) (rest.eraseIdx k)
        else
          distribute P rounds (Group.add P g1 e) g2 (rest.eraseIdx k)

/-- Modelled from the spec: quadratic split (§4.E) of `RTree.hpp`, on the entries
of an overflown node: "Returns the two group bounds and their entry lists";
`none` when there are fewer than two entries to seed the groups with. -/
def quadratic_split {β : Type} (P : Params G) (es : List (G × β)) :
    Option (Group G β × Group G β) :=
  match pick_seeds P es with
  | none => none
  | some ((i, ei), (j, ej)) =>
    let rest := (es.eraseIdx j).eraseIdx i
    some (distribute P rest.length (ei.1, [ei]) (ej.1, [ej]) rest)

/-! ### Insert -/

/-- Modelled from the spec: what the insertion into a subtree hands to the level
above (§4.F steps 4-5) in `RTree.hpp`: the node as it is now, or the two halves
`N`, `N'` of its split with their bounds `b`, `b'`. -/
inductive Grown (G α : Type) where
  | one (n : α)
  | two (b1 : G) (n1 : α) (b2 : G) (n2 : α)

/-- Modelled from the spec: insert an entry into a node and split the node when it
overflows (§4.F steps 3-4 for a leaf, step 5 for a parent) in `RTree.hpp`. -/
def attach {β : Type} (P : Params G) (n : List (G × β)) (e : G × β) :
    Grown G (List (G × β)) :=
  if (n ++ [e]).length ≤ P.MAX_ENTRIES then .one (n ++ [e])
  else
    match quadratic_split P (n ++ [e]) with
    | some (g1, g2) => .two g1.1 g1.2 g2.1 g2.2
    | none => .one (n ++ [e])

/-- Modelled from the spec: tighten (§4.F step 7, §4.G step 2) in `RTree.hpp`: the
new bound of the entry of a mutated child, "the child's recomputed bound union",
which is `calculate_bound` of the child; the old bound `b` stays for a child
without entries, where `calculate_bound` is not defined. -/
def tighten {β : Type} (P : Params G) (c : List (G × β)) (b : G) : G :=
  (merge_bounds P.merge (c.map Prod.fst)).getD b

/-- Modelled from the spec: the insert path below one node (§4.F steps 2-5 and 7)
of `RTree.hpp`, for an entry that belongs into a node `k` levels above the leaves:
`k = 0` for a `(bound, value)` pair, `k > 0` for an internal entry, whose child
is a node of height `k - 1`.  The
descent takes choose-subtree with the bound of the entry at every node higher
than `k`; on the way back the entry of the mutated child is tightened, or replaced
by the two halves of its split.  A node without entries above height `k`, and an
entry higher than the subtree, leave the node as it is. -/
def insert_rec (P : Params G) (k : Nat) (e : G × Payload G V k) :
    (H : Nat) → RNode G V H → Grown G (RNode G V H)
  | 0, n => if h : k = 0 then attach P n (h ▸ e) else .one n
  | H + 1, n =>
    if h : k = H + 1 then attach P n (h ▸ e)
    else
      match choose_subtree P n e.1 with
      | none => .one n
      | some (i, x) =>
        match insert_rec P k e H (child x) with
        | .one c => .one (n.set i (entry (tighten P c x.1) c))
        | .two b1 c1 b2 c2 => attach P (n.set i (entry b1 c1)) (entry b2 c2)

/-- Modelled from the spec: the insert path at the root (§4.F steps 1 and 6) of
`RTree.hpp`, for an entry of height `k`: "If the root itself was split, create a
new internal root whose two entries are the two halves, increment
`leaves_level`."  On the empty tree the entry is attached to the empty root leaf,
which is step 1. -/
def TreeState.insert_entry (P : Params G) (t : TreeState G V) (k : Nat)
    (e : G × Payload G V k) : TreeState G V :=
  match insert_rec P k e t.leaves_level t.root with
  | .one n => ⟨t.leaves_level, n⟩
  | .two b1 n1 b2 n2 => ⟨t.leaves_level + 1, [entry b1 n1, entry b2 n2]⟩

/-- Modelled from the spec: `insert(bound, value)` (§4.F) of `RTree.hpp`. -/
def TreeState.insert (P : Params G) (t : TreeState G V) (e : G × V) : TreeState G V :=
  t.insert_entry P 0 e

/-! ### Erase -/

/-- Modelled from the spec: the entry iterator handed to `erase` (§4.G, §6), a
type of `RTree.hpp`: the leaf it stands in, given by the positions of the
entries that lead to it from the root, and the position of the entry in that
leaf. -/
structure entry_iterator where
  path : List Nat
  pos : Nat

/-- Modelled from the spec: the entry an iterator of `RTree.hpp` points to below a
node; `none` for an iterator that does not lead to an entry of this subtree ("a
foreign or stale iterator", §7). -/
def entry_at : (H : Nat) → RNode G V H → List Nat → Nat → Option (G × V)
  | 0, n, [], pos => n[pos]?
  | 0, _, _ :: _, _ => none
  | _ + 1, _, [], _ => none
  | H + 1, n, i :: path, pos =>
    match n[i]? with
    | none => none
    | some x => entry_at H (child x) path pos

/-- Modelled from the spec: `remove_entry(i)` (§4.B), "swap-with-last-then-shrink",
as the erase path of `RTree.hpp` applies it to a node; on `_child` it is what
`node_t::erase` and `leaf_node_t::erase` do. -/
def remove_entry {β : Type} (n : List β) (i : Nat) : List β :=
  match n.getLast? with
  | none => n
  | some e => (n.set i e).dropLast

/-- Modelled from the spec: how a mutator of `RTree.hpp` ends when it does not
return a tree.  `contract` is the abort on a contract violation (§7), "erase with
a foreign or stale iterator".  `malformed` is the end of an erase whose
reinsertion (§4.G step 4) attaches an entry to a node that is not one level above
the child of the entry: what results has a child pointer in a leaf, or leaves at
two depths, and is not a tree of §3 (invariant 1), which `TreeState` holds.  In
the node layer a child entry is attached to a leaf by `node_t::insert` through a
pointer to a `leaf_node_t`, which is undefined (`node_insert_on_leaf`). -/
inductive Abort where
  | contract
  | malformed
  deriving DecidableEq

/-- Modelled from the spec: an orphaned node of the list `Q` (§4.G step 2) of
`RTree.hpp`, "paired with the depth at which [its] entries originally lived": the
depth of the node below the root, the root being at depth 0.  The height of the
node above the leaves is the index of its type; it tells leaf entries from
internal entries. -/
structure Orphan (G V : Type) where
  depth : Nat
  height : Nat
  node : RNode G V height

/-- Modelled from the spec: steps 1 and 2 of `erase` (§4.G) of `RTree.hpp` below
one node, which is at depth `d`: swap-remove of the target entry from its leaf,
then, back up the path from the leaf, "if `n`'s size dropped below `m` and `n` is
not the root, remove `n`'s own entry from its parent (swap-remove) and append `n`
to `Q` with its depth", "otherwise tighten `n`'s entry bound in its parent".  The
leaf is the first node `n` of the path, the one whose entry the leaf's parent
holds: the leaf entries that step 4 reinserts are those of an orphaned leaf.  The
node given is the one the walk is at; the test on its own size is made by its
parent, so it is never made for the root.  The result is the node and `Q`, `none`
for an iterator that does not lead to an entry. -/
def remove_rec (P : Params G) :
    (H : Nat) → Nat → RNode G V H → List Nat → Nat →
      Option (RNode G V H × List (Orphan G V))
  | 0, _, n, [], pos => if pos < n.length then some (remove_entry n pos, []) else none
  | 0, _, _, _ :: _, _ => none
  | _ + 1, _, _, [], _ => none
  | H + 1, d, n, i :: path, pos =>
    match n[i]? with
    | none => none
    | some x =>
      match remove_rec P H (d + 1) (child x) path pos with
      | none => none
      | some (c, q) =>
        if c.length < P.MIN_ENTRIES then some (remove_entry n i, q ++ [⟨d + 1, H, c⟩])
        else some (n.set i (entry (tighten P c x.1) c), q)

/-- Modelled from the spec: shrink-root (§4.G step 3) of `RTree.hpp`: "If the root
is an internal node with exactly one child, drop the root, promote that only child
to root, decrement `leaves_level`." -/
def shrink_root : TreeState G V → TreeState G V
  | ⟨H + 1, [e]⟩ => ⟨H, child e⟩
  | t => t

/-- Modelled from the spec: the reinsertion of an internal entry below one node
(§4.G step 4) of `RTree.hpp`: "descending to the same depth the entry came from and
attaching there, using choose-subtree at each higher level and creating a new
leaf/internal split if overflow results".  `t` is the number of levels still to
descend; `k` is the height of the node the entry came from, so that its child
is a node of height `k - 1`.  The entry is attached to the node reached after `t`
levels, and the way back is the one of the insert path (§4.F steps 5 and 7).
When the node reached is not of height `k`, or the leaves are reached before the
target depth, the end is `Abort.malformed`. -/
def insert_at (P : Params G) (k : Nat) (e : G × Payload G V k) :
    (H : Nat) → Nat → RNode G V H → Except Abort (Grown G (RNode G V H))
  | H, 0, n => if h : k = H then .ok (attach P n (h ▸ e)) else .error .malformed
  | 0, _ + 1, _ => .error .malformed
  | H + 1, t + 1, n =>
    match choose_subtree P n e.1 with
    | none => .ok (.one n)
    | some (i, x) =>
      match insert_at P k e H t (child x) with
      | .error a => .error a
      | .ok (.one c) => .ok (.one (n.set i (entry (tighten P c x.1) c)))
      | .ok (.two b1 c1 b2 c2) => .ok (attach P (n.set i (entry b1 c1)) (entry b2 c2))

/-- Modelled from the spec: the reinsertion of one internal entry into the tree
(§4.G step 4, §9) of `RTree.hpp`, at the depth `d` it came from: "clamp the
reinsertion depth to the current `leaves_level`"; a split of the root grows the
tree as in the insert path (§4.F step 6).  The clamp changes the target only for
`d > leaves_level`, and the target is then the depth of the leaves. -/
def TreeState.insert_at_depth (P : Params G) (t : TreeState G V) (d k : Nat)
    (e : G × Payload G V k) : Except Abort (TreeState G V) :=
  match insert_at P k e t.leaves_level (min d t.leaves_level) t.root with
  | .error a => .error a
  | .ok (.one n) => .ok ⟨t.leaves_level, n⟩
  | .ok (.two b1 n1 b2 n2) => .ok ⟨t.leaves_level + 1, [entry b1 n1, entry b2 n2]⟩

/-- Modelled from the spec: the reinsertion of a sequence of internal entries that
came from depth `d` (§4.G step 4) of `RTree.hpp`, one after the other. -/
def reinsert_internal (P : Params G) (d k : Nat) :
    TreeState G V → List (G × Payload G V k) → Except Abort (TreeState G V)
  | t, [] => .ok t
  | t, e :: es =>
    match t.insert_at_depth P d k e with
    | .error a => .error a
    | .ok t1 => reinsert_internal P d k t1 es

/-- Modelled from the spec: the reinsertion of the entries of one orphaned node
(§4.G step 4) of `RTree.hpp`: "leaf entries via the normal insert path (§4.F);
internal entries by descending to the same depth the entry came from and attaching
there". -/
def reinsert_node (P : Params G) (t : TreeState G V) : Orphan G V → Except Abort (TreeState G V)
  | ⟨_, 0, n⟩ => .ok (n.foldl (TreeState.insert P) t)
  | ⟨d, k + 1, n⟩ => reinsert_internal P d (k + 1) t n

/-- Modelled from the spec: reinsert orphans (§4.G step 4) of `RTree.hpp`: "For each
node `n` in `Q`, reinsert every entry of `n` into the tree at the correct target
depth", in the order of `Q`. -/
def reinsert (P : Params G) :
    TreeState G V → List (Orphan G V) → Except Abort (TreeState G V)
  | t, [] => .ok t
  | t, o :: q =>
    match reinsert_node P t o with
    | .error a => .error a
    | .ok t1 => reinsert P t1 q

/-- Modelled from the spec: `erase(leaf_iterator)` (§4.G) of `RTree.hpp`: remove and
condense from the root, which is at depth 0, shrink-root, reinsert orphans.
`Abort.contract` for an iterator that does not point to an entry of the tree. -/
def TreeState.erase (P : Params G) (t : TreeState G V) (it : entry_iterator) :
    Except Abort (TreeState G V) :=
  match remove_rec P t.leaves_level 0 t.root it.path it.pos with
  | none => .error .contract
  | some (r, q) => reinsert P (shrink_root ⟨t.leaves_level, r⟩) q

/-- Modelled from the spec: the entry an iterator points to in the tree of
`RTree.hpp`, `none` for an iterator that is not valid for it. -/
def TreeState.entry_at (t : TreeState G V) (it : entry_iterator) : Option (G × V) :=
  RTree.entry_at t.leaves_level t.root it.path it.pos

/-! ### Sequences of operations -/

/-- Modelled from the spec: a mutator call on the tree of `RTree.hpp` (§6):
`insert(bound, value)` or `erase(entry_iterator)`. -/
inductive Op (G V : Type) where
  | insert (e : G × V)
  | erase (it : entry_iterator)

/-- Modelled from the spec: one mutator call (§6) of `RTree.hpp` on a tree. -/
def TreeState.apply (P : Params G) (t : TreeState G V) :
    Op G V → Except Abort (TreeState G V)
  | .insert e => .ok (t.insert P e)
  | .erase it => t.erase P it

/-- Modelled from the spec: a sequence of mutator calls (§6) of `RTree.hpp` on a
tree, from left to right, up to the first call that does not return a tree. -/
def TreeState.run (P : Params G) :
    TreeState G V → List (Op G V) → Except Abort (TreeState G V)
  | t, [] => .ok t
  | t, op :: ops =>
    match t.apply P op with
    | .error a => .error a
    | .ok t1 => TreeState.run P t1 ops

/-- Modelled from the spec: the tree of `RTree.hpp` after a sequence of inserts
into the empty tree (§8, round-trip). -/
def TreeState.build (P : Params G) (xs : List (G × V)) : TreeState G V :=
  xs.foldl (TreeState.insert P) TreeState.empty

/-! ### The invariants of the tree layer -/

/-- Modelled from the spec: invariants 2 and 4 of §3 for the subtree below an entry
of a node `k` levels above the leaves: the child of an internal entry has
between `m` and `M` entries, and the bound of the entry is `calculate_bound` of the
child, "the union of child bounds"; the same holds below. -/
def EntrySound (P : Params G) : (k : Nat) → G × Payload G V k → Prop
  | 0, _ => True
  | k + 1, e =>
    P.MIN_ENTRIES ≤ (child e).length ∧ (child e).length ≤ P.MAX_ENTRIES ∧
    merge_bounds P.merge ((child e).map Prod.fst) = some e.1 ∧
    ∀ x ∈ child e, EntrySound P k x

/-- Modelled from the spec: invariants 2 and 4 of §3 below a node of the tree of
`RTree.hpp`, the node itself left aside. -/
def Sound (P : Params G) (k : Nat) (n : RNode G V k) : Prop :=
  ∀ e ∈ n, EntrySound P k e

/-- Modelled from the spec: invariants 2, 3 and 4 of §3 for the tree of `RTree.hpp`:
the root has at most `M` entries, at least two when it is an internal node, and
the invariants hold below it. -/
def TreeState.Ok (P : Params G) (t : TreeState G V) : Prop :=
  t.root.length ≤ P.MAX_ENTRIES ∧ (0 < t.leaves_level → 2 ≤ t.root.length) ∧
    Sound P t.leaves_level t.root

/-! ### A sample geometry -/

/-- Modelled from the spec: `area` of the 1-D interval geometry of §8, the length
of the interval; its source, `geometry_traits`, is not part of the node layer. -/
def interval_area (a : Int × Int) : Int := a.2 - a.1

/-- Modelled from the spec: the tree parameters of scenario 2 of §8, `M = 4` and
`m = 2` over 1-D intervals; the constants are template arguments of the class of
`RTree.hpp`. -/
def interval_params : Params (Int × Int) := ⟨interval_merge, interval_area, 4, 2⟩

/-- The five entries of scenario 2 of §8. -/
def scenario_entries : List ((Int × Int) × Nat) :=
  [((0, 0), 0), ((1, 1), 1), ((2, 2), 2), ((3, 3), 3), ((4, 4), 4)]

/-- The bound of a group is `calculate_bound` of its entries. -/
def GroupOk {β : Type} (P : Params G) (g : Group G β) : Prop :=
  merge_bounds P.merge (g.2.map Prod.fst) = some g.1

/-- What the insert path below a node hands up, for a node that had `len` entries
and a subtree that is to hold the pairs `all`: the node, not shrunk and not
overflown, or two halves within `m` and `M` with their bounds; the invariants
hold below and no pair is lost or made up. -/
def GrownOk (P : Params G) (H len : Nat) (all : List (G × V)) :
    Grown G (RNode G V H) → Prop
  | .one n =>
    len ≤ n.length ∧ n.length ≤ P.MAX_ENTRIES ∧ Sound P H n ∧
      (entries H n).Perm all
  | .two b1 n1 b2 n2 =>
    P.MIN_ENTRIES ≤ n1.length ∧ n1.length ≤ P.MAX_ENTRIES ∧
    P.MIN_ENTRIES ≤ n2.length ∧ n2.length ≤ P.MAX_ENTRIES ∧
    Sound P H n1 ∧ Sound P H n2 ∧
    merge_bounds P.merge (n1.map Prod.fst) = some b1 ∧
    merge_bounds P.merge (n2.map Prod.fst) = some b2 ∧
    (entries H n1 ++ entries H n2).Perm all

/-- The `(bound, value)` pairs below the orphaned nodes of `Q`. -/
def orphan_entries (q : List (Orphan G V)) : List (G × V) :=
  q.flatMap fun o => entries o.height o.node

variable {α β : Type}

/-! ## The `Except` monad and the heap primitives -/

@[simp] theorem bind_ok (a : α) (f : α → Except Fault β) : (Except.ok a >>= f) = f a := rfl

@[simp] theorem bind_error (e : Fault) (f : α → Except Fault β) :
    ((Except.error e : Except Fault α) >>= f) = .error e := rfl

@[simp] theorem pure_eq_ok (a : α) : (pure a : Except Fault α) = .ok a := rfl

theorem bind_eq_ok {x : Except Fault α} {f : α → Except Fault β} {b : β} :
    (x >>= f) = .ok b ↔ ∃ a, x = .ok a ∧ f a = .ok b := by
  cases x <;> simp

theorem deref_eq_ok {h : Heap G V} {a : Nat} {o : Obj G V} :
    deref h a = .ok o ↔ h[a]? = some o := by
  cases hh : h[a]? <;> simp [deref, hh]

theorem node_child_eq_ok {h : Heap G V} {a : Nat} {c : List (G × Nat)} :
    node_t._child h a = .ok c ↔ ∃ p i, h[a]? = some ⟨p, i, .node c⟩ := by
  unfold node_t._child; split <;> simp_all

theorem node_child_of_get {h : Heap G V} {a : Nat} {p : Option Nat} {i : Nat}
    {c : List (G × Nat)} (hg : h[a]? = some ⟨p, i, .node c⟩) : node_t._child h a = .ok c :=
  node_child_eq_ok.2 ⟨p, i, hg⟩

theorem at_eq_ok {v : List α} {i : Nat} {x : α} : at_ v i = .ok x ↔ v[i]? = some x := by
  cases hh : v[i]? <;> simp [at_, hh]

theorem back_eq_ok {v : List α} {x : α} : back v = .ok x ↔ v.getLast? = some x := by
  cases hh : v.getLast? <;> simp [back, hh]

/-- Subtracting one from a non-zero `size_type` value does not wrap. -/
theorem wrap_pred {w n : Nat} (h0 : 0 < n) (hw : n < 2 ^ w) :
    (n + 2 ^ w - 1) % 2 ^ w = n - 1 := by
  have : n + 2 ^ w - 1 = (n - 1) + 2 ^ w := by omega
  rw [this, Nat.add_mod_right]
  exact Nat.mod_eq_of_lt (by omega)

/-! ## The stepping rules of `next` and `prev` -/

theorem next_step (w : Nat) (h : Heap G V) (fuel self : Nat) (o : Obj G V) (p : Nat)
    (pp : Option Nat) (pi : Nat) (pc : List (G × Nat))
    (ho : h[self]? = some o) (hp : o._parent = some p)
    (hpo : h[p]? = some ⟨pp, pi, .node pc⟩)
    (hi : o._index_on_parent < pc.length) (hw : pc.length < 2 ^ w) :
    node_base_t.next w h (fuel + 1) self =
      if o._index_on_parent + 1 < pc.length then
        (at_ pc (o._index_on_parent + 1)).map (fun e => some e.2)
      else
        node_base_t.next w h fuel p >>= fun n =>
          match n with
          | none => pure none
          | some n => (do
            let nc ← node_t._child h n
            let e ← at_ nc 0
            pure (some e.2)) := by
  have h1 : pc.length % 2 ^ w = pc.length := Nat.mod_eq_of_lt hw
  have h2 : (pc.length + 2 ^ w - 1) % 2 ^ w = pc.length - 1 := wrap_pred (by omega) hw
  have h3 : (o._index_on_parent + 1) % 2 ^ w = o._index_on_parent + 1 :=
    Nat.mod_eq_of_lt (by omega)
  rw [node_base_t.next]
  simp only [deref_eq_ok.2 ho, bind_ok, hp, node_t.size, node_child_of_get hpo, pure_eq_ok,
    h1, h2, h3]
  by_cases hlt : o._index_on_parent + 1 < pc.length
  · have : o._index_on_parent ≠ pc.length - 1 := by omega
    rw [if_neg this, if_pos hlt]
    cases at_ pc (o._index_on_parent + 1) <;> rfl
  · have : o._index_on_parent = pc.length - 1 := by omega
    rw [if_pos this, if_neg hlt]

theorem prev_step (w : Nat) (h : Heap G V) (fuel self : Nat) (o : Obj G V) (p : Nat)
    (pp : Option Nat) (pi : Nat) (pc : List (G × Nat))
    (ho : h[self]? = some o) (hp : o._parent = some p)
    (hpo : h[p]? = some ⟨pp, pi, .node pc⟩)
    (hi : o._index_on_parent < pc.length) (hw : pc.length < 2 ^ w) :
    node_base_t.prev w h (fuel + 1) self =
      if o._index_on_parent = 0 then
        node_base_t.prev w h fuel p >>= fun n =>
          match n with
          | none => pure none
          | some n => (do
            let nc ← node_t._child h n
            let e ← back nc
            pure (some e.2))
      else
        (at_ pc (o._index_on_parent - 1)).map (fun e => some e.2) := by
  rw [node_base_t.prev]
  simp only [deref_eq_ok.2 ho, bind_ok, hp, node_child_of_get hpo, pure_eq_ok]
  by_cases h0 : o._index_on_parent = 0
  · rw [if_pos h0, if_pos h0]
  · rw [if_neg h0, if_neg h0, wrap_pred (by omega) (by omega)]
    cases at_ pc (o._index_on_parent - 1) <;> rfl

/-! ## Reading the tree predicates -/

theorem is_node_iff {h : Heap G V} {a : Nat} :
    is_node h a = true ↔ ∃ p i c, h[a]? = some ⟨p, i, .node c⟩ := by
  unfold is_node; split <;> simp_all

theorem kids_of_get {h : Heap G V} {a : Nat} {p : Option Nat} {i : Nat} {c : List (G × Nat)}
    (hg : h[a]? = some ⟨p, i, .node c⟩) : kids h a = c.map Prod.snd := by
  simp [kids, hg]

theorem entry_count_of_get {h : Heap G V} {a : Nat} {p : Option Nat} {i : Nat}
    {c : List (G × Nat)} (hg : h[a]? = some ⟨p, i, .node c⟩) : entry_count h a = c.length := by
  simp [entry_count, hg]

theorem backRefs_get {h : Heap G V} {p : Nat} (hb : BackRefs h p) {i c : Nat}
    (hc : (kids h p)[i]? = some c) :
    ∃ o, h[c]? = some o ∧ o._parent = some p ∧ o._index_on_parent = i := by
  have := hb (i, c) (List.mk_mem_enum_iff_getElem?.2 hc)
  simp only [header, Option.map_eq_some'] at this
  obtain ⟨o, ho, he⟩ := this
  exact ⟨o, ho, by simpa using (Prod.mk.inj he).1, by simpa using (Prod.mk.inj he).2⟩

/-! ## Field-wise description of the heap primitives -/

theorem get_of_lt {h : Heap G V} {a : Nat} (hv : a < h.length) : ∃ o, h[a]? = some o :=
  ⟨h[a], List.getElem?_eq_getElem hv⟩

theorem header_eq {h : Heap G V} {a : Nat} {p : Option Nat} {i : Nat} :
    header h a = some (p, i) ↔ par h a = some p ∧ idx h a = some i := by
  cases hh : h[a]? <;> simp [header, par, idx, hh]

theorem node_child_iff_ents {h : Heap G V} {a : Nat} {c : List (G × Nat)} :
    node_t._child h a = .ok c ↔ ents h a = some (.node c) := by
  rw [node_child_eq_ok]
  constructor
  · rintro ⟨p, i, hg⟩
    simp [ents, hg]
  · intro he
    obtain ⟨o, ho, hc⟩ := Option.map_eq_some'.1 he
    obtain ⟨p, i, c'⟩ := o
    exact ⟨p, i, by simpa [ho] using hc⟩

theorem kids_of_ents {h : Heap G V} {a : Nat} {c : List (G × Nat)}
    (he : ents h a = some (.node c)) : kids h a = c.map Prod.snd := by
  obtain ⟨p, i, hg⟩ := node_child_eq_ok.1 (node_child_iff_ents.2 he)
  exact kids_of_get hg

theorem deref_of_lt {h : Heap G V} {a : Nat} (hv : a < h.length) :
    ∃ o, deref h a = .ok o ∧ par h a = some o._parent ∧
      idx h a = some o._index_on_parent ∧ ents h a = some o._child := by
  obtain ⟨o, ho⟩ := get_of_lt hv
  exact ⟨o, deref_eq_ok.2 ho, by simp [par, ho], by simp [idx, ho], by simp [ents, ho]⟩

theorem set_parent_spec {h : Heap G V} {a : Nat} (hv : a < h.length) (p : Option Nat) :
    ∃ h', set_parent h a p = .ok h' ∧ h'.length = h.length ∧
      (∀ b, par h' b = if b = a then some p else par h b) ∧
      (∀ b, idx h' b = idx h b) ∧ (∀ b, ents h' b = ents h b) := by
  obtain ⟨o, ho⟩ := get_of_lt hv
  refine ⟨h.set a { o with _parent := p }, by simp [set_parent, ho], by simp, ?_, ?_, ?_⟩ <;>
    intro b <;> by_cases hb : b = a
  · subst hb; simp [par, hv]
  · simp [par, hb, List.getElem?_set_ne (Ne.symm hb)]
  · subst hb; simp [idx, hv, ho]
  · simp [idx, List.getElem?_set_ne (Ne.symm hb)]
  · subst hb; simp [ents, hv, ho]
  · simp [ents, List.getElem?_set_ne (Ne.symm hb)]

theorem set_index_on_parent_spec {h : Heap G V} {a : Nat} (hv : a < h.length) (i : Nat) :
    ∃ h', set_index_on_parent h a i = .ok h' ∧ h'.length = h.length ∧
      (∀ b, par h' b = par h b) ∧
      (∀ b, idx h' b = if b = a then some i else idx h b) ∧
      (∀ b, ents h' b = ents h b) := by
  obtain ⟨o, ho⟩ := get_of_lt hv
  refine ⟨h.set a { o with _index_on_parent := i }, by simp [set_index_on_parent, ho],
    by simp, ?_, ?_, ?_⟩ <;> intro b <;> by_cases hb : b = a
  · subst hb; simp [par, hv, ho]
  · simp [par, List.getElem?_set_ne (Ne.symm hb)]
  · subst hb; simp [idx, hv]
  · simp [idx, hb, List.getElem?_set_ne (Ne.symm hb)]
  · subst hb; simp [ents, hv, ho]
  · simp [ents, List.getElem?_set_ne (Ne.symm hb)]

theorem node_set_child_spec {h : Heap G V} {a : Nat} {c0 : List (G × Nat)}
    (he : ents h a = some (.node c0)) (c : List (G × Nat)) :
    ∃ h', node_t.set_child h a c = .ok h' ∧ h'.length = h.length ∧
      (∀ b, par h' b = par h b) ∧ (∀ b, idx h' b = idx h b) ∧
      (∀ b, ents h' b = if b = a then some (.node c) else ents h b) := by
  obtain ⟨p, i, ho⟩ := node_child_eq_ok.1 (node_child_iff_ents.2 he)
  have hv : a < h.length := (List.getElem?_eq_some_iff.1 ho).1
  refine ⟨h.set a ⟨p, i, .node c⟩, by simp [node_t.set_child, ho], by simp, ?_, ?_, ?_⟩ <;>
    intro b <;> by_cases hb : b = a
  · subst hb; simp [par, hv, ho]
  · simp [par, List.getElem?_set_ne (Ne.symm hb)]
  · subst hb; simp [idx, hv, ho]
  · simp [idx, List.getElem?_set_ne (Ne.symm hb)]
  · subst hb; simp [ents, hv]
  · simp [ents, hb, List.getElem?_set_ne (Ne.symm hb)]

theorem lt_of_ents {h : Heap G V} {a : Nat} {e : Entries G V} (he : ents h a = some e) :
    a < h.length := by
  obtain ⟨o, ho, _⟩ := Option.map_eq_some'.1 he
  exact (List.getElem?_eq_some_iff.1 ho).1

theorem lt_of_par {h : Heap G V} {a : Nat} {p : Option Nat} (he : par h a = some p) :
    a < h.length := by
  obtain ⟨o, ho, _⟩ := Option.map_eq_some'.1 he
  exact (List.getElem?_eq_some_iff.1 ho).1

theorem node_size_of_ents {h : Heap G V} {a : Nat} {c : List (G × Nat)} (w : Nat)
    (he : ents h a = some (.node c)) : node_t.size w h a = .ok (c.length % 2 ^ w) := by
  simp [node_t.size, node_child_iff_ents.2 he]

theorem pop_back_eq {v : List α} (hv : v ≠ []) : pop_back v = .ok v.dropLast := by
  cases v with
  | nil => exact absurd rfl hv
  | cons a t => rfl

theorem assign_eq {v : List α} {i : Nat} (hi : i < v.length) (x : α) :
    assign v i x = .ok (v.set i x) := by
  simp [assign, hi]
theorem set_last_self {v : List α} {e : α} (hl : v.getLast? = some e) :
    v.set (v.length - 1) e = v := by
  rw [List.getLast?_eq_getElem?] at hl
  apply List.ext_getElem?
  intro j
  rw [List.getElem?_set]
  split
  · next hj =>
    subst hj
    rw [hl, if_pos (List.getElem?_eq_some_iff.1 hl).1]
  · rfl

/-- The last three statements of `node_t::erase`. -/
theorem node_erase_tail {h2 : Heap G V} {self : Nat} (node : Nat) {c2 : List (G × Nat)}
    (hself2 : ents h2 self = some (.node c2)) (hne : c2 ≠ []) (hnv : node < h2.length) :
    ∃ h4, (set_parent h2 node none >>= fun h3 => node_t._child h3 self >>= fun c3 =>
        pop_back c3 >>= fun c4 => node_t.set_child h3 self c4) = .ok h4 ∧
      h4.length = h2.length ∧
      (∀ b, ents h4 b = if b = self then some (.node c2.dropLast) else ents h2 b) ∧
      (∀ b, par h4 b = if b = node then some none else par h2 b) ∧
      (∀ b, idx h4 b = idx h2 b) := by
  obtain ⟨h3, hs3, hl3, hp3, hi3, he3⟩ := set_parent_spec hnv none
  have hself3 : ents h3 self = some (.node c2) := by rw [he3, hself2]
  obtain ⟨h4, hs4, hl4, hp4, hi4, he4⟩ := node_set_child_spec hself3 c2.dropLast
  refine ⟨h4, ?_, by omega, ?_, ?_, ?_⟩
  · simp only [hs3, bind_ok, node_child_iff_ents.2 hself3, pop_back_eq hne, hs4]
  · intro b; rw [he4, he3]
  · intro b; rw [hp4, hp3]
  · intro b; rw [hi4, hi3]

/-- The effect of `node_t::erase`, field by field. -/
theorem node_erase_spec (w : Nat) {h : Heap G V} {self node i : Nat} {cs : List (G × Nat)}
    {e : G × Nat} (hself : ents h self = some (.node cs)) (hnode : idx h node = some i)
    (hi : i < cs.length) (hw : cs.length < 2 ^ w)
    (hlast : cs.getLast? = some e) (hback : e.2 < h.length) :
    ∃ h', node_t.erase w h self node = .ok h' ∧ h'.length = h.length ∧
      (∀ b, ents h' b = if b = self then some (.node (cs.set i e).dropLast) else ents h b) ∧
      (∀ b, par h' b = if b = node then some none else par h b) ∧
      (∀ b, idx h' b = if b = e.2 ∧ i + 1 < cs.length then some i else idx h b) := by
  have hnv : node < h.length := by
    obtain ⟨o, ho, _⟩ := Option.map_eq_some'.1 hnode
    exact (List.getElem?_eq_some_iff.1 ho).1
  obtain ⟨nd, hnd, _, hndi, _⟩ := deref_of_lt hnv
  have hndi' : nd._index_on_parent = i := by
    rw [hnode] at hndi; exact (Option.some.inj hndi).symm
  have hne : cs.set i e ≠ [] := by
    intro hnil
    have := congrArg List.length hnil
    rw [List.length_set, List.length_nil] at this
    omega
  unfold node_t.erase
  simp only [hnd, bind_ok, node_size_of_ents w hself, Nat.mod_eq_of_lt hw,
    wrap_pred (show 0 < cs.length by omega) hw, hndi']
  by_cases hlt : i + 1 < cs.length
  · rw [if_pos (by omega)]
    obtain ⟨h1, hs1, hl1, hp1, hi1, he1⟩ := set_index_on_parent_spec hback i
    obtain ⟨nd1, hnd1, _, hnd1i, _⟩ := deref_of_lt (h := h1) (a := node) (by omega)
    have hnd1i' : nd1._index_on_parent = i := by
      rw [hi1 node] at hnd1i
      by_cases hne : node = e.2
      · rw [if_pos hne] at hnd1i; exact (Option.some.inj hnd1i).symm
      · rw [if_neg hne, hnode] at hnd1i; exact (Option.some.inj hnd1i).symm
    have hself1 : ents h1 self = some (.node cs) := by rw [he1, hself]
    obtain ⟨h2, hs2, hl2, hp2, hi2, he2⟩ := node_set_child_spec hself1 (cs.set i e)
    have hself2 : ents h2 self = some (.node (cs.set i e)) := by rw [he2, if_pos rfl]
    obtain ⟨h4, hs4, hl4, he4, hp4, hi4⟩ :=
      node_erase_tail node hself2 hne (by omega)
    refine ⟨h4, ?_, by omega, ?_, ?_, ?_⟩
    · simp only [node_child_iff_ents.2 hself, bind_ok, back_eq_ok.2 hlast, hs1, hnd1,
        node_child_iff_ents.2 hself1, hnd1i', assign_eq hi, hs2]
      exact hs4
    · intro b
      rw [he4, he2, he1]
      by_cases hb : b = self <;> simp [hb]
    · intro b; rw [hp4, hp2, hp1]
    · intro b; rw [hi4, hi2, hi1]; simp [hlt]
  · rw [if_neg (by omega)]
    have hi' : i = cs.length - 1 := by omega
    have hself2 : ents h self = some (.node (cs.set i e)) := by
      rw [hi', set_last_self hlast, hself]
    obtain ⟨h4, hs4, hl4, he4, hp4, hi4⟩ :=
      node_erase_tail node hself2 hne hnv
    refine ⟨h4, hs4, hl4, he4, hp4, ?_⟩
    intro b; rw [hi4]; simp [hlt]

/-- The effect of `node_t::insert`, field by field. -/
theorem node_insert_spec (w : Nat) {h : Heap G V} {self : Nat} {cs : List (G × Nat)}
    (child : G × Nat) (hself : ents h self = some (.node cs)) (hc : child.2 < h.length) :
    ∃ h', node_t.insert w h self child = .ok h' ∧ h'.length = h.length ∧
      (∀ b, ents h' b = if b = self then some (.node (cs ++ [child])) else ents h b) ∧
      (∀ b, par h' b = if b = child.2 then some (some self) else par h b) ∧
      (∀ b, idx h' b = if b = child.2 then some (cs.length % 2 ^ w) else idx h b) := by
  obtain ⟨h1, hs1, hl1, hp1, hi1, he1⟩ := set_parent_spec hc (some self)
  have hself1 : ents h1 self = some (.node cs) := by rw [he1, hself]
  obtain ⟨h2, hs2, hl2, hp2, hi2, he2⟩ :=
    set_index_on_parent_spec (h := h1) (a := child.2) (by omega) (cs.length % 2 ^ w)
  have hself2 : ents h2 self = some (.node cs) := by rw [he2, hself1]
  obtain ⟨h3, hs3, hl3, hp3, hi3, he3⟩ := node_set_child_spec hself2 (cs ++ [child])
  refine ⟨h3, ?_, by omega, ?_, ?_, ?_⟩
  · unfold node_t.insert
    simp only [hs1, bind_ok, node_size_of_ents w hself1, hs2, node_child_iff_ents.2 hself2, hs3]
  · intro b; rw [he3, he2, he1]
  · intro b; rw [hp3, hp2, hp1]
  · intro b; rw [hi3, hi2, hi1]

theorem backRefs_iff {h : Heap G V} {p : Nat} :
    BackRefs h p ↔ ∀ i c, (kids h p)[i]? = some c → par h c = some (some p) ∧ idx h c = some i := by
  constructor
  · intro hb i c hc
    exact header_eq.1 (hb (i, c) (List.mk_mem_enum_iff_getElem?.2 hc))
  · intro hb x hx
    obtain ⟨i, c⟩ := x
    exact header_eq.2 (hb i c (List.mk_mem_enum_iff_getElem?.1 hx))

/-- Entries of a vector after overwriting position `i` with the last entry and
dropping the last position. -/
theorem swap_remove_get (v : List α) (e : α) (i k : Nat) :
    ((v.set i e).dropLast)[k]? =
      if k + 1 < v.length then (if k = i then some e else v[k]?) else none := by
  rw [List.getElem?_dropLast, List.length_set]
  by_cases hk : k + 1 < v.length
  · rw [if_pos (by omega), if_pos hk, List.getElem?_set]
    by_cases hki : k = i
    · subst hki; rw [if_pos rfl, if_pos rfl, if_pos (by omega)]
    · rw [if_neg (Ne.symm hki), if_neg hki]
  · rw [if_neg (by omega), if_neg hk]

theorem set_perm {v : List α} {i : Nat} {x : α} (e : α) (hx : v[i]? = some x) :
    (x :: v.set i e).Perm (e :: v) := by
  induction v generalizing i with
  | nil => simp at hx
  | cons a t ih =>
    cases i with
    | zero =>
      simp only [List.getElem?_cons_zero, Option.some.injEq] at hx
      subst hx
      exact List.Perm.swap _ _ _
    | succ j =>
      simp only [List.getElem?_cons_succ] at hx
      rw [List.set_cons_succ]
      exact (List.Perm.swap _ _ _).trans (((ih hx).cons a).trans (List.Perm.swap _ _ _))

/-- Swap-remove removes exactly the entry at position `i`, as multisets. -/
theorem swap_remove_perm {v : List α} {e x : α} {i : Nat} (hl : v.getLast? = some e)
    (hx : v[i]? = some x) : v.Perm (x :: (v.set i e).dropLast) := by
  obtain ⟨init, rfl⟩ := List.getLast?_eq_some_iff.1 hl
  by_cases hi : i < init.length
  · rw [List.getElem?_append_left hi] at hx
    rw [List.set_append_left _ _ hi, List.dropLast_concat]
    have h1 : (init ++ [e]).Perm (e :: init) := List.perm_append_singleton e init
    exact h1.trans (set_perm e hx).symm
  · have hi' : i = init.length := by
      have := (List.getElem?_eq_some_iff.1 hx).1
      simp at this; omega
    subst hi'
    have hxe : x = e := by simpa using hx.symm
    subst hxe
    have hs : (init ++ [x]).set init.length x = init ++ [x] := by simp
    rw [hs, List.dropLast_concat]
    exact List.perm_append_singleton x init

/-! ## Leaves, field by field -/

theorem leaf_child_iff_ents {h : Heap G V} {a : Nat} {c : List (G × V)} :
    leaf_node_t._child h a = .ok c ↔ ents h a = some (.leaf c) := by
  unfold leaf_node_t._child ents
  split
  · next p i c' hg => simp [hg]
  · next hne =>
    cases hh : h[a]? with
    | none => simp
    | some o =>
      obtain ⟨p, i, ch⟩ := o
      cases ch with
      | node c' => simp
      | leaf c' => exact absurd hh (hne p i c')

theorem leaf_set_child_spec {h : Heap G V} {a : Nat} {c0 : List (G × V)}
    (he : ents h a = some (.leaf c0)) (c : List (G × V)) :
    ∃ h', leaf_node_t.set_child h a c = .ok h' ∧ h'.length = h.length ∧
      (∀ b, par h' b = par h b) ∧ (∀ b, idx h' b = idx h b) ∧
      (∀ b, ents h' b = if b = a then some (.leaf c) else ents h b) := by
  obtain ⟨o, ho, hc⟩ := Option.map_eq_some'.1 he
  obtain ⟨p, i, ch⟩ := o
  simp only at hc
  subst hc
  have hv : a < h.length := (List.getElem?_eq_some_iff.1 ho).1
  refine ⟨h.set a ⟨p, i, .leaf c⟩, by simp [leaf_node_t.set_child, ho], by simp, ?_, ?_, ?_⟩ <;>
    intro b <;> by_cases hb : b = a
  · subst hb; simp [par, hv, ho]
  · simp [par, List.getElem?_set_ne (Ne.symm hb)]
  · subst hb; simp [idx, hv, ho]
  · simp [idx, List.getElem?_set_ne (Ne.symm hb)]
  · subst hb; simp [ents, hv]
  · simp [ents, hb, List.getElem?_set_ne (Ne.symm hb)]

/-- The last two statements of `leaf_node_t::erase`. -/
theorem leaf_erase_tail {h1 : Heap G V} {self : Nat} {c2 : List (G × V)}
    (hself : ents h1 self = some (.leaf c2)) (hne : c2 ≠ []) :
    ∃ h', (leaf_node_t._child h1 self >>= fun c => pop_back c >>= fun c3 =>
        leaf_node_t.set_child h1 self c3) = .ok h' ∧ h'.length = h1.length ∧
      (∀ b, par h' b = par h1 b) ∧ (∀ b, idx h' b = idx h1 b) ∧
      (∀ b, ents h' b = if b = self then some (.leaf c2.dropLast) else ents h1 b) := by
  obtain ⟨h', hs, hl, hp, hi, he⟩ := leaf_set_child_spec hself c2.dropLast
  exact ⟨h', by simp only [leaf_child_iff_ents.2 hself, bind_ok, pop_back_eq hne, hs],
    hl, hp, hi, he⟩

/-- The effect of `leaf_node_t::erase`, field by field. -/
theorem leaf_erase_spec (w : Nat) {h : Heap G V} {self i : Nat} {cs : List (G × V)}
    {e : G × V} (hself : ents h self = some (.leaf cs)) (hi : i < cs.length)
    (hw : cs.length < 2 ^ w) (hlast : cs.getLast? = some e) :
    ∃ h', leaf_node_t.erase w h self i = .ok h' ∧ h'.length = h.length ∧
      (∀ b, par h' b = par h b) ∧ (∀ b, idx h' b = idx h b) ∧
      (∀ b, ents h' b = if b = self then some (.leaf (cs.set i e).dropLast) else ents h b) := by
  have hne : cs.set i e ≠ [] := by
    intro hnil
    have := congrArg List.length hnil
    rw [List.length_set, List.length_nil] at this
    omega
  unfold leaf_node_t.erase
  simp only [leaf_node_t.size, leaf_child_iff_ents.2 hself, bind_ok, pure_eq_ok,
    Nat.mod_eq_of_lt hw, wrap_pred (show 0 < cs.length by omega) hw,
    Nat.mod_eq_of_lt (show i < 2 ^ w by omega)]
  by_cases hlt : i + 1 < cs.length
  · rw [if_pos (by omega)]
    obtain ⟨h1, hs1, hl1, hp1, hi1, he1⟩ := leaf_set_child_spec hself (cs.set i e)
    have hself1 : ents h1 self = some (.leaf (cs.set i e)) := by rw [he1, if_pos rfl]
    obtain ⟨h', hs, hl, hp, hix, he⟩ := leaf_erase_tail hself1 hne
    refine ⟨h', ?_, by omega, ?_, ?_, ?_⟩
    · simp only [back_eq_ok.2 hlast, bind_ok, assign_eq hi, hs1]
      exact hs
    · intro b; rw [hp, hp1]
    · intro b; rw [hix, hi1]
    · intro b
      rw [he, he1]
      by_cases hb : b = self <;> simp [hb]
  · rw [if_neg (by omega)]
    have hself1 : ents h self = some (.leaf (cs.set i e)) := by
      rw [show i = cs.length - 1 by omega, set_last_self hlast, hself]
    obtain ⟨h', hs, hrest⟩ := leaf_erase_tail hself1 hne
    rw [leaf_child_iff_ents.2 hself, bind_ok] at hs
    exact ⟨h', hs, hrest⟩

/-- The effect of `leaf_node_t::insert`, field by field. -/
theorem leaf_insert_spec {h : Heap G V} {self : Nat} {cs : List (G × V)}
    (hself : ents h self = some (.leaf cs)) (child : G × V) :
    ∃ h', leaf_node_t.insert h self child = .ok h' ∧ h'.length = h.length ∧
      (∀ b, par h' b = par h b) ∧ (∀ b, idx h' b = idx h b) ∧
      (∀ b, ents h' b = if b = self then some (.leaf (cs ++ [child])) else ents h b) := by
  obtain ⟨h', hs, hl, hp, hi, he⟩ := leaf_set_child_spec hself (cs ++ [child])
  exact ⟨h', by simp only [leaf_node_t.insert, leaf_child_iff_ents.2 hself, bind_ok, hs],
    hl, hp, hi, he⟩

/-! ## `calculate_bound` -/

theorem calculate_bound_loop_eq (merge : G → G → G) (c : List (G × α)) :
    ∀ k i merged, c.length - i < k →
      calculate_bound.loop merge c k i merged =
        .ok ((c.drop i).foldl (fun acc e => merge acc e.1) merged) := by
  intro k
  induction k with
  | zero => intro i merged hk; omega
  | succ k ih =>
    intro i merged hk
    rw [calculate_bound.loop]
    by_cases hi : i < c.length
    · rw [if_pos hi, at_eq_ok.2 (List.getElem?_eq_getElem hi), bind_ok,
        ih (i + 1) _ (by omega), List.drop_eq_getElem_cons hi, List.foldl_cons]
    · rw [if_neg hi, List.drop_eq_nil_of_le (by omega)]
      rfl

theorem calculate_bound_body_eq (merge : G → G → G) (c : List (G × α)) :
    calculate_bound.body merge c =
      match merge_bounds merge (c.map Prod.fst) with
      | some r => .ok r
      | none => .error .undefined := by
  cases c with
  | nil => rfl
  | cons e rest =>
    unfold calculate_bound.body
    simp only [List.isEmpty_cons, Bool.false_eq_true, if_false, at_, List.getElem?_cons_zero,
      bind_ok, List.map_cons, merge_bounds]
    rw [calculate_bound_loop_eq merge (e :: rest) _ 1 e.1 (by simp), List.foldl_map]
    rfl

theorem foldl_merge_assoc (merge : G → G → G)
    (hassoc : ∀ a b c, merge (merge a b) c = merge a (merge b c)) (a x : G) (bs : List G) :
    bs.foldl merge (merge a x) = merge a (bs.foldl merge x) := by
  induction bs generalizing x with
  | nil => rfl
  | cons r rs ih => rw [List.foldl_cons, List.foldl_cons, hassoc, ih]

theorem foldl_merge_contains (merge : G → G → G) (contains : G → G → Bool)
    (hassoc : ∀ a b c, merge (merge a b) c = merge a (merge b c))
    (hcomm : ∀ a b, merge a b = merge b a) (hrefl : ∀ a, contains a a = true)
    (hcm : ∀ a b, contains (merge a b) a = true) (bs : List G) :
    ∀ b0 b, b ∈ b0 :: bs → contains (bs.foldl merge b0) b = true := by
  induction bs with
  | nil =>
    intro b0 b hb
    rw [List.mem_singleton] at hb
    subst hb
    exact hrefl b
  | cons r rs ih =>
    intro b0 b hb
    rw [List.foldl_cons]
    rcases List.mem_cons.1 hb with h0 | hb
    · subst h0
      rw [foldl_merge_assoc merge hassoc]
      exact hcm _ _
    · rcases List.mem_cons.1 hb with hr | hrs
      · subst hr
        rw [hcomm b0 b, foldl_merge_assoc merge hassoc]
        exact hcm _ _
      · exact ih _ b (List.mem_cons_of_mem _ hrs)

theorem calculate_bound_body_spec (merge : G → G → G) (contains : G → G → Bool)
    (hassoc : ∀ a b c, merge (merge a b) c = merge a (merge b c))
    (hcomm : ∀ a b, merge a b = merge b a) (hrefl : ∀ a, contains a a = true)
    (hcm : ∀ a b, contains (merge a b) a = true) (c : List (G × α)) (hne : c ≠ []) :
    ∃ r, calculate_bound.body merge c = .ok r ∧
      merge_bounds merge (c.map Prod.fst) = some r ∧ ∀ e ∈ c, contains r e.1 = true := by
  cases c with
  | nil => exact absurd rfl hne
  | cons e rest =>
    refine ⟨(rest.map Prod.fst).foldl merge e.1, ?_, rfl, ?_⟩
    · rw [calculate_bound_body_eq]; rfl
    · intro x hx
      refine foldl_merge_contains merge contains hassoc hcomm hrefl hcm _ e.1 x.1 ?_
      rw [← List.map_cons]
      exact List.mem_map_of_mem _ hx

/-! ## Level lists are linked by `next` and `prev` -/

theorem linked_tail {nx : Nat → Except Fault (Option Nat)} {p : Nat} {ps : List Nat}
    (hl : Linked nx (p :: ps)) : Linked nx ps := by
  intro i a hi
  have := hl (i + 1) a (by simpa using hi)
  simpa using this

theorem linked_flatMap_next (w : Nat) (h : Heap G V) (fuel : Nat) (ps : List Nat)
    (hl : Linked (node_base_t.next w h fuel) ps)
    (hnode : ∀ p ∈ ps, is_node h p = true) (hb : ∀ p ∈ ps, BackRefs h p)
    (hsz : ∀ p ∈ ps, entry_count h p < 2 ^ w)
    (hne : ∀ p ∈ ps.tail, 0 < entry_count h p) :
    Linked (node_base_t.next w h (fuel + 1)) (ps.flatMap (kids h)) := by
  induction ps with
  | nil => intro i a hi; simp at hi
  | cons p ps ih =>
    have ih := ih (linked_tail hl) (fun q hq => hnode q (List.mem_cons_of_mem _ hq))
      (fun q hq => hb q (List.mem_cons_of_mem _ hq))
      (fun q hq => hsz q (List.mem_cons_of_mem _ hq))
      (fun q hq => hne q (by simpa using List.mem_of_mem_tail hq))
    obtain ⟨pp, pi, pc, hpo⟩ := is_node_iff.1 (hnode p (List.mem_cons_self _ _))
    have hk : kids h p = pc.map Prod.snd := kids_of_get hpo
    have hlen : (kids h p).length = pc.length := by simp [hk]
    have hw : pc.length < 2 ^ w := by
      have := hsz p (List.mem_cons_self _ _)
      rwa [entry_count_of_get hpo] at this
    intro i a hi
    rw [List.flatMap_cons] at hi ⊢
    by_cases hlt : i < (kids h p).length
    · rw [List.getElem?_append_left hlt] at hi
      obtain ⟨o, ho, hop, hoi⟩ := backRefs_get (hb p (List.mem_cons_self _ _)) hi
      rw [next_step w h fuel a o p pp pi pc ho hop hpo (by omega) hw, hoi]
      by_cases hlt2 : i + 1 < pc.length
      · rw [if_pos hlt2, List.getElem?_append_left (by omega), hk, List.getElem?_map]
        obtain ⟨e, he⟩ : ∃ e, pc[i + 1]? = some e := ⟨pc[i + 1], by simp [hlt2]⟩
        rw [he, at_eq_ok.2 he]
        rfl
      · rw [if_neg hlt2, hl 0 p (by simp), List.getElem?_append_right (by omega)]
        have hz : i + 1 - (kids h p).length = 0 := by omega
        rw [hz]
        cases ps with
        | nil => simp
        | cons m ms =>
          obtain ⟨mp, mi, mc, hmo⟩ := is_node_iff.1 (hnode m (by simp))
          have hmne : 0 < mc.length := by
            have := hne m (by simp)
            rwa [entry_count_of_get hmo] at this
          obtain ⟨e, he⟩ : ∃ e, mc[0]? = some e := ⟨mc[0], by simp [hmne]⟩
          simp only [List.getElem?_cons_zero, List.getElem?_cons_succ, bind_ok,
            node_child_of_get hmo, at_eq_ok.2 he, pure_eq_ok, List.flatMap_cons, kids_of_get hmo]
          rw [List.getElem?_append_left (by simpa using hmne), List.getElem?_map, he]
          rfl
    · rw [List.getElem?_append_right (by omega)] at hi
      rw [ih _ a hi, List.getElem?_append_right (by omega)]
      congr 2
      omega
theorem linkedBack_init {pv : Nat → Except Fault (Option Nat)} {p : Nat} {ps : List Nat}
    (hl : LinkedBack pv (ps ++ [p])) : LinkedBack pv ps := by
  intro i a hi
  have hlt : i < ps.length := (List.getElem?_eq_some_iff.1 hi).1
  rw [hl i a (by rw [List.getElem?_append_left hlt]; exact hi)]
  by_cases h0 : i = 0
  · simp [h0]
  · rw [if_neg h0, if_neg h0, List.getElem?_append_left (by omega)]

theorem linkedBack_flatMap_prev (w : Nat) (h : Heap G V) (fuel : Nat) (ps : List Nat)
    (hl : LinkedBack (node_base_t.prev w h fuel) ps)
    (hnode : ∀ p ∈ ps, is_node h p = true) (hb : ∀ p ∈ ps, BackRefs h p)
    (hsz : ∀ p ∈ ps, entry_count h p < 2 ^ w)
    (hne : ∀ p ∈ ps.dropLast, 0 < entry_count h p) :
    LinkedBack (node_base_t.prev w h (fuel + 1)) (ps.flatMap (kids h)) := by
  induction ps using List.reverseRecOn with
  | nil => intro i a hi; simp at hi
  | append_singleton ps p ih =>
    have ih := ih (linkedBack_init hl) (fun q hq => hnode q (List.mem_append_left _ hq))
      (fun q hq => hb q (List.mem_append_left _ hq))
      (fun q hq => hsz q (List.mem_append_left _ hq))
      (fun q hq => hne q (by
        rw [List.dropLast_concat]; exact List.mem_of_mem_dropLast hq))
    have hpm : p ∈ ps ++ [p] := by simp
    obtain ⟨pp, pi, pc, hpo⟩ := is_node_iff.1 (hnode p hpm)
    have hk : kids h p = pc.map Prod.snd := kids_of_get hpo
    have hlen : (kids h p).length = pc.length := by simp [hk]
    have hw : pc.length < 2 ^ w := by
      have := hsz p hpm
      rwa [entry_count_of_get hpo] at this
    intro i a hi
    rw [List.flatMap_append, List.flatMap_singleton] at hi ⊢
    by_cases hlt : i < (ps.flatMap (kids h)).length
    · rw [List.getElem?_append_left hlt] at hi
      rw [ih i a hi]
      by_cases h0 : i = 0
      · simp [h0]
      · rw [if_neg h0, if_neg h0, List.getElem?_append_left (by omega)]
    · rw [List.getElem?_append_right (by omega)] at hi
      have hj : i - (ps.flatMap (kids h)).length < pc.length := by
        rw [← hlen]; exact (List.getElem?_eq_some_iff.1 hi).1
      obtain ⟨o, ho, hop, hoi⟩ := backRefs_get (hb p hpm) hi
      rw [prev_step w h fuel a o p pp pi pc ho hop hpo (by omega) hw, hoi]
      by_cases hj0 : i - (ps.flatMap (kids h)).length = 0
      · rw [if_pos hj0, hl ps.length p (by simp)]
        have hi_eq : i = (ps.flatMap (kids h)).length := by omega
        rcases List.eq_nil_or_concat ps with hnil | ⟨qs, q, hq⟩
        · subst hnil
          simp [hi_eq]
        · rw [List.concat_eq_append] at hq
          subst hq
          obtain ⟨mp, mi, mc, hmo⟩ := is_node_iff.1 (hnode q (by simp))
          have hmne : 0 < mc.length := by
            have := hne q (by simp)
            rwa [entry_count_of_get hmo] at this
          obtain ⟨e, he⟩ : ∃ e, mc.getLast? = some e := by
            cases hmc : mc.getLast? with
            | none => simp at hmc; simp [hmc] at hmne
            | some e => exact ⟨e, rfl⟩
          have hF : ((qs ++ [q]).flatMap (kids h)).getLast? = some e.2 := by
            rw [List.flatMap_append, List.flatMap_singleton, kids_of_get hmo,
              List.getLast?_append, List.getLast?_map, he]
            rfl
          have hlenF : 0 < ((qs ++ [q]).flatMap (kids h)).length := by
            rw [List.flatMap_append, List.flatMap_singleton, kids_of_get hmo,
              List.length_append, List.length_map]
            omega
          have hne0 : i ≠ 0 := by omega
          have h1 : (qs ++ [q] ++ [p])[(qs ++ [q]).length - 1]? = some q := by
            rw [List.getElem?_append_left (by simp), ← List.getLast?_eq_getElem?]; simp
          have h2 : (((qs ++ [q]).flatMap (kids h)) ++ kids h p)[i - 1]? = some e.2 := by
            rw [List.getElem?_append_left (by omega), hi_eq, ← List.getLast?_eq_getElem?, hF]
          rw [if_neg (by simp), if_neg hne0, h1, h2]
          simp only [bind_ok, node_child_of_get hmo, back_eq_ok.2 he, pure_eq_ok]
      · rw [if_neg hj0, if_neg (by omega), List.getElem?_append_right (by omega), hk,
          List.getElem?_map]
        obtain ⟨e, he⟩ : ∃ e, pc[i - (ps.flatMap (kids h)).length - 1]? = some e :=
          ⟨pc.get ⟨i - (ps.flatMap (kids h)).length - 1, by omega⟩, by
            simp [List.getElem?_eq_getElem, show i - (ps.flatMap (kids h)).length - 1 < pc.length by omega]⟩
        rw [at_eq_ok.2 he]
        have : i - 1 - (ps.flatMap (kids h)).length = i - (ps.flatMap (kids h)).length - 1 := by
          omega
        rw [this, he]
        rfl
theorem next_root (w : Nat) (h : Heap G V) (fuel root : Nat)
    (hr : par h root = some none) :
    node_base_t.next w h (fuel + 1) root = .ok none := by
  obtain ⟨o, ho, hp⟩ := Option.map_eq_some'.1 hr
  rw [node_base_t.next]
  simp only [deref_eq_ok.2 ho, bind_ok, hp, pure_eq_ok]

theorem prev_root (w : Nat) (h : Heap G V) (fuel root : Nat)
    (hr : par h root = some none) :
    node_base_t.prev w h (fuel + 1) root = .ok none := by
  obtain ⟨o, ho, hp⟩ := Option.map_eq_some'.1 hr
  rw [node_base_t.prev]
  simp only [deref_eq_ok.2 ho, bind_ok, hp, pure_eq_ok]

theorem level_linked_next {w : Nat} {h : Heap G V} {root D : Nat}
    (wf : WellFormed w h root D) :
    ∀ L, L ≤ D → ∀ fuel, L < fuel → Linked (node_base_t.next w h fuel) (level h root L) := by
  intro L
  induction L with
  | zero =>
    intro _ fuel hf i a hi
    obtain ⟨f, rfl⟩ : ∃ f, fuel = f + 1 := ⟨fuel - 1, by omega⟩
    cases i with
    | zero =>
      simp only [level, List.getElem?_cons_zero, Option.some.injEq] at hi
      subst hi
      rw [next_root w h f _ wf.root_is_root]
      simp [level]
    | succ j => simp [level] at hi
  | succ L ih =>
    intro hL fuel hf
    obtain ⟨f, rfl⟩ : ∃ f, fuel = f + 1 := ⟨fuel - 1, by omega⟩
    refine linked_flatMap_next w h f (level h root L) (ih (by omega) f (by omega))
      (wf.internal L (by omega)) (wf.backrefs L (by omega)) (wf.sizes L (by omega)) ?_
    intro p hp
    cases L with
    | zero => simp [level] at hp
    | succ k => exact wf.nonempty (k + 1) (by omega) (by omega) p (List.mem_of_mem_tail hp)

theorem level_linked_prev {w : Nat} {h : Heap G V} {root D : Nat}
    (wf : WellFormed w h root D) :
    ∀ L, L ≤ D → ∀ fuel, L < fuel →
      LinkedBack (node_base_t.prev w h fuel) (level h root L) := by
  intro L
  induction L with
  | zero =>
    intro _ fuel hf i a hi
    obtain ⟨f, rfl⟩ : ∃ f, fuel = f + 1 := ⟨fuel - 1, by omega⟩
    cases i with
    | zero =>
      simp only [level, List.getElem?_cons_zero, Option.some.injEq] at hi
      subst hi
      rw [prev_root w h f _ wf.root_is_root]
      simp
    | succ j => simp [level] at hi
  | succ L ih =>
    intro hL fuel hf
    obtain ⟨f, rfl⟩ : ∃ f, fuel = f + 1 := ⟨fuel - 1, by omega⟩
    refine linkedBack_flatMap_prev w h f (level h root L) (ih (by omega) f (by omega))
      (wf.internal L (by omega)) (wf.backrefs L (by omega)) (wf.sizes L (by omega)) ?_
    intro p hp
    cases L with
    | zero => simp [level] at hp
    | succ k => exact wf.nonempty (k + 1) (by omega) (by omega) p (List.mem_of_mem_dropLast hp)

theorem kids_nodup {h : Heap G V} {p : Nat} (hb : BackRefs h p) : (kids h p).Nodup := by
  rw [List.nodup_iff_getElem?_ne_getElem?]
  intro i j hij hj heq
  obtain ⟨c, hc⟩ : ∃ c, (kids h p)[j]? = some c := ⟨(kids h p)[j], by simp [hj]⟩
  obtain ⟨o, ho, _, hoi⟩ := backRefs_get hb hc
  obtain ⟨o', ho', _, hoi'⟩ := backRefs_get hb (heq.trans hc)
  rw [ho] at ho'
  cases ho'
  omega

theorem kids_parent {h : Heap G V} {p c : Nat} (hb : BackRefs h p) (hc : c ∈ kids h p) :
    par h c = some (some p) := by
  obtain ⟨i, hi⟩ := List.mem_iff_getElem?.1 hc
  obtain ⟨o, ho, hop, _⟩ := backRefs_get hb hi
  simp [par, ho, hop]

theorem level_nodup {w : Nat} {h : Heap G V} {root D : Nat} (wf : WellFormed w h root D) :
    ∀ L, L ≤ D → (level h root L).Nodup := by
  intro L
  induction L with
  | zero => intro _; simp [level]
  | succ L ih =>
    intro hL
    rw [level, List.nodup_flatMap]
    refine ⟨fun p hp => kids_nodup (wf.backrefs L (by omega) p hp), ?_⟩
    refine List.Pairwise.imp_of_mem ?_ (ih (by omega))
    intro a b ha hb hab
    show List.Disjoint (kids h a) (kids h b)
    intro c hca hcb
    have h1 := kids_parent (wf.backrefs L (by omega) a ha) hca
    have h2 := kids_parent (wf.backrefs L (by omega) b hb) hcb
    rw [h1] at h2
    exact hab (by simpa using h2)

theorem level_disjoint {w : Nat} {h : Heap G V} {root D : Nat} (wf : WellFormed w h root D) :
    ∀ L L', L < L' → L' ≤ D → ∀ a, a ∈ level h root L → a ∉ level h root L' := by
  intro L
  induction L with
  | zero =>
    intro L' hlt hD a ha ha'
    obtain ⟨k, rfl⟩ : ∃ k, L' = k + 1 := ⟨L' - 1, by omega⟩
    simp only [level, List.mem_singleton] at ha
    subst ha
    rw [level, List.mem_flatMap] at ha'
    obtain ⟨p, hp, hc⟩ := ha'
    have := kids_parent (wf.backrefs k (by omega) p hp) hc
    rw [wf.root_is_root] at this
    simp at this
  | succ L ih =>
    intro L' hlt hD a ha ha'
    obtain ⟨k, rfl⟩ : ∃ k, L' = k + 1 := ⟨L' - 1, by omega⟩
    rw [level, List.mem_flatMap] at ha ha'
    obtain ⟨p, hp, hc⟩ := ha
    obtain ⟨p', hp', hc'⟩ := ha'
    have h1 := kids_parent (wf.backrefs L (by omega) p hp) hc
    have h2 := kids_parent (wf.backrefs k (by omega) p' hp') hc'
    rw [h1] at h2
    have : p = p' := by simpa using h2
    subst this
    exact ih k (by omega) (by omega) p hp hp'

theorem traverse_linked {nx : Nat → Except Fault (Option Nat)} {xs : List Nat}
    (hl : Linked nx xs) :
    ∀ k i, xs.length - i = k → traverse nx k xs[i]? = .ok (xs.drop i) := by
  intro k
  induction k with
  | zero =>
    intro i hk
    have : xs.length ≤ i := by omega
    rw [List.getElem?_eq_none this, List.drop_eq_nil_of_le this]
    rfl
  | succ k ih =>
    intro i hk
    have hi : i < xs.length := by omega
    have hg : xs[i]? = some xs[i] := List.getElem?_eq_getElem hi
    rw [hg, traverse, hl i _ hg]
    simp only [bind_ok, ih (i + 1) (by omega), pure_eq_ok]
    rw [← List.drop_eq_getElem_cons hi]

/-! ## Subtrees under changes of the heap -/

theorem is_leaf_iff_ents {h : Heap G V} {a : Nat} :
    is_leaf h a = true ↔ ∃ c, ents h a = some (.leaf c) := by
  unfold is_leaf ents
  cases hh : h[a]? with
  | none => simp
  | some o =>
    obtain ⟨p, i, ch⟩ := o
    cases ch <;> simp

theorem get_eq_of_fields {h h' : Heap G V} {b : Nat} (hp : par h' b = par h b)
    (hi : idx h' b = idx h b) (he : ents h' b = ents h b) : h'[b]? = h[b]? := by
  unfold par at hp
  unfold idx at hi
  unfold ents at he
  cases h1 : h'[b]? with
  | none =>
    cases h2 : h[b]? with
    | none => rfl
    | some o => rw [h1, h2] at hp; simp at hp
  | some o' =>
    cases h2 : h[b]? with
    | none => rw [h1, h2] at hp; simp at hp
    | some o =>
      rw [h1, h2] at hp hi he
      obtain ⟨p, i, c⟩ := o
      obtain ⟨p', i', c'⟩ := o'
      simp only [Option.map_some', Option.some.injEq] at hp hi he
      subst hp hi he
      rfl

theorem shaped_lt {w : Nat} {h : Heap G V} {d a : Nat} (hs : shaped w h d a = true) :
    a < h.length := by
  cases d with
  | zero =>
    obtain ⟨c, hc⟩ := is_leaf_iff_ents.1 (by simpa [shaped] using hs)
    exact lt_of_ents hc
  | succ d =>
    unfold shaped at hs
    split at hs
    · next c hc => exact lt_of_ents hc
    · exact absurd hs (by simp)

theorem shaped_succ {w : Nat} {h : Heap G V} {d a : Nat} (hs : shaped w h (d + 1) a = true) :
    ∃ c, ents h a = some (.node c) ∧ c.length < 2 ^ w ∧ ∀ e ∈ c, shaped w h d e.2 = true := by
  unfold shaped at hs
  split at hs
  · next c hc =>
    simp only [Bool.and_eq_true, decide_eq_true_eq, List.all_eq_true] at hs
    exact ⟨c, hc, hs.1, hs.2⟩
  · exact absurd hs (by simp)

/-- A subtree and its value depend only on the entries of the objects of the
heap it lies in. -/
theorem shaped_congr {w : Nat} {h h' : Heap G V} :
    ∀ d a, shaped w h d a = true → (∀ b, b < h.length → ents h' b = ents h b) →
      shaped w h' d a = true ∧ abstraction h' d a = abstraction h d a := by
  intro d
  induction d with
  | zero =>
    intro a hs hsame
    have ha := shaped_lt hs
    obtain ⟨c, hc⟩ := is_leaf_iff_ents.1 (by simpa [shaped] using hs)
    have hc' : ents h' a = some (.leaf c) := by rw [hsame a ha, hc]
    exact ⟨by simpa [shaped] using is_leaf_iff_ents.2 ⟨c, hc'⟩,
      by simp only [abstraction, hc, hc']⟩
  | succ d ih =>
    intro a hs hsame
    have ha := shaped_lt hs
    obtain ⟨c, hc, hw, hall⟩ := shaped_succ hs
    have hc' : ents h' a = some (.node c) := by rw [hsame a ha, hc]
    refine ⟨?_, ?_⟩
    · unfold shaped
      simp only [hc', Bool.and_eq_true, decide_eq_true_eq, List.all_eq_true]
      exact ⟨hw, fun e he => (ih e.2 (hall e he) hsame).1⟩
    · simp only [abstraction, hc, hc']
      congr 1
      apply List.map_congr_left
      intro e he
      rw [(ih e.2 (hall e he) hsame).2]

theorem freshTree_lt {w : Nat} {h : Heap G V} {lo d a : Nat} (hf : FreshTree w h lo d a) :
    a < h.length := by
  cases d with
  | zero =>
    obtain ⟨c, hc⟩ := is_leaf_iff_ents.1 hf.2
    exact lt_of_ents hc
  | succ d =>
    obtain ⟨_, _, c, hc, _, _⟩ := hf
    exact lt_of_ents hc

theorem freshTree_mono {w : Nat} {h : Heap G V} {lo lo' d a : Nat}
    (hf : FreshTree w h lo d a) (hle : lo' ≤ lo) : FreshTree w h lo' d a := by
  cases d with
  | zero => exact ⟨by have := hf.1; omega, hf.2⟩
  | succ d =>
    obtain ⟨h1, h2, h3⟩ := hf
    exact ⟨by omega, h2, h3⟩

theorem freshTree_shaped {w : Nat} {h : Heap G V} :
    ∀ d lo a, FreshTree w h lo d a → shaped w h d a = true := by
  intro d
  induction d with
  | zero => intro lo a hf; simpa [shaped] using hf.2
  | succ d ih =>
    intro lo a hf
    obtain ⟨hlo, _, c, hc, hw, hall⟩ := hf
    unfold shaped
    simp only [hc, Bool.and_eq_true, decide_eq_true_eq, List.all_eq_true]
    exact ⟨hw, fun e he => ih (a + 1) e.2 (hall e he)⟩

/-- A fresh subtree survives every change of the heap that keeps the entries at
the addresses from `lo` on and the headers at the addresses above `lo`. -/
theorem freshTree_congr {w : Nat} {h h' : Heap G V} :
    ∀ d lo a, FreshTree w h lo d a →
      (∀ b, lo ≤ b → b < h.length → ents h' b = ents h b) →
      (∀ b, lo < b → b < h.length → par h' b = par h b ∧ idx h' b = idx h b) →
      FreshTree w h' lo d a ∧ abstraction h' d a = abstraction h d a := by
  intro d
  induction d with
  | zero =>
    intro lo a hf he _
    have ha := freshTree_lt hf
    obtain ⟨c, hc⟩ := is_leaf_iff_ents.1 hf.2
    have hc' : ents h' a = some (.leaf c) := by rw [he a hf.1 ha, hc]
    exact ⟨⟨hf.1, is_leaf_iff_ents.2 ⟨c, hc'⟩⟩, by simp only [abstraction, hc, hc']⟩
  | succ d ih =>
    intro lo a hf he hh
    have ha := freshTree_lt hf
    obtain ⟨hlo, hb, c, hc, hw, hall⟩ := hf
    have hc' : ents h' a = some (.node c) := by rw [he a hlo ha, hc]
    have hsub : ∀ e ∈ c, FreshTree w h' (a + 1) d e.2 ∧
        abstraction h' d e.2 = abstraction h d e.2 := fun e hemem =>
      ih (a + 1) e.2 (hall e hemem) (fun b hb1 hb2 => he b (by omega) hb2)
        (fun b hb1 hb2 => hh b (by omega) hb2)
    refine ⟨⟨hlo, ?_, c, hc', hw, fun e hemem => (hsub e hemem).1⟩, ?_⟩
    · rw [backRefs_iff] at hb ⊢
      intro i x hx
      rw [kids_of_ents hc'] at hx
      have hx' : (kids h a)[i]? = some x := by rw [kids_of_ents hc]; exact hx
      obtain ⟨e, hemem, hex⟩ : ∃ e ∈ c, e.2 = x := by
        have := List.mem_iff_getElem?.2 ⟨i, hx⟩
        simpa using this
      have hfx := hall e hemem
      rw [hex] at hfx
      have hxlo : a + 1 ≤ x := by
        cases d with
        | zero => exact hfx.1
        | succ d => exact hfx.1
      have := hh x (by omega) (freshTree_lt hfx)
      rw [this.1, this.2]
      exact hb i x hx'
    · simp only [abstraction, hc, hc']
      congr 1
      apply List.map_congr_left
      intro e hemem
      rw [(hsub e hemem).2]

/-! ## Cloning -/

theorem par_append_left {h t : Heap G V} {b : Nat} (hb : b < h.length) :
    par (h ++ t) b = par h b := by
  simp only [par, List.getElem?_append_left hb]

theorem idx_append_left {h t : Heap G V} {b : Nat} (hb : b < h.length) :
    idx (h ++ t) b = idx h b := by
  simp only [idx, List.getElem?_append_left hb]

theorem ents_append_left {h t : Heap G V} {b : Nat} (hb : b < h.length) :
    ents (h ++ t) b = ents h b := by
  simp only [ents, List.getElem?_append_left hb]

theorem fields_append_new (h : Heap G V) (o : Obj G V) :
    par (h ++ [o]) h.length = some o._parent ∧
      idx (h ++ [o]) h.length = some o._index_on_parent ∧
      ents (h ++ [o]) h.length = some o._child := by
  simp [par, idx, ents]

theorem sameBelow_append (h t : Heap G V) : SameBelow h.length h (h ++ t) :=
  fun _ hb => ⟨par_append_left hb, idx_append_left hb, ents_append_left hb⟩

/-- `leaf_node_t::clone_recursive` clones subtrees of depth 0. -/
theorem leaf_clone_contract (w : Nat) :
    ClonesDepth w 0 (leaf_node_t.clone_recursive : Heap G V → Nat → _) := by
  intro hk a hs
  obtain ⟨c, hc⟩ := is_leaf_iff_ents.1 (by simpa [shaped] using hs)
  have hnew := fields_append_new hk (⟨none, 0, .leaf []⟩ : Obj G V)
  obtain ⟨h2, hs2, hl2, hp2, hi2, he2⟩ := leaf_set_child_spec hnew.2.2 c
  have hlen : h2.length = hk.length + 1 := by rw [hl2]; simp
  have hleaf : ents h2 hk.length = some (.leaf c) := by rw [he2, if_pos rfl]
  refine ⟨h2, ?_, by omega, ?_, ⟨le_refl _, is_leaf_iff_ents.2 ⟨c, hleaf⟩⟩, ?_, ?_⟩
  · simp only [leaf_node_t.clone_recursive, leaf_child_iff_ents.2 hc, bind_ok, new_leaf, hs2,
      pure_eq_ok]
  · intro b hb
    refine ⟨by rw [hp2, par_append_left hb], by rw [hi2, idx_append_left hb], ?_⟩
    rw [he2, if_neg (by omega), ents_append_left hb]
  · simp only [abstraction, hleaf, hc]
  · rw [hp2]; exact hnew.1

/-- One pass through the loop of `node_t::clone_recursive`, and then the rest of
the loop. -/
theorem clone_loop_spec (w d : Nat)
    (cloneC : Heap G V → Nat → Except Fault (Heap G V × Nat)) (hC : ClonesDepth w d cloneC)
    (h : Heap G V) :
    ∀ (todo done : List (G × Nat)) (hk : Heap G V), CloneInv w d h hk done →
      (∀ e ∈ todo, shaped w h d e.2 = true) → done.length + todo.length < 2 ^ w →
      ∃ hf done', todo.foldlM (fun (hk : Heap G V) (e : G × Nat) => do
            let (h1, cl) ← cloneC hk e.2
            node_t.insert w h1 h.length (e.1, cl)) hk = .ok hf ∧
        CloneInv w d h hf done' ∧
        done'.map (fun x => (x.1, abstraction hf d x.2)) =
          done.map (fun x => (x.1, abstraction hk d x.2)) ++
            todo.map (fun e => (e.1, abstraction h d e.2)) := by
  intro todo
  induction todo with
  | nil =>
    intro done hk hinv _ _
    exact ⟨hk, done, rfl, hinv, by simp⟩
  | cons e todo ih =>
    intro done hk hinv hsh hlen
    have hentsk : ∀ b, b < h.length → ents hk b = ents h b := fun b hb => (hinv.same b hb).2.2
    have hse := shaped_congr d e.2 (hsh e (List.mem_cons_self _ _)) hentsk
    obtain ⟨h1, hc1, hl1, hsame1, hfresh1, habs1, _⟩ := hC hk e.2 hse.1
    have hN1 : ents h1 h.length = some (.node done) := by
      rw [(hsame1 h.length hinv.longer).2.2, hinv.entries]
    obtain ⟨h2, hs2, hl2, he2, hp2, hi2⟩ :=
      node_insert_spec w (e.1, hk.length) hN1 (show (e.1, hk.length).2 < h1.length from hl1)
    simp only at hp2 hi2
    have hdone : done.length % 2 ^ w = done.length := Nat.mod_eq_of_lt (by omega)
    -- the fields of the objects below the clone of `e` are those of `hk`, except
    -- for the entries of the new node
    have hents2 : ∀ b, b < hk.length → b ≠ h.length → ents h2 b = ents hk b := by
      intro b hb hne
      rw [he2, if_neg hne, (hsame1 b hb).2.2]
    have hhead2 : ∀ b, b < hk.length → par h2 b = par hk b ∧ idx h2 b = idx hk b := by
      intro b hb
      rw [hp2, hi2, if_neg (by omega), if_neg (by omega)]
      exact ⟨(hsame1 b hb).1, (hsame1 b hb).2.1⟩
    have hold : ∀ x ∈ done, FreshTree w h2 (h.length + 1) d x.2 ∧
        abstraction h2 d x.2 = abstraction hk d x.2 := by
      intro x hx
      obtain ⟨i, hi⟩ := List.mem_iff_getElem?.1 hx
      exact freshTree_congr d _ x.2 (hinv.children i x hi).1
        (fun b hb1 hb2 => hents2 b hb2 (by omega)) (fun b _ hb2 => hhead2 b hb2)
    have hnew := freshTree_congr d _ hk.length hfresh1
      (fun b hb1 _ => by rw [he2, if_neg]; have := hinv.longer; omega)
      (fun b hb1 _ => by rw [hp2, hi2, if_neg (by omega), if_neg (by omega)]; exact ⟨rfl, rfl⟩)
    have hinv2 : CloneInv w d h h2 (done ++ [(e.1, hk.length)]) := by
      refine ⟨by have := hinv.longer; omega, ?_, by rw [he2, if_pos rfl], ?_, ?_⟩
      · intro b hb
        have hbk : b < hk.length := by have := hinv.longer; omega
        have := hinv.same b hb
        exact ⟨by rw [(hhead2 b hbk).1, this.1], by rw [(hhead2 b hbk).2, this.2.1],
          by rw [hents2 b hbk (by omega), this.2.2]⟩
      · rw [(hhead2 h.length hinv.longer).1, hinv.root]
      · intro i x hx
        by_cases hi : i < done.length
        · rw [List.getElem?_append_left hi] at hx
          have hxk := hinv.children i x hx
          have hxlt := freshTree_lt hxk.1
          refine ⟨(hold x (List.mem_iff_getElem?.2 ⟨i, hx⟩)).1, ?_, ?_⟩
          · rw [(hhead2 x.2 hxlt).1, hxk.2.1]
          · rw [(hhead2 x.2 hxlt).2, hxk.2.2]
        · rw [List.getElem?_append_right (by omega)] at hx
          have hi0 : i - done.length = 0 := by
            by_contra hcon
            obtain ⟨m, hm⟩ : ∃ m, i - done.length = m + 1 := ⟨i - done.length - 1, by omega⟩
            rw [hm] at hx
            simp at hx
          rw [hi0] at hx
          have hxe : x = (e.1, hk.length) := by simpa using hx.symm
          subst hxe
          refine ⟨freshTree_mono hnew.1 (by have := hinv.longer; omega), ?_, ?_⟩
          · rw [hp2, if_pos rfl]
          · rw [hi2, if_pos rfl, hdone]
            congr 1; omega
    obtain ⟨hf, done', hfold, hinvf, habsf⟩ := ih (done ++ [(e.1, hk.length)]) h2 hinv2
      (fun x hx => hsh x (List.mem_cons_of_mem _ hx)) (by simp at hlen ⊢; omega)
    refine ⟨hf, done', ?_, hinvf, ?_⟩
    · rw [List.foldlM_cons]
      simp only [hc1, bind_ok, hs2]
      exact hfold
    · rw [habsf, List.map_append, List.map_cons, List.append_assoc]
      congr 1
      · apply List.map_congr_left
        intro x hx
        rw [(hold x hx).2]
      · simp only [List.map_nil, List.singleton_append, List.map_cons]
        rw [hnew.2, habs1, hse.2]

/-- The body of `node_t::clone_recursive` clones subtrees of depth `d + 1` when
the function it calls on the children clones subtrees of depth `d`. -/
theorem node_clone_contract (w d : Nat)
    (cloneC : Heap G V → Nat → Except Fault (Heap G V × Nat)) (hC : ClonesDepth w d cloneC) :
    ClonesDepth w (d + 1) (clone_node_with w cloneC) := by
  intro h a hs
  obtain ⟨c, hc, hw, hall⟩ := shaped_succ hs
  have hnew := fields_append_new h (⟨none, 0, .node []⟩ : Obj G V)
  have hinv0 : CloneInv w d h (h ++ [⟨none, 0, .node []⟩]) [] :=
    ⟨by simp, sameBelow_append h _, hnew.2.2, hnew.1, by intro i x hx; simp at hx⟩
  obtain ⟨hf, done', hfold, hinv, habs⟩ :=
    clone_loop_spec w d cloneC hC h c [] _ hinv0 hall (by simpa using hw)
  have hlen : done'.length = c.length := by
    have := congrArg List.length habs
    simpa using this
  refine ⟨hf, ?_, hinv.longer, hinv.same, ?_, ?_, hinv.root⟩
  · simp only [clone_node_with, node_child_iff_ents.2 hc, bind_ok, new_node, hfold, pure_eq_ok]
  · refine ⟨le_refl _, ?_, done', hinv.entries, by omega, ?_⟩
    · rw [backRefs_iff]
      intro i x hx
      rw [kids_of_ents hinv.entries, List.getElem?_map] at hx
      obtain ⟨y, hy, hyx⟩ := Option.map_eq_some'.1 hx
      subst hyx
      exact (hinv.children i y hy).2
    · intro x hx
      obtain ⟨i, hi⟩ := List.mem_iff_getElem?.1 hx
      exact (hinv.children i x hi).1
  · simp only [abstraction, hinv.entries, hc]
    exact congrArg Tree.node (by simpa using habs)

theorem clone_recursive_succ (w fuel : Nat) (h : Heap G V) (self : Nat) (leaf_level : Int) :
    node_t.clone_recursive w (fuel + 1) h self leaf_level =
      if leaf_level = 1 then clone_node_with w leaf_node_t.clone_recursive h self
      else clone_node_with w
        (fun hk a => node_t.clone_recursive w fuel hk a (leaf_level - 1)) h self := by
  rw [node_t.clone_recursive]
  by_cases hl : leaf_level = 1
  · simp only [hl, if_true, clone_node_with]
  · simp only [hl, if_false, clone_node_with]

/-- `node_t::clone_recursive` with `leaf_level = d + 1` clones subtrees of depth
`d + 1`, within a recursion depth of `d + 1`. -/
theorem node_clone_depth (w : Nat) :
    ∀ d fuel, d < fuel →
      ClonesDepth w (d + 1)
        (fun (h : Heap G V) a => node_t.clone_recursive w fuel h a ((d + 1 : Nat) : Int)) := by
  intro d
  induction d with
  | zero =>
    intro fuel hf
    obtain ⟨f, rfl⟩ : ∃ f, fuel = f + 1 := ⟨fuel - 1, by omega⟩
    have := node_clone_contract w 0 _ (leaf_clone_contract (G := G) (V := V) w)
    intro hk a hs
    obtain ⟨h1, hc, hrest⟩ := this hk a hs
    refine ⟨h1, ?_, hrest⟩
    show node_t.clone_recursive w (f + 1) hk a ((0 + 1 : Nat) : Int) = _
    rw [clone_recursive_succ, if_pos (by simp)]
    exact hc
  | succ d ih =>
    intro fuel hf
    obtain ⟨f, rfl⟩ : ∃ f, fuel = f + 1 := ⟨fuel - 1, by omega⟩
    have := node_clone_contract w (d + 1) _ (ih f (by omega))
    intro hk a hs
    obtain ⟨h1, hc, hrest⟩ := this hk a hs
    refine ⟨h1, ?_, hrest⟩
    show node_t.clone_recursive w (f + 1) hk a ((d + 1 + 1 : Nat) : Int) = _
    rw [clone_recursive_succ, if_neg (by push_cast; omega)]
    have hlev : (((d + 1 + 1 : Nat) : Int) - 1) = ((d + 1 : Nat) : Int) := by
      push_cast; omega
    rw [hlev]
    exact hc

/-! ## What the operations leave alone -/

theorem set_parent_frame {h h' : Heap G V} {a : Nat} {p : Option Nat}
    (hs : set_parent h a p = .ok h') : ∀ b, b ≠ a → h'[b]? = h[b]? := by
  intro b hb
  unfold set_parent at hs
  split at hs
  · injection hs with hs
    rw [← hs, List.getElem?_set_ne (Ne.symm hb)]
  · exact Except.noConfusion hs

theorem set_index_on_parent_frame {h h' : Heap G V} {a i : Nat}
    (hs : set_index_on_parent h a i = .ok h') : ∀ b, b ≠ a → h'[b]? = h[b]? := by
  intro b hb
  unfold set_index_on_parent at hs
  split at hs
  · injection hs with hs
    rw [← hs, List.getElem?_set_ne (Ne.symm hb)]
  · exact Except.noConfusion hs

theorem node_set_child_frame {h h' : Heap G V} {a : Nat} {c : List (G × Nat)}
    (hs : node_t.set_child h a c = .ok h') : ∀ b, b ≠ a → h'[b]? = h[b]? := by
  intro b hb
  unfold node_t.set_child at hs
  split at hs
  · injection hs with hs
    rw [← hs, List.getElem?_set_ne (Ne.symm hb)]
  · exact Except.noConfusion hs

theorem leaf_set_child_frame {h h' : Heap G V} {a : Nat} {c : List (G × V)}
    (hs : leaf_node_t.set_child h a c = .ok h') : ∀ b, b ≠ a → h'[b]? = h[b]? := by
  intro b hb
  unfold leaf_node_t.set_child at hs
  split at hs
  · injection hs with hs
    rw [← hs, List.getElem?_set_ne (Ne.symm hb)]
  · exact Except.noConfusion hs

/-- `node_t::insert` writes only to the node and to the inserted child. -/
theorem node_insert_frame {w : Nat} {h h' : Heap G V} {p : Nat} {child : G × Nat}
    (hs : node_t.insert w h p child = .ok h') :
    ∀ b, b ≠ p → b ≠ child.2 → h'[b]? = h[b]? := by
  intro b hbp hbc
  unfold node_t.insert at hs
  obtain ⟨h1, hs1, hs⟩ := bind_eq_ok.1 hs
  obtain ⟨sz, _, hs⟩ := bind_eq_ok.1 hs
  obtain ⟨h2, hs2, hs⟩ := bind_eq_ok.1 hs
  obtain ⟨c, _, hs⟩ := bind_eq_ok.1 hs
  rw [node_set_child_frame hs b hbp, set_index_on_parent_frame hs2 b hbc,
    set_parent_frame hs1 b hbc]

/-- `leaf_node_t::insert` writes only to the leaf. -/
theorem leaf_insert_frame {h h' : Heap G V} {p : Nat} {child : G × V}
    (hs : leaf_node_t.insert h p child = .ok h') : ∀ b, b ≠ p → h'[b]? = h[b]? := by
  intro b hbp
  unfold leaf_node_t.insert at hs
  obtain ⟨c, _, hs⟩ := bind_eq_ok.1 hs
  exact leaf_set_child_frame hs b hbp

/-- `leaf_node_t::erase` writes only to the leaf. -/
theorem leaf_erase_frame {w : Nat} {h h' : Heap G V} {p i : Nat}
    (hs : leaf_node_t.erase w h p i = .ok h') : ∀ b, b ≠ p → h'[b]? = h[b]? := by
  intro b hbp
  unfold leaf_node_t.erase at hs
  obtain ⟨sz, _, hs⟩ := bind_eq_ok.1 hs
  split at hs
  · obtain ⟨c, _, hs⟩ := bind_eq_ok.1 hs
    obtain ⟨bk, _, hs⟩ := bind_eq_ok.1 hs
    obtain ⟨c1, _, hs⟩ := bind_eq_ok.1 hs
    obtain ⟨h1, hs1, hs⟩ := bind_eq_ok.1 hs
    obtain ⟨c2, _, hs⟩ := bind_eq_ok.1 hs
    obtain ⟨c3, _, hs⟩ := bind_eq_ok.1 hs
    rw [leaf_set_child_frame hs b hbp, leaf_set_child_frame hs1 b hbp]
  · obtain ⟨h1, hs1, hs⟩ := bind_eq_ok.1 hs
    injection hs1 with hs1
    subst hs1
    obtain ⟨c2, _, hs⟩ := bind_eq_ok.1 hs
    obtain ⟨c3, _, hs⟩ := bind_eq_ok.1 hs
    exact leaf_set_child_frame hs b hbp

/-- `node_t::erase` writes only to the node, to the erased child and to the last
child of the node. -/
theorem node_erase_frame {w : Nat} {h h' : Heap G V} {p x : Nat}
    (hs : node_t.erase w h p x = .ok h') :
    ∀ b, b ≠ p → b ≠ x → (∀ c e, node_t._child h p = .ok c → c.getLast? = some e → b ≠ e.2) →
      h'[b]? = h[b]? := by
  intro b hbp hbx hbl
  unfold node_t.erase at hs
  obtain ⟨nd, _, hs⟩ := bind_eq_ok.1 hs
  obtain ⟨sz, _, hs⟩ := bind_eq_ok.1 hs
  split at hs
  · obtain ⟨c, hc, hs⟩ := bind_eq_ok.1 hs
    obtain ⟨bk, hbk, hs⟩ := bind_eq_ok.1 hs
    obtain ⟨h1, hs1, hs⟩ := bind_eq_ok.1 hs
    obtain ⟨nd1, _, hs⟩ := bind_eq_ok.1 hs
    obtain ⟨c1, _, hs⟩ := bind_eq_ok.1 hs
    obtain ⟨b1, _, hs⟩ := bind_eq_ok.1 hs
    obtain ⟨c2, _, hs⟩ := bind_eq_ok.1 hs
    obtain ⟨h2, hs2, hs⟩ := bind_eq_ok.1 hs
    obtain ⟨h3, hs3, hs⟩ := bind_eq_ok.1 hs
    obtain ⟨c3, _, hs⟩ := bind_eq_ok.1 hs
    obtain ⟨c4, _, hs⟩ := bind_eq_ok.1 hs
    rw [node_set_child_frame hs b hbp, set_parent_frame hs3 b hbx,
      node_set_child_frame hs2 b hbp,
      set_index_on_parent_frame hs1 b (hbl c bk hc (back_eq_ok.1 hbk))]
  · obtain ⟨h2, hs2, hs⟩ := bind_eq_ok.1 hs
    injection hs2 with hs2
    subst hs2
    obtain ⟨h3, hs3, hs⟩ := bind_eq_ok.1 hs
    obtain ⟨c3, _, hs⟩ := bind_eq_ok.1 hs
    obtain ⟨c4, _, hs⟩ := bind_eq_ok.1 hs
    rw [node_set_child_frame hs b hbp, set_parent_frame hs3 b hbx]

/-! ## The nodes of a subtree, level by level -/

theorem kids_of_leaf {h : Heap G V} {a : Nat} (hl : is_leaf h a = true) : kids h a = [] := by
  obtain ⟨c, hc⟩ := is_leaf_iff_ents.1 hl
  obtain ⟨o, ho, hoc⟩ := Option.map_eq_some'.1 hc
  obtain ⟨p, i, ch⟩ := o
  simp only at hoc
  subst hoc
  simp [kids, ho]

theorem mem_kids_of_child {h : Heap G V} {p : Nat} {c : List (G × Nat)} {e : G × Nat}
    (hc : ents h p = some (.node c)) (he : e ∈ c) : e.2 ∈ kids h p := by
  rw [kids_of_ents hc]
  exact List.mem_map_of_mem _ he

theorem freshTree_kid {w : Nat} {h : Heap G V} {lo d p x : Nat} (hf : FreshTree w h lo d p)
    (hx : x ∈ kids h p) : ∃ d', d = d' + 1 ∧ FreshTree w h (p + 1) d' x := by
  cases d with
  | zero => rw [kids_of_leaf hf.2] at hx; simp at hx
  | succ d =>
    obtain ⟨_, _, c, hc, _, hall⟩ := hf
    rw [kids_of_ents hc] at hx
    obtain ⟨e, he, hex⟩ := List.mem_map.1 hx
    exact ⟨d, rfl, hex ▸ hall e he⟩

theorem shaped_kid {w : Nat} {h : Heap G V} {d p x : Nat} (hs : shaped w h d p = true)
    (hx : x ∈ kids h p) : ∃ d', d = d' + 1 ∧ shaped w h d' x = true := by
  cases d with
  | zero => rw [kids_of_leaf (by simpa [shaped] using hs)] at hx; simp at hx
  | succ d =>
    obtain ⟨c, hc, _, hall⟩ := shaped_succ hs
    rw [kids_of_ents hc] at hx
    obtain ⟨e, he, hex⟩ := List.mem_map.1 hx
    exact ⟨d, rfl, hex ▸ hall e he⟩

theorem freshTree_level {w : Nat} {h : Heap G V} {lo d a : Nat} (hf : FreshTree w h lo d a) :
    ∀ L, L ≤ d → ∀ x ∈ level h a L, FreshTree w h lo (d - L) x := by
  intro L
  induction L with
  | zero =>
    intro _ x hx
    simp only [level, List.mem_singleton] at hx
    subst hx
    exact hf
  | succ L ih =>
    intro hL x hx
    rw [level, List.mem_flatMap] at hx
    obtain ⟨p, hp, hxp⟩ := hx
    have hfp := ih (by omega) p hp
    obtain ⟨d', hd', hfx⟩ := freshTree_kid hfp hxp
    have : d - (L + 1) = d' := by omega
    rw [this]
    have hlo : lo ≤ p := by
      cases hdl : d - L with
      | zero => omega
      | succ k => rw [hdl] at hfp; exact hfp.1
    exact freshTree_mono hfx (by omega)

theorem shaped_level {w : Nat} {h : Heap G V} {d a : Nat} (hs : shaped w h d a = true) :
    ∀ L, L ≤ d → ∀ x ∈ level h a L, shaped w h (d - L) x = true := by
  intro L
  induction L with
  | zero =>
    intro _ x hx
    simp only [level, List.mem_singleton] at hx
    subst hx
    exact hs
  | succ L ih =>
    intro hL x hx
    rw [level, List.mem_flatMap] at hx
    obtain ⟨p, hp, hxp⟩ := hx
    obtain ⟨d', hd', hsx⟩ := shaped_kid (ih (by omega) p hp) hxp
    have : d - (L + 1) = d' := by omega
    rw [this]
    exact hsx

theorem freshTree_ge {w : Nat} {h : Heap G V} {lo d a : Nat} (hf : FreshTree w h lo d a) :
    lo ≤ a := by
  cases d with
  | zero => exact hf.1
  | succ d => exact hf.1

theorem kids_eq_of_get {h h' : Heap G V} {p : Nat} (hg : h'[p]? = h[p]?) :
    kids h' p = kids h p := by
  simp only [kids, hg]

theorem level_congr {h h' : Heap G V} {n d : Nat} (hold : ∀ a, a < h.length → h'[a]? = h[a]?)
    (hsrc : ∀ L, L ≤ d → ∀ p ∈ level h n L, p < h.length) :
    ∀ L, L ≤ d → level h' n L = level h n L := by
  intro L
  induction L with
  | zero => intro _; rfl
  | succ L ih =>
    intro hL
    rw [level, level, ih (by omega)]
    apply List.flatMap_congr
    intro p hp
    exact kids_eq_of_get (hold p (hsrc L (by omega) p hp))

/-! ## Back-references of a fresh subtree -/

theorem freshTree_backRefs {w : Nat} {h : Heap G V} {lo d a : Nat} (hf : FreshTree w h lo d a) :
    ∀ L, L < d → ∀ p ∈ level h a L, BackRefs h p := by
  intro L hL p hp
  have hfp := freshTree_level hf L (by omega) p hp
  obtain ⟨k, hk⟩ : ∃ k, d - L = k + 1 := ⟨d - L - 1, by omega⟩
  rw [hk] at hfp
  exact hfp.2.1

theorem is_root_of_par {h : Heap G V} {a : Nat} (hp : par h a = some none) :
    node_base_t.is_root h a = .ok true := by
  obtain ⟨o, ho, hop⟩ := Option.map_eq_some'.1 hp
  simp [node_base_t.is_root, deref_eq_ok.2 ho, hop]

/-! ## `calculate_bound` and the order of the entries -/

theorem merge_right_comm (merge : G → G → G)
    (hassoc : ∀ a b c, merge (merge a b) c = merge a (merge b c))
    (hcomm : ∀ a b, merge a b = merge b a) (a b c : G) :
    merge (merge a b) c = merge (merge a c) b := by
  rw [hassoc, hcomm b c, ← hassoc]

theorem foldl_merge_perm_tail (merge : G → G → G)
    (hassoc : ∀ a b c, merge (merge a b) c = merge a (merge b c))
    (hcomm : ∀ a b, merge a b = merge b a) {t s : List G} (hp : t.Perm s) :
    ∀ x, t.foldl merge x = s.foldl merge x := by
  induction hp with
  | nil => intro x; rfl
  | cons a _ ih => intro x; exact ih _
  | swap a b l =>
    intro x
    simp only [List.foldl_cons]
    rw [merge_right_comm merge hassoc hcomm]
  | trans _ _ ih1 ih2 => intro x; rw [ih1, ih2]

/-- The left fold of `merge` over a non-empty sequence of bounds is the same for
every order of the sequence. -/
theorem merge_bounds_perm (merge : G → G → G)
    (hassoc : ∀ a b c, merge (merge a b) c = merge a (merge b c))
    (hcomm : ∀ a b, merge a b = merge b a) {l1 l2 : List G} (hp : l1.Perm l2) :
    merge_bounds merge l1 = merge_bounds merge l2 := by
  cases l1 with
  | nil => rw [List.nil_perm] at hp; subst hp; rfl
  | cons x t =>
    cases l2 with
    | nil => exact absurd hp.symm (List.nil_perm.not.2 (by simp))
    | cons y s =>
      simp only [merge_bounds, Option.some.injEq]
      have hy : y ∈ x :: t := hp.symm.subset (List.mem_cons_self _ _)
      rcases List.mem_cons.1 hy with hyx | hyt
      · subst hyx
        exact foldl_merge_perm_tail merge hassoc hcomm (List.Perm.cons_inv hp) _
      · obtain ⟨t1, t2, rfl⟩ := List.append_of_mem hyt
        have h1 : (t1 ++ y :: t2).Perm (y :: (t1 ++ t2)) := List.perm_middle
        have h2 : (y :: x :: (t1 ++ t2)).Perm (y :: s) :=
          ((List.Perm.swap x y (t1 ++ t2)).trans (h1.cons x).symm).trans hp
        have h3 : (x :: (t1 ++ t2)).Perm s := List.Perm.cons_inv h2
        rw [foldl_merge_perm_tail merge hassoc hcomm h1 x,
          ← foldl_merge_perm_tail merge hassoc hcomm h3 y]
        simp only [List.foldl_cons]
        rw [hcomm x y]

theorem calculate_bound_body_perm {γ : Type} (merge : G → G → G)
    (hassoc : ∀ a b c, merge (merge a b) c = merge a (merge b c))
    (hcomm : ∀ a b, merge a b = merge b a) {c1 : List (G × α)} {c2 : List (G × γ)}
    (hp : (c1.map Prod.fst).Perm (c2.map Prod.fst)) :
    calculate_bound.body merge c1 = calculate_bound.body merge c2 := by
  rw [calculate_bound_body_eq, calculate_bound_body_eq,
    merge_bounds_perm merge hassoc hcomm hp]

theorem perm_cons_eraseIdx {v : List α} {i : Nat} {x : α} (hx : v[i]? = some x) :
    v.Perm (x :: v.eraseIdx i) := by
  induction v generalizing i with
  | nil => simp at hx
  | cons a t ih =>
    cases i with
    | zero =>
      simp only [List.getElem?_cons_zero, Option.some.injEq] at hx
      subst hx
      exact List.Perm.refl _
    | succ j =>
      simp only [List.getElem?_cons_succ] at hx
      rw [List.eraseIdx_cons_succ]
      exact ((ih hx).cons a).trans (List.Perm.swap _ _ _)

/-- What swap-remove leaves is, as a multiset, the sequence without the erased
position. -/
theorem swap_remove_perm_eraseIdx {v : List α} {e x : α} {i : Nat}
    (hl : v.getLast? = some e) (hx : v[i]? = some x) :
    ((v.set i e).dropLast).Perm (v.eraseIdx i) :=
  List.Perm.cons_inv ((swap_remove_perm hl hx).symm.trans (perm_cons_eraseIdx hx))

/-! ## Termination of `next` and `prev` -/

theorem bind_ne_fuel {x : Except Fault α} {f : α → Except Fault β}
    (hx : x ≠ .error .fuel) (hf : ∀ a, f a ≠ .error .fuel) : (x >>= f) ≠ .error .fuel := by
  cases x with
  | error e =>
    intro hb
    rw [bind_error] at hb
    injection hb with hb
    exact hx (by rw [hb])
  | ok a => exact hf a

theorem deref_ne_fuel (h : Heap G V) (a : Nat) : deref h a ≠ .error .fuel := by
  unfold deref; split <;> simp

theorem node_child_ne_fuel (h : Heap G V) (a : Nat) : node_t._child h a ≠ .error .fuel := by
  unfold node_t._child; split <;> simp

theorem node_size_ne_fuel (w : Nat) (h : Heap G V) (a : Nat) :
    node_t.size w h a ≠ .error .fuel :=
  bind_ne_fuel (node_child_ne_fuel h a) (fun _ => by simp)

theorem at_ne_fuel (v : List α) (i : Nat) : at_ v i ≠ .error .fuel := by
  unfold at_; split <;> simp

theorem back_ne_fuel (v : List α) : back v ≠ .error .fuel := by
  unfold back; split <;> simp

theorem parent_chain_zero {h : Heap G V} {n : Nat} (hc : parent_chain h 0 n = true) :
    par h n = some none := by
  simpa [parent_chain] using hc

theorem parent_chain_succ {h : Heap G V} {k n : Nat} (hc : parent_chain h (k + 1) n = true) :
    ∃ p, par h n = some (some p) ∧ parent_chain h k p = true := by
  unfold parent_chain at hc
  split at hc
  · next p hp => exact ⟨p, hp, hc⟩
  · exact absurd hc (by simp)

theorem next_of_parent {w : Nat} {h : Heap G V} {n p : Nat} (fuel : Nat)
    (hp : par h n = some (some p)) :
    ∃ o, h[n]? = some o ∧ o._parent = some p ∧
      node_base_t.next w h (fuel + 1) n =
        node_t.size w h p >>= fun sz =>
          if o._index_on_parent = (sz + 2 ^ w - 1) % 2 ^ w then
            node_base_t.next w h fuel p >>= fun r =>
              match r with
              | none => pure none
              | some m => (do
                let nc ← node_t._child h m
                let e ← at_ nc 0
                pure (some e.2))
          else (do
            let pc ← node_t._child h p
            let e ← at_ pc ((o._index_on_parent + 1) % 2 ^ w)
            pure (some e.2)) := by
  obtain ⟨o, ho, hop⟩ := Option.map_eq_some'.1 hp
  refine ⟨o, ho, hop, ?_⟩
  rw [node_base_t.next]
  simp only [deref_eq_ok.2 ho, bind_ok, hop]

theorem prev_of_parent {w : Nat} {h : Heap G V} {n p : Nat} (fuel : Nat)
    (hp : par h n = some (some p)) :
    ∃ o, h[n]? = some o ∧ o._parent = some p ∧
      node_base_t.prev w h (fuel + 1) n =
        if o._index_on_parent = 0 then
          node_base_t.prev w h fuel p >>= fun r =>
            match r with
            | none => pure none
            | some m => (do
              let nc ← node_t._child h m
              let e ← back nc
              pure (some e.2))
        else (do
          let pc ← node_t._child h p
          let e ← at_ pc ((o._index_on_parent + 2 ^ w - 1) % 2 ^ w)
          pure (some e.2)) := by
  obtain ⟨o, ho, hop⟩ := Option.map_eq_some'.1 hp
  refine ⟨o, ho, hop, ?_⟩
  rw [node_base_t.prev]
  simp only [deref_eq_ok.2 ho, bind_ok, hop]

theorem next_terminates (w : Nat) (h : Heap G V) :
    ∀ k n, parent_chain h k n = true →
      node_base_t.next w h (k + 1) n ≠ .error .fuel ∧
        ∀ fuel, k < fuel → node_base_t.next w h fuel n = node_base_t.next w h (k + 1) n := by
  intro k
  induction k with
  | zero =>
    intro n hc
    have hr := parent_chain_zero hc
    refine ⟨by rw [next_root w h 0 n hr]; simp, ?_⟩
    intro fuel hf
    obtain ⟨f, rfl⟩ : ∃ f, fuel = f + 1 := ⟨fuel - 1, by omega⟩
    rw [next_root w h f n hr, next_root w h 0 n hr]
  | succ k ih =>
    intro n hc
    obtain ⟨p, hp, hcp⟩ := parent_chain_succ hc
    obtain ⟨hne, hind⟩ := ih p hcp
    refine ⟨?_, ?_⟩
    · obtain ⟨o, _, _, hn⟩ := next_of_parent (w := w) (k + 1) hp
      rw [hn]
      refine bind_ne_fuel (node_size_ne_fuel w h p) (fun sz => ?_)
      split
      · refine bind_ne_fuel hne (fun r => ?_)
        cases r with
        | none => simp
        | some m =>
          exact bind_ne_fuel (node_child_ne_fuel h m) (fun nc =>
            bind_ne_fuel (at_ne_fuel nc 0) (fun _ => by simp))
      · exact bind_ne_fuel (node_child_ne_fuel h p) (fun pc =>
          bind_ne_fuel (at_ne_fuel pc _) (fun _ => by simp))
    · intro fuel hf
      obtain ⟨f, rfl⟩ : ∃ f, fuel = f + 1 := ⟨fuel - 1, by omega⟩
      obtain ⟨o, ho, _, hn⟩ := next_of_parent (w := w) f hp
      obtain ⟨o', ho', _, hn'⟩ := next_of_parent (w := w) (k + 1) hp
      rw [ho] at ho'
      cases ho'
      rw [hn, hn', hind f (by omega)]

theorem prev_terminates (w : Nat) (h : Heap G V) :
    ∀ k n, parent_chain h k n = true →
      node_base_t.prev w h (k + 1) n ≠ .error .fuel ∧
        ∀ fuel, k < fuel → node_base_t.prev w h fuel n = node_base_t.prev w h (k + 1) n := by
  intro k
  induction k with
  | zero =>
    intro n hc
    have hr := parent_chain_zero hc
    refine ⟨by rw [prev_root w h 0 n hr]; simp, ?_⟩
    intro fuel hf
    obtain ⟨f, rfl⟩ : ∃ f, fuel = f + 1 := ⟨fuel - 1, by omega⟩
    rw [prev_root w h f n hr, prev_root w h 0 n hr]
  | succ k ih =>
    intro n hc
    obtain ⟨p, hp, hcp⟩ := parent_chain_succ hc
    obtain ⟨hne, hind⟩ := ih p hcp
    refine ⟨?_, ?_⟩
    · obtain ⟨o, _, _, hn⟩ := prev_of_parent (w := w) (k + 1) hp
      rw [hn]
      split
      · refine bind_ne_fuel hne (fun r => ?_)
        cases r with
        | none => simp
        | some m =>
          exact bind_ne_fuel (node_child_ne_fuel h m) (fun nc =>
            bind_ne_fuel (back_ne_fuel nc) (fun _ => by simp))
      · exact bind_ne_fuel (node_child_ne_fuel h p) (fun pc =>
          bind_ne_fuel (at_ne_fuel pc _) (fun _ => by simp))
    · intro fuel hf
      obtain ⟨f, rfl⟩ : ∃ f, fuel = f + 1 := ⟨fuel - 1, by omega⟩
      obtain ⟨o, ho, _, hn⟩ := prev_of_parent (w := w) f hp
      obtain ⟨o', ho', _, hn'⟩ := prev_of_parent (w := w) (k + 1) hp
      rw [ho] at ho'
      cases ho'
      rw [hn, hn', hind f (by omega)]

/-! ## `next` never subtracts from a size of 0 in a well-formed tree -/

theorem next_checked_root (w : Nat) (h : Heap G V) (fuel root : Nat)
    (hr : par h root = some none) :
    node_base_t.next_checked w h (fuel + 1) root = .ok none := by
  obtain ⟨o, ho, hp⟩ := Option.map_eq_some'.1 hr
  rw [node_base_t.next_checked]
  simp only [deref_eq_ok.2 ho, bind_ok, hp, pure_eq_ok]

theorem next_checked_eq {w : Nat} {h : Heap G V} {root D : Nat}
    (wf : WellFormed w h root D) :
    ∀ L, L ≤ D → ∀ n ∈ level h root L, ∀ fuel,
      node_base_t.next_checked w h fuel n = node_base_t.next w h fuel n := by
  intro L
  induction L with
  | zero =>
    intro _ n hn fuel
    simp only [level, List.mem_singleton] at hn
    subst hn
    cases fuel with
    | zero => rfl
    | succ f => rw [next_checked_root w h f _ wf.root_is_root, next_root w h f _ wf.root_is_root]
  | succ L ih =>
    intro hL n hn fuel
    cases fuel with
    | zero => rfl
    | succ f =>
      rw [level, List.mem_flatMap] at hn
      obtain ⟨p, hp, hnp⟩ := hn
      obtain ⟨i, hi⟩ := List.mem_iff_getElem?.1 hnp
      obtain ⟨o, ho, hop, _⟩ := backRefs_get (wf.backrefs L (by omega) p hp) hi
      obtain ⟨pp, pi, pc, hpo⟩ := is_node_iff.1 (wf.internal L (by omega) p hp)
      have hlen : i < pc.length := by
        have := (List.getElem?_eq_some_iff.1 hi).1
        rwa [kids_of_get hpo, List.length_map] at this
      have hw : pc.length < 2 ^ w := by
        have := wf.sizes L (by omega) p hp
        rwa [entry_count_of_get hpo] at this
      have hsz : node_t.size w h p = .ok pc.length := by
        simp [node_t.size, node_child_of_get hpo, Nat.mod_eq_of_lt hw]
      rw [node_base_t.next_checked, node_base_t.next]
      simp only [deref_eq_ok.2 ho, bind_ok, hop, hsz, if_neg (show pc.length ≠ 0 by omega),
        ih (by omega) p hp f]

/-! ## The default minimum fill -/

theorem default_min_entries_eq (M : Nat) : default_min_entries M = (2 * M + 4) / 5 := by
  unfold default_min_entries
  have h1 : (M : ℚ) * (4 / 10) ≤ (⌈(M : ℚ) * (4 / 10)⌉₊ : ℚ) := Nat.le_ceil _
  have h2 : ((⌈(M : ℚ) * (4 / 10)⌉₊ : ℕ) : ℚ) < (M : ℚ) * (4 / 10) + 1 :=
    Nat.ceil_lt_add_one (by positivity)
  generalize ⌈(M : ℚ) * (4 / 10)⌉₊ = c at h1 h2
  have h1' : 2 * M ≤ 5 * c := by
    have : ((2 * M : ℕ) : ℚ) ≤ ((5 * c : ℕ) : ℚ) := by push_cast; linarith
    exact_mod_cast this
  have h2' : 5 * c < 2 * M + 5 := by
    have : ((5 * c : ℕ) : ℚ) < ((2 * M + 5 : ℕ) : ℚ) := by push_cast; linarith
    exact_mod_cast this
  omega

theorem ceil_half_eq (M : Nat) : ⌈(M : ℚ) / 2⌉₊ = (M + 1) / 2 := by
  have h1 : (M : ℚ) / 2 ≤ (⌈(M : ℚ) / 2⌉₊ : ℚ) := Nat.le_ceil _
  have h2 : ((⌈(M : ℚ) / 2⌉₊ : ℕ) : ℚ) < (M : ℚ) / 2 + 1 :=
    Nat.ceil_lt_add_one (by positivity)
  generalize ⌈(M : ℚ) / 2⌉₊ = c at h1 h2
  have h1' : M ≤ 2 * c := by
    have : ((M : ℕ) : ℚ) ≤ ((2 * c : ℕ) : ℚ) := by push_cast; linarith
    exact_mod_cast this
  have h2' : 2 * c < M + 2 := by
    have : ((2 * c : ℕ) : ℚ) < ((M + 2 : ℕ) : ℚ) := by push_cast; linarith
    exact_mod_cast this
  omega

/-! ## The tree layer: selections and quadratic split -/

theorem first_best_get {better : α → α → Bool} {l : List α} {i : Nat} {x : α}
    (h : first_best better l = some (i, x)) : l[i]? = some x := by
  induction l generalizing i x with
  | nil => simp [first_best] at h
  | cons a rest ih =>
    unfold first_best at h
    cases hr : first_best better rest with
    | none =>
      rw [hr] at h
      simp only [Option.some.injEq, Prod.mk.injEq] at h
      obtain ⟨rfl, rfl⟩ := h
      exact List.getElem?_cons_zero
    | some r =>
      obtain ⟨j, y⟩ := r
      rw [hr] at h
      by_cases hb : better y a = true
      · simp only [hb, if_true, Option.some.injEq, Prod.mk.injEq] at h
        obtain ⟨rfl, rfl⟩ := h
        simpa using ih hr
      · simp only [hb, Option.some.injEq, Prod.mk.injEq] at h
        obtain ⟨rfl, rfl⟩ := h
        exact List.getElem?_cons_zero

theorem first_best_some (better : α → α → Bool) {l : List α} (hl : l ≠ []) :
    ∃ r, first_best better l = some r := by
  cases l with
  | nil => exact absurd rfl hl
  | cons a rest =>
    unfold first_best
    cases first_best better rest with
    | none => exact ⟨_, rfl⟩
    | some r =>
      obtain ⟨j, y⟩ := r
      by_cases hb : better y a = true
      · exact ⟨(j + 1, y), by simp only [hb, if_true]⟩
      · exact ⟨(0, a), by simp only [hb, Bool.false_eq_true, if_false]⟩

theorem choose_subtree_get (P : Params G) {n : List (G × β)} {b : G} {i : Nat} {x : G × β}
    (h : choose_subtree P n b = some (i, x)) : n[i]? = some x :=
  first_best_get h

theorem choose_subtree_some (P : Params G) {n : List (G × β)} (b : G) (hn : n ≠ []) :
    ∃ r, choose_subtree P n b = some r :=
  first_best_some _ hn

theorem ordered_pairs_enumFrom {es : List α} {n : Nat} {p q : Nat × α}
    (h : (p, q) ∈ ordered_pairs (es.enumFrom n)) :
    n ≤ p.1 ∧ p.1 < q.1 ∧ es[p.1 - n]? = some p.2 ∧ es[q.1 - n]? = some q.2 := by
  induction es generalizing n with
  | nil => simp [ordered_pairs] at h
  | cons a rest ih =>
    rw [List.enumFrom_cons, ordered_pairs, List.mem_append] at h
    rcases h with h | h
    · obtain ⟨y, hy, hpq⟩ := List.mem_map.1 h
      simp only [Prod.mk.injEq] at hpq
      obtain ⟨rfl, rfl⟩ := hpq
      obtain ⟨i, x⟩ := y
      obtain ⟨hi, hx⟩ := List.mk_mem_enumFrom_iff_le_and_getElem?_sub.1 hy
      refine ⟨Nat.le_refl _, by simpa using hi, by simp, ?_⟩
      have : i - n = (i - (n + 1)) + 1 := by omega
      simp only [this, List.getElem?_cons_succ]
      exact hx
    · obtain ⟨h1, h2, h3, h4⟩ := ih h
      refine ⟨by omega, h2, ?_, ?_⟩
      · have : p.1 - n = (p.1 - (n + 1)) + 1 := by omega
        rw [this, List.getElem?_cons_succ]; exact h3
      · have : q.1 - n = (q.1 - (n + 1)) + 1 := by omega
        rw [this, List.getElem?_cons_succ]; exact h4

theorem pick_seeds_get (P : Params G) {es : List (G × β)} {p q : Nat × (G × β)}
    (h : pick_seeds P es = some (p, q)) :
    p.1 < q.1 ∧ es[p.1]? = some p.2 ∧ es[q.1]? = some q.2 := by
  unfold pick_seeds at h
  obtain ⟨r, hr, hrpq⟩ := Option.map_eq_some'.1 h
  obtain ⟨k, pq⟩ := r
  simp only at hrpq
  subst hrpq
  have hm := List.mem_iff_getElem?.2 ⟨k, first_best_get hr⟩
  have := ordered_pairs_enumFrom (n := 0) hm
  simpa using this.2

theorem pick_seeds_some (P : Params G) {es : List (G × β)} (hl : 2 ≤ es.length) :
    ∃ r, pick_seeds P es = some r := by
  unfold pick_seeds
  have hne : ordered_pairs es.enum ≠ [] := by
    match es, hl with
    | a :: b :: rest, _ =>
      simp [List.enum_cons, List.enumFrom_cons, ordered_pairs]
  obtain ⟨r, hr⟩ := first_best_some (fun p q : (Nat × (G × β)) × (Nat × (G × β)) =>
    decide (waste P q.1.2.1 q.2.2.1 < waste P p.1.2.1 p.2.2.1)) hne
  exact ⟨r.2, by rw [hr]; rfl⟩


theorem groupOk_add (P : Params G) {g : Group G β} (e : G × β) (hg : GroupOk P g) :
    GroupOk P (Group.add P g e) := by
  unfold GroupOk Group.add at *
  obtain ⟨b, es⟩ := g
  cases es with
  | nil => simp [merge_bounds] at hg
  | cons x t =>
    simp only [List.map_cons, merge_bounds, Option.some.injEq, List.cons_append,
      List.map_append, List.map_nil, List.foldl_append, List.foldl_cons,
      List.foldl_nil] at hg ⊢
    rw [hg]

theorem add_all_entries (P : Params G) (g : Group G β) (es : List (G × β)) :
    (Group.add_all P g es).2 = g.2 ++ es := by
  induction es generalizing g with
  | nil => simp [Group.add_all]
  | cons e rest ih =>
    have := ih (Group.add P g e)
    simp only [Group.add_all, List.foldl_cons] at this ⊢
    rw [this]; simp [Group.add]

theorem groupOk_add_all (P : Params G) {g : Group G β} (es : List (G × β))
    (hg : GroupOk P g) : GroupOk P (Group.add_all P g es) := by
  induction es generalizing g with
  | nil => exact hg
  | cons e rest ih => exact ih (groupOk_add P e hg)

theorem distribute_spec (P : Params G) (rounds : Nat) :
    ∀ (g1 g2 : Group G β) (rest : List (G × β)), rest.length ≤ rounds →
      GroupOk P g1 → GroupOk P g2 →
      2 * P.MIN_ENTRIES ≤ g1.2.length + g2.2.length + rest.length →
      P.MIN_ENTRIES ≤ g1.2.length + rest.length →
      P.MIN_ENTRIES ≤ g2.2.length + rest.length →
      GroupOk P (distribute P rounds g1 g2 rest).1 ∧
      GroupOk P (distribute P rounds g1 g2 rest).2 ∧
      ((distribute P rounds g1 g2 rest).1.2 ++ (distribute P rounds g1 g2 rest).2.2).Perm
        (g1.2 ++ g2.2 ++ rest) ∧
      P.MIN_ENTRIES ≤ (distribute P rounds g1 g2 rest).1.2.length ∧
      P.MIN_ENTRIES ≤ (distribute P rounds g1 g2 rest).2.2.length := by
  induction rounds with
  | zero =>
    intro g1 g2 rest hr h1 h2 ht hm1 hm2
    have : rest = [] := List.length_eq_zero.1 (by omega)
    subst this
    simp only [List.length_nil, Nat.add_zero] at hm1 hm2
    exact ⟨h1, h2, by simp [distribute], hm1, hm2⟩
  | succ rounds ih =>
    intro g1 g2 rest hr h1 h2 ht hm1 hm2
    unfold distribute
    by_cases he : rest.isEmpty = true
    · have : rest = [] := List.isEmpty_iff.1 he
      subst this
      simp only [List.length_nil, Nat.add_zero] at hm1 hm2
      simp only [List.isEmpty_nil, if_true]
      exact ⟨h1, h2, by simp, hm1, hm2⟩
    · rw [if_neg he]
      by_cases hc1 : g1.2.length + rest.length ≤ P.MIN_ENTRIES
      · rw [if_pos hc1]
        refine ⟨groupOk_add_all P rest h1, h2, ?_, ?_, ?_⟩
        · simp only [add_all_entries]
          rw [List.append_assoc, List.append_assoc]
          exact List.Perm.append_left _ List.perm_append_comm
        · simp only [add_all_entries, List.length_append]; exact hm1
        · simp only; omega
      · rw [if_neg hc1]
        by_cases hc2 : g2.2.length + rest.length ≤ P.MIN_ENTRIES
        · rw [if_pos hc2]
          refine ⟨h1, groupOk_add_all P rest h2, ?_, ?_, ?_⟩
          · simp only [add_all_entries]
            rw [List.append_assoc]
          · simp only; omega
          · simp only [add_all_entries, List.length_append]; exact hm2
        · rw [if_neg hc2]
          have hne : rest ≠ [] := fun h => he (by rw [h]; rfl)
          obtain ⟨r, hr1⟩ := first_best_some (fun x y : G × β =>
            decide ((enlargement P g1.1 y.1 - enlargement P g2.1 y.1).natAbs <
              (enlargement P g1.1 x.1 - enlargement P g2.1 x.1).natAbs)) hne
          obtain ⟨k, e⟩ := r
          have hpn : pick_next P g1 g2 rest = some (k, e) := hr1
          have hk := first_best_get hr1
          have hperm := perm_cons_eraseIdx hk
          have hlen : (rest.eraseIdx k).length + 1 = rest.length := by
            have := hperm.length_eq
            simp only [List.length_cons] at this
            omega
          rw [hpn]
          simp only
          by_cases hp : prefers_second P g1 g2 e = true
          · rw [if_pos hp]
            have hadd : (Group.add P g2 e).2 = g2.2 ++ [e] := rfl
            have hg1 : (Group.add P g2 e).2.length = g2.2.length + 1 := by simp [hadd]
            obtain ⟨a1, a2, a3, a4, a5⟩ := ih g1 (Group.add P g2 e) (rest.eraseIdx k)
              (by omega) h1 (groupOk_add P e h2) (by omega) (by omega) (by omega)
            refine ⟨a1, a2, a3.trans ?_, a4, a5⟩
            rw [hadd]
            simp only [List.append_assoc, List.singleton_append]
            exact List.Perm.append_left _ (List.Perm.append_left _ hperm.symm)
          · rw [if_neg hp]
            have hadd : (Group.add P g1 e).2 = g1.2 ++ [e] := rfl
            have hg1 : (Group.add P g1 e).2.length = g1.2.length + 1 := by simp [hadd]
            obtain ⟨a1, a2, a3, a4, a5⟩ := ih (Group.add P g1 e) g2 (rest.eraseIdx k)
              (by omega) (groupOk_add P e h1) h2 (by omega) (by omega) (by omega)
            refine ⟨a1, a2, a3.trans ?_, a4, a5⟩
            rw [hadd]
            simp only [List.append_assoc, List.singleton_append]
            refine List.Perm.append_left _ ?_
            exact List.perm_middle.symm.trans (List.Perm.append_left _ hperm.symm)

theorem quadratic_split_spec (P : Params G) (es : List (G × β)) (hl : 2 ≤ es.length)
    (hm : 2 * P.MIN_ENTRIES ≤ es.length) :
    ∃ g1 g2, quadratic_split P es = some (g1, g2) ∧ GroupOk P g1 ∧ GroupOk P g2 ∧
      (g1.2 ++ g2.2).Perm es ∧ P.MIN_ENTRIES ≤ g1.2.length ∧ P.MIN_ENTRIES ≤ g2.2.length := by
  obtain ⟨r, hr⟩ := pick_seeds_some P hl
  obtain ⟨⟨i, ei⟩, ⟨j, ej⟩⟩ := r
  obtain ⟨hij, hi, hj⟩ := pick_seeds_get P hr
  simp only at hij hi hj
  have hpj := perm_cons_eraseIdx hj
  have hi2 : (es.eraseIdx j)[i]? = some ei := by
    rw [List.getElem?_eraseIdx_of_lt _ _ _ hij]; exact hi
  have hpi := perm_cons_eraseIdx hi2
  have hlen : ((es.eraseIdx j).eraseIdx i).length + 2 = es.length := by
    have h1 := hpj.length_eq
    have h2 := hpi.length_eq
    simp only [List.length_cons] at h1 h2
    omega
  obtain ⟨a1, a2, a3, a4, a5⟩ := distribute_spec P ((es.eraseIdx j).eraseIdx i).length
    (ei.1, [ei]) (ej.1, [ej]) ((es.eraseIdx j).eraseIdx i) (Nat.le_refl _) rfl rfl
    (by simp only [List.length_singleton]; omega) (by simp only [List.length_singleton]; omega)
    (by simp only [List.length_singleton]; omega)
  refine ⟨_, _, ?_, a1, a2, a3.trans ?_, a4, a5⟩
  · unfold quadratic_split
    rw [hr]
  · simp only [List.singleton_append, List.cons_append, List.nil_append]
    exact ((List.Perm.swap _ _ _).trans (hpi.symm.cons ej)).trans hpj.symm

theorem attach_spec (P : Params G) (hm1 : 1 ≤ P.MIN_ENTRIES)
    (hm2 : 2 * P.MIN_ENTRIES ≤ P.MAX_ENTRIES + 1) (n : List (G × β)) (e : G × β)
    (hn : n.length ≤ P.MAX_ENTRIES) :
    (attach P n e = .one (n ++ [e]) ∧ n.length + 1 ≤ P.MAX_ENTRIES) ∨
    ∃ b1 n1 b2 n2, attach P n e = .two b1 n1 b2 n2 ∧
      merge_bounds P.merge (n1.map Prod.fst) = some b1 ∧
      merge_bounds P.merge (n2.map Prod.fst) = some b2 ∧
      (n1 ++ n2).Perm (n ++ [e]) ∧
      P.MIN_ENTRIES ≤ n1.length ∧ n1.length ≤ P.MAX_ENTRIES ∧
      P.MIN_ENTRIES ≤ n2.length ∧ n2.length ≤ P.MAX_ENTRIES := by
  unfold attach
  by_cases hle : (n ++ [e]).length ≤ P.MAX_ENTRIES
  · left
    rw [if_pos hle]
    exact ⟨rfl, by simpa using hle⟩
  · right
    rw [if_neg hle]
    have hlen : (n ++ [e]).length = P.MAX_ENTRIES + 1 := by
      simp only [List.length_append, List.length_singleton] at hle ⊢
      omega
    obtain ⟨g1, g2, hq, h1, h2, hp, hs1, hs2⟩ :=
      quadratic_split_spec P (n ++ [e]) (by omega) (by omega)
    rw [hq]
    have hsum := hp.length_eq
    rw [List.length_append, hlen] at hsum
    exact ⟨g1.1, g1.2, g2.1, g2.2, rfl, h1, h2, hp, hs1, by omega, hs2, by omega⟩

/-! ## The tree layer: insert -/

theorem merge_bounds_some {l : List G} (merge : G → G → G) (hl : l ≠ []) :
    ∃ r, merge_bounds merge l = some r := by
  cases l with
  | nil => exact absurd rfl hl
  | cons a t => exact ⟨_, rfl⟩

theorem entrySound_entry (P : Params G) {H : Nat} {c : RNode G V H} (b : G)
    (h1 : 1 ≤ c.length) (hm : P.MIN_ENTRIES ≤ c.length) (hM : c.length ≤ P.MAX_ENTRIES)
    (hs : Sound P H c) :
    EntrySound P (H + 1) (entry (tighten P c b) c) := by
  have hne : c.map Prod.fst ≠ [] := by
    intro h
    have := congrArg List.length h
    rw [List.length_map, List.length_nil] at this
    omega
  obtain ⟨r, hr⟩ := merge_bounds_some P.merge hne
  refine ⟨hm, hM, ?_, hs⟩
  show merge_bounds P.merge (c.map Prod.fst) = some (tighten P c b)
  unfold tighten
  rw [hr]
  rfl

theorem entrySound_half (P : Params G) {H : Nat} {c : RNode G V H} {b : G}
    (hm : P.MIN_ENTRIES ≤ c.length) (hM : c.length ≤ P.MAX_ENTRIES)
    (hb : merge_bounds P.merge (c.map Prod.fst) = some b) (hs : Sound P H c) :
    EntrySound P (H + 1) (entry b c) :=
  ⟨hm, hM, hb, hs⟩

theorem sound_set (P : Params G) {H : Nat} {n : RNode G V H}
    (i : Nat) {x : G × Payload G V H} (hn : Sound P H n)
    (hx : EntrySound P H x) : Sound P H (n.set i x) := by
  intro e he
  rcases List.mem_or_eq_of_mem_set he with h | h
  · exact hn e h
  · rw [h]; exact hx

theorem sound_perm (P : Params G) {H : Nat} {n1 n2 : RNode G V H}
    (hp : n1.Perm n2) (hn : Sound P H n2) : Sound P H n1 :=
  fun e he => hn e (hp.mem_iff.1 he)

/-- The pairs below a node after the entry at position `i` was replaced. -/
theorem entries_set {H : Nat} {n : RNode G V H} {i : Nat} {y x : G × Payload G V H}
    (hy : n[i]? = some y) :
    (payload_entries H y ++ entries H (n.set i x)).Perm (payload_entries H x ++ entries H n) := by
  have := (set_perm x hy).flatMap_right (payload_entries H)
  simpa [entries, List.flatMap_cons] using this

theorem attach_grownOk (P : Params G) (hm1 : 1 ≤ P.MIN_ENTRIES) (hm2 : 2 * P.MIN_ENTRIES ≤ P.MAX_ENTRIES + 1)
    {H : Nat} (n : RNode G V H) (e : G × Payload G V H)
    (hn : n.length ≤ P.MAX_ENTRIES) (hs : Sound P H n)
    (he : EntrySound P H e) :
    GrownOk P H n.length (entries H n ++ payload_entries H e) (attach P n e) := by
  have hsa : Sound P H (n ++ [e]) := by
    intro x hx
    rcases List.mem_append.1 hx with h | h
    · exact hs x h
    · rw [List.mem_singleton.1 h]; exact he
  have hea : entries H (n ++ [e]) = entries H n ++ payload_entries H e := by
    simp [entries, List.flatMap_append]
  rcases attach_spec P hm1 hm2 n e hn with ⟨h, hl⟩ | ⟨b1, n1, b2, n2, h, hb1, hb2, hp, a1, a2, a3, a4⟩
  · rw [h]
    refine ⟨?_, ?_, hsa, ?_⟩
    · simp
    · simpa using hl
    · rw [hea]
  · rw [h]
    refine ⟨a1, a2, a3, a4, ?_, ?_, hb1, hb2, ?_⟩
    · exact fun x hx => hsa x (hp.mem_iff.1 (List.mem_append_left _ hx))
    · exact fun x hx => hsa x (hp.mem_iff.1 (List.mem_append_right _ hx))
    · rw [← hea]
      have := hp.flatMap_right (payload_entries H)
      simpa [entries, List.flatMap_append] using this

theorem grownOk_mono (P : Params G) {H len1 len2 : Nat}
    {all1 all2 : List (G × V)} {g : Grown G (RNode G V H)} (hl : len2 ≤ len1)
    (hp : all1.Perm all2) (hg : GrownOk P H len1 all1 g) :
    GrownOk P H len2 all2 g := by
  cases g with
  | one n =>
    obtain ⟨a1, a2, a3, a4⟩ := hg
    exact ⟨by omega, a2, a3, a4.trans hp⟩
  | two b1 n1 b2 n2 =>
    obtain ⟨a1, a2, a3, a4, a5, a6, a7, a8, a9⟩ := hg
    exact ⟨a1, a2, a3, a4, a5, a6, a7, a8, a9.trans hp⟩

theorem insert_rec_spec (P : Params G) (hm1 : 1 ≤ P.MIN_ENTRIES)
    (hm2 : 2 * P.MIN_ENTRIES ≤ P.MAX_ENTRIES + 1) :
    ∀ (H k : Nat) (e : G × Payload G V k) (n : RNode G V H), k ≤ H →
      EntrySound P k e → n.length ≤ P.MAX_ENTRIES → (k < H → n ≠ []) →
      Sound P H n →
      GrownOk P H n.length (entries H n ++ payload_entries k e)
        (insert_rec P k e H n) := by
  intro H
  induction H with
  | zero =>
    intro k e n hk he hn _ hs
    have hk0 : k = 0 := by omega
    subst hk0
    simp only [insert_rec, dite_true]
    exact attach_grownOk P hm1 hm2 n e hn hs he
  | succ H ih =>
    intro k e n hk he hn hne hs
    by_cases hkH : k = H + 1
    · subst hkH
      simp only [insert_rec, dite_true]
      exact attach_grownOk P hm1 hm2 n e hn hs he
    · have hlt : k < H + 1 := by omega
      obtain ⟨r, hr⟩ := choose_subtree_some P e.1 (hne hlt)
      obtain ⟨i, x⟩ := r
      have hx := choose_subtree_get P hr
      have hxm : x ∈ n := List.mem_iff_getElem?.2 ⟨i, hx⟩
      obtain ⟨c1, c2, c3, c4⟩ := hs x hxm
      have hrec := ih k e (child x) (by omega) he c2 (fun _ => by
        intro h; rw [h] at c1; simp at c1; omega) c4
      simp only [insert_rec, dif_neg hkH, hr]
      cases hg : insert_rec P k e H (child x) with
      | one c =>
        rw [hg] at hrec
        obtain ⟨a1, a2, a3, a4⟩ := hrec
        simp only
        refine ⟨by simp, by simpa using hn, ?_, ?_⟩
        · exact sound_set P i hs
            (entrySound_entry P _ (by omega) (by omega) a2 a3)
        · have h1 := entries_set (x := entry (tighten P c x.1) c) hx
          have h2 : payload_entries (H + 1) (entry (tighten P c x.1) c) = entries H c := rfl
          have h3 : payload_entries (H + 1) x = entries H (child x) := rfl
          rw [h2, h3] at h1
          have h4 : (entries H (child x) ++ entries (H + 1) (n.set i (entry (tighten P c x.1) c))).Perm
              (entries H (child x) ++ (entries (H + 1) n ++ payload_entries k e)) := by
            refine h1.trans ?_
            refine (a4.append_right _).trans ?_
            rw [List.append_assoc]
            refine List.Perm.append_left _ ?_
            exact List.perm_append_comm
          exact (List.perm_append_left_iff _).1 h4
      | two b1 n1 b2 n2 =>
        rw [hg] at hrec
        obtain ⟨a1, a2, a3, a4, a5, a6, a7, a8, a9⟩ := hrec
        simp only
        have hatt := attach_grownOk P hm1 hm2 (n.set i (entry b1 n1)) (entry b2 n2)
          (by simpa using hn)
          (sound_set P i hs (entrySound_half P a1 a2 a7 a5))
          (entrySound_half P a3 a4 a8 a6)
        refine grownOk_mono P (by simp) ?_ hatt
        have h1 := entries_set (x := entry b1 n1) hx
        have h2 : payload_entries (H + 1) (entry b1 n1) = entries H n1 := rfl
        have h3 : payload_entries (H + 1) x = entries H (child x) := rfl
        have h5 : payload_entries (H + 1) (entry b2 n2) = entries H n2 := rfl
        rw [h2, h3] at h1
        rw [h5]
        have h4 : (entries H (child x) ++ (entries (H + 1) (n.set i (entry b1 n1)) ++ entries H n2)).Perm
            (entries H (child x) ++ (entries (H + 1) n ++ payload_entries k e)) := by
          rw [← List.append_assoc]
          refine (h1.append_right _).trans ?_
          rw [List.append_assoc]
          refine (List.Perm.append_left _ List.perm_append_comm).trans ?_
          rw [← List.append_assoc]
          refine (a9.append_right _).trans ?_
          rw [List.append_assoc]
          exact List.Perm.append_left _ List.perm_append_comm
        exact (List.perm_append_left_iff _).1 h4

/-! ## The tree layer: the root, and erase -/

theorem entries_zero (n : RNode G V 0) : entries 0 n = n := by
  unfold entries
  induction n with
  | nil => rfl
  | cons a t ih => rw [List.flatMap_cons, ih]; rfl

theorem insert_entry_spec (P : Params G) (hl : P.Legal) (t : TreeState G V) (k : Nat)
    (e : G × Payload G V k) (ht : t.Ok P) (hk : k ≤ t.leaves_level)
    (he : EntrySound P k e) :
    (t.insert_entry P k e).Ok P ∧
      (t.insert_entry P k e).entries.Perm (t.entries ++ payload_entries k e) ∧
      t.leaves_level ≤ (t.insert_entry P k e).leaves_level := by
  obtain ⟨H, root⟩ := t
  obtain ⟨t1, t2, t3⟩ := ht
  obtain ⟨l1, l2⟩ := hl
  simp only at t1 t2 t3 hk
  have hm2 : 2 * P.MIN_ENTRIES ≤ P.MAX_ENTRIES + 1 := by omega
  have hrec := insert_rec_spec P (by omega) hm2 H k e root hk he t1
    (fun h => by
      intro h0
      have := t2 (by omega)
      rw [h0] at this
      simp at this) t3
  unfold TreeState.insert_entry
  simp only
  cases hg : insert_rec P k e H root with
  | one n =>
    rw [hg] at hrec
    obtain ⟨a1, a2, a3, a4⟩ := hrec
    exact ⟨⟨a2, fun h => Nat.le_trans (t2 h) a1, a3⟩, a4, Nat.le_refl _⟩
  | two b1 n1 b2 n2 =>
    rw [hg] at hrec
    obtain ⟨a1, a2, a3, a4, a5, a6, a7, a8, a9⟩ := hrec
    refine ⟨⟨?_, fun _ => Nat.le_refl _, ?_⟩, ?_, Nat.le_succ _⟩
    · show 2 ≤ P.MAX_ENTRIES
      omega
    · intro x hx
      simp only [List.mem_cons, List.mem_singleton, List.not_mem_nil, or_false] at hx
      rcases hx with h | h
      · rw [h]; exact entrySound_half P a1 a2 a7 a5
      · rw [h]; exact entrySound_half P a3 a4 a8 a6
    · have : (⟨H + 1, [entry b1 n1, entry b2 n2]⟩ : TreeState G V).entries =
          entries H n1 ++ entries H n2 := by
        show ([entry b1 n1, entry b2 n2].flatMap (payload_entries (H + 1))) = _
        simp only [List.flatMap_cons, List.flatMap_nil, List.append_nil]
        rfl
      rw [this]
      exact a9

theorem remove_entry_perm {n : List α} {i : Nat} {x : α} (hx : n[i]? = some x) :
    n.Perm (x :: remove_entry n i) := by
  unfold remove_entry
  cases hl : n.getLast? with
  | none =>
    rw [List.getLast?_eq_none_iff] at hl
    rw [hl] at hx
    simp at hx
  | some e => exact swap_remove_perm hl hx

theorem orphan_entries_append (q : List (Orphan G V)) (o : Orphan G V) :
    orphan_entries (q ++ [o]) = orphan_entries q ++ entries o.height o.node := by
  simp [orphan_entries, List.flatMap_append]

theorem remove_rec_spec (P : Params G) (hm1 : 1 ≤ P.MIN_ENTRIES) :
    ∀ (H d : Nat) (n : RNode G V H) (path : List Nat) (pos : Nat) (e : G × V),
      n.length ≤ P.MAX_ENTRIES → Sound P H n → entry_at H n path pos = some e →
      ∃ n1 q, remove_rec P H d n path pos = some (n1, q) ∧ n1.length ≤ n.length ∧
        n.length ≤ n1.length + 1 ∧ Sound P H n1 ∧
        (∀ o ∈ q, o.height < H ∧ o.depth + o.height = d + H ∧ Sound P o.height o.node) ∧
        (entries H n).Perm (e :: (entries H n1 ++ orphan_entries q)) := by
  intro H
  induction H with
  | zero =>
    intro d n path pos e hn hs he
    cases path with
    | cons i p => simp [entry_at] at he
    | nil =>
      simp only [entry_at] at he
      have hlt : pos < n.length := (List.getElem?_eq_some_iff.1 he).1
      have hp := remove_entry_perm he
      have hlen := hp.length_eq
      simp only [List.length_cons] at hlen
      refine ⟨remove_entry n pos, [], by simp [remove_rec, hlt], by omega, by omega,
        fun _ _ => trivial, by simp, ?_⟩
      rw [entries_zero, entries_zero]
      simpa [orphan_entries] using hp
  | succ H ih =>
    intro d n path pos e hn hs he
    cases path with
    | nil => simp [entry_at] at he
    | cons i p =>
      simp only [entry_at] at he
      cases hx : n[i]? with
      | none => rw [hx] at he; simp at he
      | some x =>
        rw [hx] at he
        simp only at he
        have hxm : x ∈ n := List.mem_iff_getElem?.2 ⟨i, hx⟩
        obtain ⟨c1, c2, c3, c4⟩ := hs x hxm
        obtain ⟨c, q, hr, a1, a2, a3, a4, a5⟩ := ih (d + 1) (child x) p pos e c2 c4 he
        have hpx : (payload_entries (H + 1) x) = entries H (child x) := rfl
        by_cases hc : c.length < P.MIN_ENTRIES
        · have hp := remove_entry_perm hx
          have hlen := hp.length_eq
          simp only [List.length_cons] at hlen
          refine ⟨remove_entry n i, q ++ [⟨d + 1, H, c⟩], by simp [remove_rec, hx, hr, hc],
            by omega, by omega, ?_, ?_, ?_⟩
          · exact fun y hy => hs y (hp.mem_iff.2 (List.mem_cons_of_mem _ hy))
          · intro o ho
            rcases List.mem_append.1 ho with h | h
            · exact ⟨Nat.lt_succ_of_lt (a4 o h).1, by have := (a4 o h).2.1; omega, (a4 o h).2.2⟩
            · rw [List.mem_singleton.1 h]
              exact ⟨Nat.lt_succ_self _, by simp only; omega, a3⟩
          · have h1 := hp.flatMap_right (payload_entries (H + 1))
            rw [List.flatMap_cons, hpx] at h1
            rw [orphan_entries_append]
            refine h1.trans ?_
            refine (a5.append_right _).trans ?_
            simp only [List.cons_append]
            refine List.Perm.cons _ ?_
            show (entries H c ++ orphan_entries q ++ entries (H + 1) (remove_entry n i)).Perm
              (entries (H + 1) (remove_entry n i) ++ (orphan_entries q ++ entries H c))
            refine List.perm_append_comm.trans (List.Perm.append_left _ ?_)
            exact List.perm_append_comm
        · refine ⟨n.set i (entry (tighten P c x.1) c), q, by simp [remove_rec, hx, hr, hc],
            by simp, by simp, ?_, ?_, ?_⟩
          · exact sound_set P i hs
              (entrySound_entry P _ (by omega) (by omega) (by omega) a3)
          · exact fun o ho =>
              ⟨Nat.lt_succ_of_lt (a4 o ho).1, by have := (a4 o ho).2.1; omega, (a4 o ho).2.2⟩
          · have h1 := entries_set (x := entry (tighten P c x.1) c) hx
            have h2 : payload_entries (H + 1) (entry (tighten P c x.1) c) = entries H c := rfl
            rw [h2, hpx] at h1
            have h4 : (entries H c ++ entries (H + 1) n).Perm
                (entries H c ++ (e :: (entries (H + 1) (n.set i (entry (tighten P c x.1) c)) ++
                  orphan_entries q))) := by
              refine h1.symm.trans ?_
              refine (a5.append_right _).trans ?_
              simp only [List.cons_append]
              refine List.Perm.trans ?_ List.perm_middle.symm
              refine List.Perm.cons _ ?_
              rw [List.append_assoc]
              refine List.Perm.append_left _ ?_
              exact List.perm_append_comm
            exact (List.perm_append_left_iff _).1 h4

theorem payload_entries_ne_nil (P : Params G) (hm1 : 1 ≤ P.MIN_ENTRIES) :
    ∀ (k : Nat) (e : G × Payload G V k), EntrySound P k e →
      payload_entries k e ≠ [] := by
  intro k
  induction k with
  | zero => intro e _; simp [payload_entries]
  | succ k ih =>
    intro e he
    obtain ⟨c1, _, _, c4⟩ := he
    match hc : child e, c1, c4 with
    | [], c1, _ => simp at c1; omega
    | x :: rest, _, c4 =>
      have := ih x (c4 x (List.mem_cons_self _ _))
      simp only [payload_entries, hc, List.flatMap_cons, ne_eq, List.append_eq_nil, not_and]
      exact fun h => absurd h this

theorem ok_empty (P : Params G) :
    (TreeState.empty : TreeState G V).Ok P :=
  ⟨Nat.zero_le _, fun h => absurd h (Nat.lt_irrefl 0), fun _ h => absurd h (List.not_mem_nil _)⟩

/-- A tree that satisfies the invariants and holds no pair is the empty tree. -/
theorem eq_empty_of_entries (P : Params G) (hm1 : 1 ≤ P.MIN_ENTRIES) (t : TreeState G V) (ht : t.Ok P)
    (he : t.entries = []) : t = TreeState.empty := by
  obtain ⟨H, root⟩ := t
  obtain ⟨_, t2, t3⟩ := ht
  simp only at t2 t3
  cases H with
  | zero =>
    have : root = [] := by
      have h := he
      unfold TreeState.entries at h
      rw [entries_zero] at h
      exact h
    rw [this]; rfl
  | succ H =>
    exfalso
    match root, t2 (Nat.succ_pos _), t3, he with
    | [], h2, _, _ => simp at h2
    | x :: rest, _, t3, he =>
      have hx := payload_entries_ne_nil P hm1 (H + 1) x (t3 x (List.mem_cons_self _ _))
      unfold TreeState.entries entries at he
      simp only [List.flatMap_cons, List.append_eq_nil] at he
      exact hx he.1

/-- Every iterated pair is pointed to by an iterator. -/
theorem entry_at_of_mem :
    ∀ (H : Nat) (n : RNode G V H) (e : G × V), e ∈ entries H n →
      ∃ path pos, entry_at H n path pos = some e := by
  intro H
  induction H with
  | zero =>
    intro n e he
    rw [entries_zero] at he
    obtain ⟨i, hi⟩ := List.mem_iff_getElem?.1 he
    exact ⟨[], i, hi⟩
  | succ H ih =>
    intro n e he
    obtain ⟨x, hx, hex⟩ := List.mem_flatMap.1 he
    obtain ⟨path, pos, hp⟩ := ih (child x) e hex
    obtain ⟨i, hi⟩ := List.mem_iff_getElem?.1 hx
    exact ⟨i :: path, pos, by simp only [entry_at, hi]; exact hp⟩

theorem build_spec (P : Params G) (hl : P.Legal) :
    ∀ (xs : List (G × V)) (t : TreeState G V), t.Ok P →
      (xs.foldl (TreeState.insert P) t).Ok P ∧
      (xs.foldl (TreeState.insert P) t).entries.Perm (t.entries ++ xs) := by
  intro xs
  induction xs with
  | nil => intro t ht; exact ⟨ht, by simp⟩
  | cons x rest ih =>
    intro t ht
    obtain ⟨a1, a2, _⟩ := insert_entry_spec P hl t 0 x ht (Nat.zero_le _) trivial
    obtain ⟨b1, b2⟩ := ih (t.insert P x) a1
    refine ⟨b1, b2.trans ?_⟩
    refine (List.Perm.append_right _ a2).trans ?_
    rw [List.append_assoc]
    rfl

/-- An erase through a valid iterator that orphans no internal node returns a
tree: in a tree with `leaves_level ≤ 1` every erase through a valid iterator
does. -/
theorem erase_returns_of_low (P : Params G) (hl : P.Legal) (t : TreeState G V)
    (it : entry_iterator) (e : G × V) (ht : t.Ok P) (hlow : t.leaves_level ≤ 1)
    (he : t.entry_at it = some e) : ∃ t1, t.erase P it = .ok t1 := by
  obtain ⟨H, root⟩ := t
  obtain ⟨t1', t2, t3⟩ := ht
  simp only at t1' t2 t3 hlow
  obtain ⟨r, q, hr, _, _, _, a4, _⟩ :=
    remove_rec_spec P (by have := hl.1; omega) H 0 root it.path it.pos e t1' t3 he
  have hq : ∀ o ∈ q, o.height = 0 := fun o ho => by have := (a4 o ho).1; omega
  have key : ∀ (q : List (Orphan G V)) (t : TreeState G V), (∀ o ∈ q, o.height = 0) →
      ∃ t1, reinsert P t q = .ok t1 := by
    intro q
    induction q with
    | nil => intro t _; exact ⟨t, rfl⟩
    | cons o rest ih =>
      intro t hq
      obtain ⟨d, k, n⟩ := o
      have hk : k = 0 := hq _ (List.mem_cons_self _ _)
      subst hk
      obtain ⟨t1, h1⟩ := ih (n.foldl (TreeState.insert P) t)
        (fun x hx => hq x (List.mem_cons_of_mem _ hx))
      exact ⟨t1, by simp only [reinsert, reinsert_node]; exact h1⟩
  obtain ⟨t1, h1⟩ := key q (shrink_root ⟨H, r⟩) hq
  exact ⟨t1, by simp only [TreeState.erase, hr]; exact h1⟩

/-- Attaching a child entry to a leaf, `node_t::insert` through a pointer to a
`leaf_node_t`, is undefined in the node layer. -/
theorem node_insert_on_leaf (w : Nat) {h : Heap G V} {self : Nat} {cs : List (G × V)}
    (hself : ents h self = some (.leaf cs)) (c : G × Nat) :
    node_t.insert w h self c = .error .undefined := by
  unfold node_t.insert
  cases hs : set_parent h c.2 (some self) with
  | error f =>
    unfold set_parent at hs
    cases hc : h[c.2]? with
    | none => rw [hc] at hs; rw [← hs]; rfl
    | some o => rw [hc] at hs; simp at hs
  | ok h1 =>
    have hv : c.2 < h.length := by
      unfold set_parent at hs
      cases hc : h[c.2]? with
      | none => rw [hc] at hs; simp at hs
      | some o => exact (List.getElem?_eq_some_iff.1 hc).1
    obtain ⟨h', hs', _, _, _, he⟩ := set_parent_spec hv (some self)
    rw [hs] at hs'
    simp only [Except.ok.injEq] at hs'
    subst hs'
    have h1e : ents h1 self = some (.leaf cs) := by rw [he]; exact hself
    have hch : node_t._child h1 self = .error .undefined := by
      unfold ents at h1e
      unfold node_t._child
      cases ho : h1[self]? with
      | none => rfl
      | some o =>
        rw [ho] at h1e
        simp only [Option.map_some', Option.some.injEq] at h1e
        obtain ⟨p, i, ch⟩ := o
        simp only at h1e
        subst h1e
        rfl
    simp [node_t.size, hch]

/-! ## The tree layer and the node layer

The operations the model of the tree layer performs on one node are the ones of
the node layer on `_child`. -/

/-- `remove_entry` is what `leaf_node_t::erase` leaves in `_child`. -/
theorem remove_entry_leaf_erase (w : Nat) {h : Heap G V} {self i : Nat} {cs : List (G × V)}
    (hself : ents h self = some (.leaf cs)) (hi : i < cs.length) (hw : cs.length < 2 ^ w) :
    ∃ h', leaf_node_t.erase w h self i = .ok h' ∧
      ents h' self = some (.leaf (remove_entry cs i)) := by
  cases hl : cs.getLast? with
  | none =>
    rw [List.getLast?_eq_none_iff] at hl
    rw [hl] at hi
    exact absurd hi (Nat.not_lt_zero _)
  | some e =>
    obtain ⟨h', h1, _, _, _, h5⟩ := leaf_erase_spec w hself hi hw hl
    refine ⟨h', h1, ?_⟩
    rw [h5, if_pos rfl]
    simp only [remove_entry, hl]

/-- `remove_entry` is what `node_t::erase` leaves in `_child`. -/
theorem remove_entry_node_erase (w : Nat) {h : Heap G V} {self node i : Nat}
    {cs : List (G × Nat)} (hself : ents h self = some (.node cs))
    (hnode : idx h node = some i) (hi : i < cs.length) (hw : cs.length < 2 ^ w)
    (hback : ∀ e ∈ cs, e.2 < h.length) :
    ∃ h', node_t.erase w h self node = .ok h' ∧
      ents h' self = some (.node (remove_entry cs i)) := by
  cases hl : cs.getLast? with
  | none =>
    rw [List.getLast?_eq_none_iff] at hl
    rw [hl] at hi
    exact absurd hi (Nat.not_lt_zero _)
  | some e =>
    obtain ⟨h', h1, _, h3, _⟩ := node_erase_spec w hself hnode hi hw hl
      (hback e (List.mem_of_getLast?_eq_some hl))
    refine ⟨h', h1, ?_⟩
    rw [h3, if_pos rfl]
    simp only [remove_entry, hl]

/-- The bound `tighten` sets is the result of `calculate_bound` on `_child`. -/
theorem tighten_calculate_bound (P : Params G) {c : List (G × β)} {r : G} (b : G)
    (h : calculate_bound.body P.merge c = .ok r) : tighten P c b = r := by
  rw [calculate_bound_body_eq] at h
  unfold tighten
  cases hm : merge_bounds P.merge (c.map Prod.fst) with
  | none => rw [hm] at h; simp at h
  | some x =>
    rw [hm] at h
    simp only [Except.ok.injEq] at h
    rw [← h]; rfl

/-! ## The scenarios of the specification -/

/-- Scenario 1 of §8, empty to one to empty. -/
theorem scenario_one :
    (TreeState.insert interval_params TreeState.empty ((3, 7), 42)).entries = [((3, 7), 42)] ∧
    (TreeState.insert interval_params TreeState.empty ((3, 7), 42)).leaves_level = 0 ∧
    (TreeState.insert interval_params TreeState.empty ((3, 7), 42)).erase interval_params
      ⟨[], 0⟩ = .ok TreeState.empty :=
  ⟨rfl, rfl, rfl⟩

/-- Scenario 2 of §8, split at capacity: the root has two children, with three
and two entries, and the five values are iterated once each. -/
theorem scenario_two :
    (TreeState.build interval_params scenario_entries).leaves_level = 1 ∧
    level_sizes 1 (TreeState.build interval_params scenario_entries).root 0 = [2] ∧
    level_sizes 1 (TreeState.build interval_params scenario_entries).root 1 = [3, 2] ∧
    (TreeState.build interval_params scenario_entries).entries.map Prod.snd =
      [0, 1, 2, 4, 3] :=
  ⟨rfl, rfl, rfl, rfl⟩

/-- Scenario 3 of §8, condense shrinks the root: after the erase of the values 1, 2
and 3 the root is a leaf again. -/
theorem scenario_three :
    TreeState.run interval_params (TreeState.build interval_params scenario_entries)
      [.erase ⟨[0], 1⟩, .erase ⟨[0], 1⟩, .erase ⟨[], 1⟩] =
      .ok ⟨0, ([((4, 4), 4), ((0, 0), 0)] : List ((Int × Int) × Nat))⟩ :=
  rfl

/-! ## Runs that end in a tree -/

theorem sample_tree_wellFormed : WellFormed 64 sample_tree 0 2 where
  root_is_root := by decide
  leaves := by decide
  internal := by decide
  nonempty := by decide
  backrefs := by decide
  sizes := by decide

/-- C1. Level traversal is complete and ordered: in a well-formed tree with leaves
at depth `D`, for every depth `L ≤ D`, starting at the leftmost node of depth `L`
and applying `next` until it returns the end marker visits exactly the nodes of
depth `L`, left to right; each of them occurs once, and none of them is a node
of another depth. -/
theorem level_traversal_complete_ordered (w : Nat) (h : Heap G V) (root D : Nat)
    (wf : WellFormed w h root D) (L : Nat) (hL : L ≤ D) :
    traverse (node_base_t.next w h (L + 1)) (level h root L).length (level h root L).head?
        = .ok (level h root L)
      ∧ (level h root L).Nodup
      ∧ ∀ L', L' ≤ D → L' ≠ L → ∀ a ∈ level h root L, a ∉ level h root L' := by
  refine ⟨?_, level_nodup wf L hL, ?_⟩
  · have := traverse_linked (level_linked_next wf L hL (L + 1) (by omega))
      (level h root L).length 0 (by omega)
    rw [List.head?_eq_getElem?]
    simpa using this
  · intro L' hL' hne a ha ha'
    rcases Nat.lt_or_gt_of_ne hne with hlt | hgt
    · exact level_disjoint wf L' L hlt hL a ha' ha
    · exact level_disjoint wf L L' hgt hL' a ha ha'

theorem level_traversal_complete_ordered_witness :
    WellFormed 64 sample_tree 0 2 ∧ 2 ≤ 2 ∧
      (traverse (node_base_t.next 64 sample_tree (2 + 1)) (level sample_tree 0 2).length
          (level sample_tree 0 2).head? = .ok (level sample_tree 0 2)
        ∧ (level sample_tree 0 2).Nodup
        ∧ ∀ L', L' ≤ 2 → L' ≠ 2 → ∀ a ∈ level sample_tree 0 2, a ∉ level sample_tree 0 L') :=
  ⟨sample_tree_wellFormed, by decide,
    level_traversal_complete_ordered 64 sample_tree 0 2 sample_tree_wellFormed 2 (by decide)⟩

/-- C7. `prev` is the inverse of `next`: in a well-formed tree, for every node `n`
(at depth `L ≤ D`), `next` and `prev` return a result; if `n.next()` is a node
`m` then `m.prev()` is `n`, and if `n.prev()` is a node `m` then `m.next()` is
`n`. -/
theorem prev_inverse_of_next (w : Nat) (h : Heap G V) (root D : Nat)
    (wf : WellFormed w h root D) (L : Nat) (hL : L ≤ D) (n : Nat)
    (hn : n ∈ level h root L) (fuel : Nat) (hf : L < fuel) :
    (∃ r, node_base_t.next w h fuel n = .ok r) ∧ (∃ r, node_base_t.prev w h fuel n = .ok r) ∧
      (∀ m, node_base_t.next w h fuel n = .ok (some m) →
        node_base_t.prev w h fuel m = .ok (some n)) ∧
      (∀ m, node_base_t.prev w h fuel n = .ok (some m) →
        node_base_t.next w h fuel m = .ok (some n)) := by
  obtain ⟨i, hi⟩ := List.mem_iff_getElem?.1 hn
  have hnx := level_linked_next wf L hL fuel hf
  have hpv := level_linked_prev wf L hL fuel hf
  refine ⟨⟨_, hnx i n hi⟩, ⟨_, hpv i n hi⟩, ?_, ?_⟩
  · intro m hm
    rw [hnx i n hi] at hm
    have hm' : (level h root L)[i + 1]? = some m := by
      injection hm
    rw [hpv (i + 1) m hm', if_neg (by omega)]
    simp [hi]
  · intro m hm
    rw [hpv i n hi] at hm
    have hi0 : i ≠ 0 := by
      intro h0
      rw [if_pos h0] at hm
      injection hm with hm
      exact Option.noConfusion hm
    rw [if_neg hi0] at hm
    have hm' : (level h root L)[i - 1]? = some m := by
      injection hm
    rw [hnx (i - 1) m hm', show i - 1 + 1 = i by omega, hi]

theorem prev_inverse_of_next_witness :
    WellFormed 64 sample_tree 0 2 ∧ 2 ≤ 2 ∧ 4 ∈ level sample_tree 0 2 ∧ 2 < 3 ∧
      ((∃ r, node_base_t.next 64 sample_tree 3 4 = .ok r) ∧
        (∃ r, node_base_t.prev 64 sample_tree 3 4 = .ok r) ∧
        (∀ m, node_base_t.next 64 sample_tree 3 4 = .ok (some m) →
          node_base_t.prev 64 sample_tree 3 m = .ok (some 4)) ∧
        (∀ m, node_base_t.prev 64 sample_tree 3 4 = .ok (some m) →
          node_base_t.next 64 sample_tree 3 m = .ok (some 4))) :=
  ⟨sample_tree_wellFormed, by decide, by decide, by decide,
    prev_inverse_of_next 64 sample_tree 0 2 sample_tree_wellFormed 2 (by decide) 4 (by decide)
      3 (by decide)⟩

/-- C8. `next` follows the stepping rule: for a node `n` whose back-reference is
correct (its parent `p` records `n` at position `n._index_on_parent`), `n.next()`
is the end marker when `n` is the root; otherwise, when
`n._index_on_parent < p.size() - 1`, it is the child of `p` at position
`n._index_on_parent + 1`; otherwise it is the first child of `p.next()` when
`p.next()` is a node, and the end marker when `p.next()` is the end marker. -/
theorem next_stepping_rule (w : Nat) (h : Heap G V) (fuel n : Nat) (o : Obj G V)
    (ho : h[n]? = some o) :
    (o._parent = none → node_base_t.next w h (fuel + 1) n = .ok none) ∧
    (∀ p pp pi pc, o._parent = some p → h[p]? = some ⟨pp, pi, .node pc⟩ →
      (pc[o._index_on_parent]?).map Prod.snd = some n → pc.length < 2 ^ w →
      (o._index_on_parent + 1 < pc.length →
        ∃ e, pc[o._index_on_parent + 1]? = some e ∧
          node_base_t.next w h (fuel + 1) n = .ok (some e.2)) ∧
      (¬ o._index_on_parent + 1 < pc.length →
        (node_base_t.next w h fuel p = .ok none →
          node_base_t.next w h (fuel + 1) n = .ok none) ∧
        (∀ m mp mi e mc, node_base_t.next w h fuel p = .ok (some m) →
          h[m]? = some ⟨mp, mi, .node (e :: mc)⟩ →
          node_base_t.next w h (fuel + 1) n = .ok (some e.2)))) := by
  refine ⟨?_, ?_⟩
  · intro hp
    exact next_root w h fuel n (by simp [par, ho, hp])
  · intro p pp pi pc hp hpo hrec hw
    have hi : o._index_on_parent < pc.length := by
      obtain ⟨e, he, _⟩ := Option.map_eq_some'.1 hrec
      exact (List.getElem?_eq_some_iff.1 he).1
    have hstep := next_step w h fuel n o p pp pi pc ho hp hpo hi hw
    refine ⟨?_, ?_⟩
    · intro hlt
      refine ⟨pc[o._index_on_parent + 1], List.getElem?_eq_getElem hlt, ?_⟩
      rw [hstep, if_pos hlt, at_eq_ok.2 (List.getElem?_eq_getElem hlt)]
      rfl
    · intro hlt
      rw [if_neg hlt] at hstep
      refine ⟨?_, ?_⟩
      · intro hnone
        rw [hstep, hnone]
        rfl
      · intro m mp mi e mc hsome hmo
        rw [hstep, hsome]
        simp only [bind_ok, node_child_of_get hmo, at_, List.getElem?_cons_zero, pure_eq_ok]

theorem next_stepping_rule_witness :
    sample_tree[4]? = some ⟨some 1, 1, .leaf [((5, 9), 8), ((6, 7), 9)]⟩ ∧
      sample_tree[1]? = some ⟨some 0, 0, .node [((0, 4), 3), ((5, 9), 4)]⟩ ∧
      node_base_t.next 64 sample_tree 2 1 = .ok (some 2) ∧
      sample_tree[2]? = some ⟨some 0, 1, .node [((10, 20), 5)]⟩ ∧
      node_base_t.next 64 sample_tree 3 4 = .ok (some 5) :=
  ⟨rfl, rfl, rfl, rfl,
    (((next_stepping_rule 64 sample_tree 2 4 _ rfl).2 1 (some 0) 0 _ rfl rfl rfl
      (by decide)).2 (by decide)).2 2 (some 0) 1 ((10, 20), 5) [] rfl rfl⟩

/-- C2. `node_t::erase` preserves the back-reference invariant: when every child
`c` at position `i` of `p` has `c.parent == p` and `c.index_on_parent == i`, then
for every child `x` of `p`, `p.erase(x)` returns, every remaining child at
position `i` of `p` still has parent `p` and index `i`, and `p.size()` has
decreased by exactly one. -/
theorem erase_preserves_back_references (w : Nat) (h : Heap G V) (p x : Nat)
    (cs : List (G × Nat)) (hp : ents h p = some (.node cs)) (hw : cs.length < 2 ^ w)
    (hb : BackRefs h p) (hx : x ∈ kids h p) :
    ∃ h' n, node_t.erase w h p x = .ok h' ∧ BackRefs h' p ∧
      node_t.size w h p = .ok (n + 1) ∧ node_t.size w h' p = .ok n := by
  have hk : kids h p = cs.map Prod.snd := kids_of_ents hp
  have hklen : (kids h p).length = cs.length := by rw [hk, List.length_map]
  have hb' := backRefs_iff.1 hb
  have hnd := kids_nodup hb
  obtain ⟨j, hj⟩ := List.mem_iff_getElem?.1 hx
  have hjlt : j < cs.length := by
    rw [← hklen]; exact (List.getElem?_eq_some_iff.1 hj).1
  obtain ⟨e, hlast⟩ : ∃ e, cs.getLast? = some e := by
    cases hc : cs.getLast? with
    | none => rw [List.getLast?_eq_none_iff] at hc; subst hc; simp at hjlt
    | some e => exact ⟨e, rfl⟩
  have hklast : (kids h p)[cs.length - 1]? = some e.2 := by
    rw [hk, List.getElem?_map, ← List.getLast?_eq_getElem?, hlast]; rfl
  have hback : e.2 < h.length := lt_of_par (hb' _ _ hklast).1
  obtain ⟨h', hs, _, he, hpar, hidx⟩ :=
    node_erase_spec w hp (hb' j x hj).2 hjlt hw hlast hback
  have hp' : ents h' p = some (.node (cs.set j e).dropLast) := by rw [he, if_pos rfl]
  refine ⟨h', cs.length - 1, hs, ?_, ?_, ?_⟩
  · rw [backRefs_iff]
    intro i c hc
    rw [kids_of_ents hp', List.getElem?_map, swap_remove_get] at hc
    have hilt : i + 1 < cs.length := by
      by_contra hcon
      rw [if_neg hcon] at hc
      simp at hc
    rw [if_pos hilt] at hc
    by_cases hij : i = j
    · rw [if_pos hij] at hc
      have hce : c = e.2 := by simpa using hc.symm
      have hcx : c ≠ x := by
        intro hcx
        have := List.getElem?_inj (by omega) hnd (hklast.trans (by rw [← hce, hcx, hj]))
        omega
      refine ⟨by rw [hpar, if_neg hcx, hce]; exact (hb' _ _ hklast).1, ?_⟩
      rw [hidx, if_pos ⟨hce, by omega⟩, hij]
    · rw [if_neg hij, ← List.getElem?_map, ← hk] at hc
      have hcx : c ≠ x := by
        intro hcx
        have := List.getElem?_inj (by omega) hnd (hc.trans (by rw [hcx, hj]))
        exact hij this
      have hce : c ≠ e.2 := by
        intro hce
        have := List.getElem?_inj (by omega) hnd (hc.trans (by rw [hce, hklast]))
        omega
      refine ⟨by rw [hpar, if_neg hcx]; exact (hb' i c hc).1, ?_⟩
      rw [hidx, if_neg (fun hh => hce hh.1)]
      exact (hb' i c hc).2
  · rw [node_size_of_ents w hp, Nat.mod_eq_of_lt hw]
    congr 1; omega
  · rw [node_size_of_ents w hp', List.length_dropLast, List.length_set,
      Nat.mod_eq_of_lt (by omega)]

theorem erase_preserves_back_references_witness :
    ents sample_tree 1 = some (.node [((0, 4), 3), ((5, 9), 4)]) ∧
      [((0, 4), 3), ((5, 9), (4 : Nat))].length < 2 ^ 64 ∧ BackRefs sample_tree 1 ∧
      3 ∈ kids sample_tree 1 ∧
      ∃ h' n, node_t.erase 64 sample_tree 1 3 = .ok h' ∧ BackRefs h' 1 ∧
        node_t.size 64 sample_tree 1 = .ok (n + 1) ∧ node_t.size 64 h' 1 = .ok n :=
  ⟨rfl, by decide, by decide, by decide,
    erase_preserves_back_references 64 sample_tree 1 3 _ rfl (by decide) (by decide)
      (by decide)⟩

/-- C3, as stated, fails: inserting an entry whose child is already a child of
`p` leaves that child recorded at two positions with a single index, so the
back-reference invariant of `p` is lost. -/
theorem insert_duplicate_child_breaks_back_references :
    BackRefs sample_pair 0 ∧
      ∃ h', node_t.insert 64 sample_pair 0 ((0, 1), 1) = .ok h' ∧ ¬ BackRefs h' 0 :=
  ⟨by decide,
    [ ⟨none, 0, .node [((0, 1), 1), ((0, 1), 1)]⟩, ⟨some 0, 1, .leaf [((0, 1), 7)]⟩ ],
    rfl, by decide⟩

/-- C3, amended. `node_t::insert` appends and links: for an internal node `p`
holding the `k` entries `cs` and an entry `(b, c)`, `p.insert((b, c))` returns;
afterwards `p` holds `cs ++ [(b, c)]` (`k + 1` entries, the first `k` unchanged
and in order, the last one `(b, c)`), `c.parent == p` and
`c.index_on_parent == k`; and when `c` was not already a child of `p`, the
back-reference invariant of `p` is preserved. -/
theorem insert_appends_and_links (w : Nat) (h : Heap G V) (p : Nat) (cs : List (G × Nat))
    (b : G) (c : Nat) (hp : ents h p = some (.node cs)) (hw : cs.length < 2 ^ w)
    (hc : c < h.length) :
    ∃ h', node_t.insert w h p (b, c) = .ok h' ∧
      ents h' p = some (.node (cs ++ [(b, c)])) ∧
      par h' c = some (some p) ∧ idx h' c = some cs.length ∧
      (BackRefs h p → c ∉ kids h p → BackRefs h' p) := by
  obtain ⟨h', hs, _, he, hpar, hidx⟩ := node_insert_spec w (b, c) hp hc
  have hp' : ents h' p = some (.node (cs ++ [(b, c)])) := by rw [he, if_pos rfl]
  refine ⟨h', hs, hp', by rw [hpar, if_pos rfl], ?_, ?_⟩
  · rw [hidx, if_pos rfl, Nat.mod_eq_of_lt hw]
  · intro hb hnot
    have hb' := backRefs_iff.1 hb
    have hk : kids h p = cs.map Prod.snd := kids_of_ents hp
    rw [backRefs_iff]
    intro i c' hc'
    rw [kids_of_ents hp', List.map_append, ← hk] at hc'
    by_cases hi : i < (kids h p).length
    · rw [List.getElem?_append_left hi] at hc'
      have hne : c' ≠ c := by
        intro hcc
        exact hnot (hcc ▸ List.mem_iff_getElem?.2 ⟨i, hc'⟩)
      rw [hpar, hidx, if_neg hne, if_neg hne]
      exact hb' i c' hc'
    · rw [List.getElem?_append_right (by omega)] at hc'
      have hlen : (kids h p).length = cs.length := by rw [hk, List.length_map]
      have hi0 : i - (kids h p).length = 0 := by
        by_contra hcon
        obtain ⟨m, hm⟩ : ∃ m, i - (kids h p).length = m + 1 :=
          ⟨i - (kids h p).length - 1, by omega⟩
        rw [hm] at hc'
        simp at hc'
      rw [hi0] at hc'
      have hcc : c' = c := by simpa using hc'.symm
      rw [hpar, hidx, if_pos hcc, if_pos hcc, Nat.mod_eq_of_lt hw]
      exact ⟨rfl, by congr 1; omega⟩

theorem insert_appends_and_links_witness :
    ents sample_tree 2 = some (.node [((10, 20), 5)]) ∧
      [((10, 20), (5 : Nat))].length < 2 ^ 64 ∧ 3 < sample_tree.length ∧
      ∃ h', node_t.insert 64 sample_tree 2 ((0, 4), 3) = .ok h' ∧
        ents h' 2 = some (.node ([((10, 20), 5)] ++ [((0, 4), 3)])) ∧
        par h' 3 = some (some 2) ∧ idx h' 3 = some [((10, 20), (5 : Nat))].length ∧
        (BackRefs sample_tree 2 → 3 ∉ kids sample_tree 2 → BackRefs h' 2) :=
  ⟨rfl, by decide, by decide,
    insert_appends_and_links 64 sample_tree 2 _ (0, 4) 3 rfl (by decide) (by decide)⟩

/-- C9. `node_t::erase` is swap-with-last-then-shrink: for an internal node `p`
with entries `cs` and a child `x` recorded at position `i` of `p`, `p.erase(x)`
returns and the entry sequence of `p` becomes `cs` with position `i` overwritten
by the last entry (when `i < n - 1`) and the last position dropped; it has
`n - 1` entries, every position other than `i` and `n - 1` keeps its entry, and
the original multiset of entries is the remaining one plus the entry of `x`.
The iterator overload `erase(pos)` is `erase(pos->second)`. -/
theorem erase_is_swap_with_last_then_shrink (w : Nat) (h : Heap G V) (p x i : Nat)
    (cs : List (G × Nat)) (ex e : G × Nat)
    (hp : ents h p = some (.node cs)) (hw : cs.length < 2 ^ w)
    (hx : idx h x = some i) (hrec : cs[i]? = some ex) (hxe : ex.2 = x)
    (hlast : cs.getLast? = some e) (hback : e.2 < h.length) :
    ∃ h' cs', node_t.erase w h p x = .ok h' ∧ ents h' p = some (.node cs') ∧
      cs' = (if i + 1 < cs.length then (cs.set i e).dropLast else cs.dropLast) ∧
      cs'.length + 1 = cs.length ∧
      (∀ k, k ≠ i → k + 1 < cs.length → cs'[k]? = cs[k]?) ∧
      (i + 1 < cs.length → cs'[i]? = some e) ∧
      (cs : Multiset (G × Nat)) = ex ::ₘ (cs' : Multiset (G × Nat)) ∧
      node_t.erase_iterator w h p i = node_t.erase w h p x := by
  have hi : i < cs.length := (List.getElem?_eq_some_iff.1 hrec).1
  obtain ⟨h', hs, _, he, _, _⟩ := node_erase_spec w hp hx hi hw hlast hback
  refine ⟨h', (cs.set i e).dropLast, hs, by rw [he, if_pos rfl], ?_, ?_, ?_, ?_, ?_, ?_⟩
  · by_cases hlt : i + 1 < cs.length
    · rw [if_pos hlt]
    · rw [if_neg hlt, show i = cs.length - 1 by omega, set_last_self hlast]
  · rw [List.length_dropLast, List.length_set]; omega
  · intro k hki hk
    rw [swap_remove_get, if_pos hk, if_neg hki]
  · intro hlt
    rw [swap_remove_get, if_pos hlt, if_pos rfl]
  · rw [Multiset.cons_coe, Multiset.coe_eq_coe]
    exact swap_remove_perm hlast hrec
  · unfold node_t.erase_iterator
    simp only [node_child_iff_ents.2 hp, bind_ok, at_eq_ok.2 hrec, hxe]

theorem erase_is_swap_with_last_then_shrink_witness :
    ents sample_tree 1 = some (.node [((0, 4), 3), ((5, 9), 4)]) ∧
      [((0, 4), 3), ((5, 9), (4 : Nat))].length < 2 ^ 64 ∧ idx sample_tree 3 = some 0 ∧
      [(((0 : Int), (4 : Int)), 3), ((5, 9), (4 : Nat))][0]? = some ((0, 4), 3) ∧
      (((0 : Int), (4 : Int)), (3 : Nat)).2 = 3 ∧
      [(((0 : Int), (4 : Int)), 3), ((5, 9), (4 : Nat))].getLast? = some ((5, 9), 4) ∧
      (((5 : Int), (9 : Int)), (4 : Nat)).2 < sample_tree.length ∧
      ∃ h', node_t.erase 64 sample_tree 1 3 = .ok h' ∧
        ents h' 1 = some (.node [((5, 9), 4)]) :=
  ⟨rfl, by decide, rfl, rfl, rfl, rfl, by decide, by
    obtain ⟨h', cs', hs, he, hcs, _⟩ :=
      erase_is_swap_with_last_then_shrink 64 sample_tree 1 3 0
        [((0, 4), 3), ((5, 9), 4)] ((0, 4), 3) ((5, 9), 4) rfl (by decide) rfl rfl rfl rfl
        (by decide)
    exact ⟨h', hs, by rw [he, hcs]; rfl⟩⟩

/-- C4. `leaf_node_t::erase` is a swap-remove of exactly the targeted entry: for
a leaf with entries `cs` (`n ≥ 1` of them) and a position `i < n`, erasing the
entry at position `i` returns; afterwards the leaf has `n - 1` entries, the
entries at the positions other than `i` are unchanged, position `i` (when
`i < n - 1`) holds the former last entry, and the original multiset of entries
is the remaining one plus the erased entry. -/
theorem leaf_erase_is_swap_remove (w : Nat) (h : Heap G V) (leaf i : Nat)
    (cs : List (G × V)) (ex : G × V) (hl : ents h leaf = some (.leaf cs))
    (hw : cs.length < 2 ^ w) (hrec : cs[i]? = some ex) :
    ∃ h' cs' e, leaf_node_t.erase w h leaf i = .ok h' ∧ ents h' leaf = some (.leaf cs') ∧
      cs.getLast? = some e ∧ cs'.length + 1 = cs.length ∧
      (∀ k, k ≠ i → k + 1 < cs.length → cs'[k]? = cs[k]?) ∧
      (i + 1 < cs.length → cs'[i]? = some e) ∧
      (cs : Multiset (G × V)) = ex ::ₘ (cs' : Multiset (G × V)) := by
  have hi : i < cs.length := (List.getElem?_eq_some_iff.1 hrec).1
  obtain ⟨e, hlast⟩ : ∃ e, cs.getLast? = some e := by
    cases hc : cs.getLast? with
    | none => rw [List.getLast?_eq_none_iff] at hc; subst hc; simp at hi
    | some e => exact ⟨e, rfl⟩
  obtain ⟨h', hs, _, _, _, he⟩ := leaf_erase_spec w hl hi hw hlast
  refine ⟨h', (cs.set i e).dropLast, e, hs, by rw [he, if_pos rfl], hlast, ?_, ?_, ?_, ?_⟩
  · rw [List.length_dropLast, List.length_set]; omega
  · intro k hki hk
    rw [swap_remove_get, if_pos hk, if_neg hki]
  · intro hlt
    rw [swap_remove_get, if_pos hlt, if_pos rfl]
  · rw [Multiset.cons_coe, Multiset.coe_eq_coe]
    exact swap_remove_perm hlast hrec

theorem leaf_erase_is_swap_remove_witness :
    ents sample_tree 4 = some (.leaf [((5, 9), 8), ((6, 7), 9)]) ∧
      [(((5 : Int), (9 : Int)), 8), ((6, 7), (9 : Nat))].length < 2 ^ 64 ∧
      [(((5 : Int), (9 : Int)), 8), ((6, 7), (9 : Nat))][0]? = some ((5, 9), 8) ∧
      ∃ h', leaf_node_t.erase 64 sample_tree 4 0 = .ok h' ∧
        ents h' 4 = some (.leaf [((6, 7), 9)]) :=
  ⟨rfl, by decide, rfl, by
    obtain ⟨h', cs', e, hs, he, hlast, _, _, hi, _⟩ :=
      leaf_erase_is_swap_remove 64 sample_tree 4 0 [((5, 9), 8), ((6, 7), 9)] ((5, 9), 8)
        rfl (by decide) rfl
    have hee : e = ((6, 7), 9) := by
      have : some ((6, 7), 9) = some e := hlast
      exact (Option.some.inj this).symm
    have h0 := hi (by decide)
    have hlen : cs'.length = 1 := by
      have : cs'.length + 1 = 2 := by assumption
      omega
    have hcs : cs' = [((6, 7), 9)] := by
      match cs', hlen, h0 with
      | [a], _, h0 => simp at h0; rw [h0, hee]
    exact ⟨h', hs, by rw [he, hcs]⟩⟩

/-- C5. `calculate_bound` returns a bound that contains every entry: for a
geometry whose `merge` is associative and commutative and whose `contains` is
reflexive with `contains(merge(a, b), a)`, and for a non-empty internal node or
leaf, `calculate_bound()` returns the left fold of `merge` over the entry bounds
of the node, and this bound contains the bound of every entry. -/
theorem calculate_bound_contains_every_entry (merge : G → G → G) (contains : G → G → Bool)
    (hassoc : ∀ a b c, merge (merge a b) c = merge a (merge b c))
    (hcomm : ∀ a b, merge a b = merge b a) (hrefl : ∀ a, contains a a = true)
    (hcm : ∀ a b, contains (merge a b) a = true) (h : Heap G V) (n : Nat) :
    (∀ c, ents h n = some (.node c) → c ≠ [] →
      ∃ r, node_t.calculate_bound merge h n = .ok r ∧
        merge_bounds merge (c.map Prod.fst) = some r ∧ ∀ e ∈ c, contains r e.1 = true) ∧
    (∀ c, ents h n = some (.leaf c) → c ≠ [] →
      ∃ r, leaf_node_t.calculate_bound merge h n = .ok r ∧
        merge_bounds merge (c.map Prod.fst) = some r ∧ ∀ e ∈ c, contains r e.1 = true) := by
  refine ⟨?_, ?_⟩
  · intro c hc hne
    obtain ⟨r, hr, hm, hall⟩ :=
      calculate_bound_body_spec merge contains hassoc hcomm hrefl hcm c hne
    exact ⟨r, by simp only [node_t.calculate_bound, node_child_iff_ents.2 hc, bind_ok, hr],
      hm, hall⟩
  · intro c hc hne
    obtain ⟨r, hr, hm, hall⟩ :=
      calculate_bound_body_spec merge contains hassoc hcomm hrefl hcm c hne
    exact ⟨r, by simp only [leaf_node_t.calculate_bound, leaf_child_iff_ents.2 hc, bind_ok, hr],
      hm, hall⟩

theorem interval_merge_assoc (a b c : Int × Int) :
    interval_merge (interval_merge a b) c = interval_merge a (interval_merge b c) := by
  simp [interval_merge, min_assoc, max_assoc]

theorem interval_merge_comm (a b : Int × Int) : interval_merge a b = interval_merge b a := by
  simp [interval_merge, min_comm, max_comm]

theorem interval_contains_refl (a : Int × Int) : interval_contains a a = true := by
  simp [interval_contains]

theorem interval_contains_merge (a b : Int × Int) :
    interval_contains (interval_merge a b) a = true := by
  simp [interval_contains, interval_merge]

theorem calculate_bound_contains_every_entry_witness :
    (∀ a b c, interval_merge (interval_merge a b) c = interval_merge a (interval_merge b c)) ∧
      (∀ a b, interval_merge a b = interval_merge b a) ∧
      (∀ a, interval_contains a a = true) ∧
      (∀ a b, interval_contains (interval_merge a b) a = true) ∧
      (∃ r, node_t.calculate_bound interval_merge sample_tree 0 = .ok r ∧
        merge_bounds interval_merge ([((0, 9), 1), ((10, 20), 2)].map Prod.fst) = some r ∧
        ∀ e ∈ [(((0 : Int), (9 : Int)), (1 : Nat)), ((10, 20), 2)],
          interval_contains r e.1 = true) ∧
      (∃ r, leaf_node_t.calculate_bound interval_merge sample_tree 4 = .ok r ∧
        merge_bounds interval_merge ([((5, 9), 8), ((6, 7), 9)].map Prod.fst) = some r ∧
        ∀ e ∈ [(((5 : Int), (9 : Int)), (8 : Nat)), ((6, 7), 9)],
          interval_contains r e.1 = true) :=
  ⟨interval_merge_assoc, interval_merge_comm, interval_contains_refl, interval_contains_merge,
    (calculate_bound_contains_every_entry interval_merge interval_contains
      interval_merge_assoc interval_merge_comm interval_contains_refl interval_contains_merge
      sample_tree 0).1 _ rfl (by decide),
    (calculate_bound_contains_every_entry interval_merge interval_contains
      interval_merge_assoc interval_merge_comm interval_contains_refl interval_contains_merge
      sample_tree 4).2 _ rfl (by decide)⟩

/-- C6. Clone yields an equal tree: for an internal node `n` whose leaves all lie
exactly `leaf_level ≥ 1` levels below it, `n.clone_recursive(leaf_level)` returns
(within a recursion depth of `leaf_level`) a tree of the same value as the
subtree of `n`: the same shape, the same entry bounds in the same order at every
internal node and the same entries in the same order at every leaf; and
`leaf_node_t::clone_recursive` returns a leaf with the same entry sequence. -/
theorem clone_yields_equal_tree (w : Nat) (h : Heap G V) (n : Nat) :
    (∀ leaf_level fuel, 1 ≤ leaf_level → leaf_level ≤ fuel →
      shaped w h leaf_level n = true →
      ∃ h' r, node_t.clone_recursive w fuel h n (leaf_level : Int) = .ok (h', r) ∧
        shaped w h' leaf_level r = true ∧
        abstraction h' leaf_level r = abstraction h leaf_level n) ∧
    (∀ c, ents h n = some (.leaf c) →
      ∃ h' r, leaf_node_t.clone_recursive h n = .ok (h', r) ∧ ents h' r = some (.leaf c)) := by
  refine ⟨?_, ?_⟩
  · intro leaf_level fuel h1 hf hs
    obtain ⟨d, rfl⟩ : ∃ d, leaf_level = d + 1 := ⟨leaf_level - 1, by omega⟩
    obtain ⟨h', hc, _, _, hfresh, habs, _⟩ := node_clone_depth w d fuel (by omega) h n hs
    exact ⟨h', h.length, hc, freshTree_shaped _ _ _ hfresh, habs⟩
  · intro c hc
    obtain ⟨h', hcl, _, _, hfresh, habs, _⟩ :=
      leaf_clone_contract w h n (by simpa [shaped] using is_leaf_iff_ents.2 ⟨c, hc⟩)
    refine ⟨h', h.length, hcl, ?_⟩
    obtain ⟨c', hc'⟩ := is_leaf_iff_ents.1 hfresh.2
    simp only [abstraction, hc', hc] at habs
    rw [hc']
    injection habs with habs
    rw [habs]

theorem clone_yields_equal_tree_witness :
    (1 ≤ 2 ∧ 2 ≤ 2 ∧ shaped 64 sample_tree 2 0 = true ∧
      ∃ h' r, node_t.clone_recursive 64 2 sample_tree 0 ((2 : Nat) : Int) = .ok (h', r) ∧
        shaped 64 h' 2 r = true ∧ abstraction h' 2 r = abstraction sample_tree 2 0) ∧
    (ents sample_tree 4 = some (.leaf [((5, 9), 8), ((6, 7), 9)]) ∧
      ∃ h' r, leaf_node_t.clone_recursive sample_tree 4 = .ok (h', r) ∧
        ents h' r = some (.leaf [((5, 9), 8), ((6, 7), 9)])) :=
  ⟨⟨by decide, by decide, by decide,
      (clone_yields_equal_tree 64 sample_tree 0).1 2 2 (by decide) (by decide) (by decide)⟩,
    ⟨rfl, (clone_yields_equal_tree 64 sample_tree 4).2 _ rfl⟩⟩

/-- C10, as stated, fails: a node of the source can itself be inserted into a
node of the clone, and `node_t::insert` then overwrites the back-reference of
that source node. -/
theorem insert_source_node_into_clone_alters_source :
    ∃ h' r h'', node_t.clone_recursive 64 1 sample_pair 0 ((1 : Nat) : Int) = .ok (h', r) ∧
      node_t.insert 64 h' r ((0, 1), 1) = .ok h'' ∧
      par sample_pair 1 = some (some 0) ∧ par h' 1 = some (some 0) ∧
      par h'' 1 = some (some 2) :=
  ⟨[ ⟨none, 0, .node [((0, 1), 1)]⟩, ⟨some 0, 0, .leaf [((0, 1), 7)]⟩,
      ⟨none, 0, .node [((0, 1), 3)]⟩, ⟨some 2, 0, .leaf [((0, 1), 7)]⟩ ], 2,
    [ ⟨none, 0, .node [((0, 1), 1)]⟩, ⟨some 2, 1, .leaf [((0, 1), 7)]⟩,
      ⟨none, 0, .node [((0, 1), 3), ((0, 1), 1)]⟩, ⟨some 2, 0, .leaf [((0, 1), 7)]⟩ ],
    rfl, rfl, rfl, rfl, rfl⟩

/-- C10, amended. Clone independence: for an internal node `n` with its leaves
`d ≥ 1` levels below, `n.clone_recursive(d)` returns a tree that shares no node
with its source: cloning changes no object of the old heap (so the source tree
is as it was), every node of the clone is at a fresh address and every node of
the source at an old one.  Hence inserting into a node of the clone an entry
whose child is not a node of the source, erasing a child from a node of the
clone, and inserting into or erasing from a leaf of the clone leave every node
of the source (its entries and its back-reference) unchanged; and the same
operations on the nodes of the source, with an inserted child that is not a
node of the clone, leave every node of the clone unchanged. -/
theorem clone_independence (w : Nat) (h : Heap G V) (n d fuel : Nat) (hd : 1 ≤ d)
    (hf : d ≤ fuel) (hs : shaped w h d n = true) :
    ∃ h' r, node_t.clone_recursive w fuel h n (d : Int) = .ok (h', r) ∧
      (∀ a, a < h.length → h'[a]? = h[a]?) ∧
      (∀ L, L ≤ d → level h' n L = level h n L) ∧
      (∀ L, L ≤ d → ∀ p ∈ level h' r L, h.length ≤ p ∧ p < h'.length) ∧
      (∀ L, L ≤ d → ∀ p ∈ level h n L, p < h.length) ∧
      (∀ L, L ≤ d → ∀ p ∈ level h' r L, ∀ h'',
        ((∃ b c, (∀ L', L' ≤ d → c ∉ level h n L') ∧
            node_t.insert w h' p (b, c) = .ok h'') ∨
          (∃ x, x ∈ kids h' p ∧ node_t.erase w h' p x = .ok h'') ∨
          (∃ e, leaf_node_t.insert h' p e = .ok h'') ∨
          (∃ i, leaf_node_t.erase w h' p i = .ok h'')) →
        ∀ L', L' ≤ d → ∀ a ∈ level h n L', h''[a]? = h'[a]?) ∧
      (∀ L, L ≤ d → ∀ p ∈ level h n L, ∀ h'',
        ((∃ b c, (∀ L', L' ≤ d → c ∉ level h' r L') ∧
            node_t.insert w h' p (b, c) = .ok h'') ∨
          (∃ x, x ∈ kids h' p ∧ node_t.erase w h' p x = .ok h'') ∨
          (∃ e, leaf_node_t.insert h' p e = .ok h'') ∨
          (∃ i, leaf_node_t.erase w h' p i = .ok h'')) →
        ∀ L', L' ≤ d → ∀ a ∈ level h' r L', h''[a]? = h'[a]?) := by
  obtain ⟨d0, rfl⟩ : ∃ d0, d = d0 + 1 := ⟨d - 1, by omega⟩
  obtain ⟨h', hc, _, hsame, hfresh, _, _⟩ := node_clone_depth w d0 fuel (by omega) h n hs
  have hold : ∀ a, a < h.length → h'[a]? = h[a]? := fun a ha =>
    get_eq_of_fields (hsame a ha).1 (hsame a ha).2.1 (hsame a ha).2.2
  have hsrc : ∀ L, L ≤ d0 + 1 → ∀ p ∈ level h n L, p < h.length := fun L hL p hp =>
    shaped_lt (shaped_level hs L hL p hp)
  have hcl : ∀ L, L ≤ d0 + 1 → ∀ p ∈ level h' h.length L, h.length ≤ p := fun L hL p hp =>
    freshTree_ge (freshTree_level hfresh L hL p hp)
  refine ⟨h', h.length, hc, hold, ?_, ?_, hsrc, ?_, ?_⟩
  · intro L hL
    exact level_congr hold hsrc L hL
  · intro L hL p hp
    exact ⟨hcl L hL p hp, freshTree_lt (freshTree_level hfresh L hL p hp)⟩
  · intro L hL p hp h'' hop L' hL' a ha
    have hfp := freshTree_level hfresh L hL p hp
    have hpge : h.length ≤ p := hcl L hL p hp
    have halt : a < h.length := hsrc L' hL' a ha
    have hkid : ∀ x ∈ kids h' p, h.length ≤ x := by
      intro x hx
      obtain ⟨d', _, hfx⟩ := freshTree_kid hfp hx
      have := freshTree_ge hfx
      omega
    rcases hop with ⟨b, c, hcn, hins⟩ | ⟨x, hx, her⟩ | ⟨e, hins⟩ | ⟨i, her⟩
    · refine node_insert_frame hins a (by omega) (fun hac => hcn L' hL' ?_)
      have hac' : a = c := hac
      rw [← hac']
      exact ha
    · refine node_erase_frame her a (by omega) (by have := hkid x hx; omega) ?_
      intro c e hcc hlast
      have := hkid e.2 (mem_kids_of_child (node_child_iff_ents.1 hcc)
        (List.mem_of_getLast?_eq_some hlast))
      omega
    · exact leaf_insert_frame hins a (by omega)
    · exact leaf_erase_frame her a (by omega)
  · intro L hL p hp h'' hop L' hL' a ha
    have hsp := shaped_level hs L hL p hp
    have hplt : p < h.length := hsrc L hL p hp
    have hage : h.length ≤ a := hcl L' hL' a ha
    have hkid : ∀ x ∈ kids h' p, x < h.length := by
      intro x hx
      rw [kids_eq_of_get (hold p hplt)] at hx
      obtain ⟨d', _, hsx⟩ := shaped_kid hsp hx
      exact shaped_lt hsx
    rcases hop with ⟨b, c, hcn, hins⟩ | ⟨x, hx, her⟩ | ⟨e, hins⟩ | ⟨i, her⟩
    · refine node_insert_frame hins a (by omega) (fun hac => hcn L' hL' ?_)
      have hac' : a = c := hac
      rw [← hac']
      exact ha
    · refine node_erase_frame her a (by omega) (by have := hkid x hx; omega) ?_
      intro c e hcc hlast
      have := hkid e.2 (mem_kids_of_child (node_child_iff_ents.1 hcc)
        (List.mem_of_getLast?_eq_some hlast))
      omega
    · exact leaf_insert_frame hins a (by omega)
    · exact leaf_erase_frame her a (by omega)

theorem clone_independence_witness :
    1 ≤ 1 ∧ 1 ≤ 1 ∧ shaped 64 sample_pair 1 0 = true ∧
      ∃ h' r h'', node_t.clone_recursive 64 1 sample_pair 0 ((1 : Nat) : Int) = .ok (h', r) ∧
        node_t.erase 64 h' r 3 = .ok h'' ∧
        h''[0]? = sample_pair[0]? ∧ h''[1]? = sample_pair[1]? := by
  refine ⟨by decide, by decide, by decide, ?_⟩
  obtain ⟨h', r, hc, hold, _, _, _, hclone, _⟩ :=
    clone_independence 64 sample_pair 0 1 1 (by decide) (by decide) (by decide)
  have hlit : node_t.clone_recursive 64 1 sample_pair 0 ((1 : Nat) : Int) =
      .ok ([ ⟨none, 0, .node [((0, 1), 1)]⟩, ⟨some 0, 0, .leaf [((0, 1), 7)]⟩,
        ⟨none, 0, .node [((0, 1), 3)]⟩, ⟨some 2, 0, .leaf [((0, 1), 7)]⟩ ], 2) := rfl
  rw [hlit] at hc
  injection hc with hc
  injection hc with hh hr
  subst hh hr
  have her : node_t.erase 64
      [ ⟨none, 0, .node [((0, 1), 1)]⟩, ⟨some 0, 0, .leaf [((0, 1), 7)]⟩,
        ⟨none, 0, .node [((0, 1), 3)]⟩, ⟨some 2, 0, .leaf [((0, 1), 7)]⟩ ] 2 3 =
      .ok ([ ⟨none, 0, .node [((0, 1), 1)]⟩, ⟨some 0, 0, .leaf [((0, 1), 7)]⟩,
        ⟨none, 0, .node []⟩, ⟨none, 0, .leaf [((0, 1), 7)]⟩ ] : Heap (Int × Int) Nat) := rfl
  have hfr := hclone 0 (by decide) 2 (by decide) _ (Or.inr (Or.inl ⟨3, by decide, her⟩))
  refine ⟨_, _, _, rfl, her, ?_, ?_⟩
  · rw [hfr 0 (by decide) 0 (by decide), hold 0 (by decide)]
  · rw [hfr 1 (by decide) 1 (by decide), hold 1 (by decide)]

/-- C16. Clone establishes correct back-references: for an internal node `n`
with its leaves `d ≥ 1` levels below, whatever the headers of the source hold,
`n.clone_recursive(d)` returns a tree whose root has a null parent and in which
every child `c` at position `i` of every internal node `p` has `c.parent == p`
and `c.index_on_parent == i`. -/
theorem clone_establishes_back_references (w : Nat) (h : Heap G V) (n d fuel : Nat)
    (hd : 1 ≤ d) (hf : d ≤ fuel) (hs : shaped w h d n = true) :
    ∃ h' r, node_t.clone_recursive w fuel h n (d : Int) = .ok (h', r) ∧
      par h' r = some none ∧ node_base_t.is_root h' r = .ok true ∧
      ∀ L, L < d → ∀ p ∈ level h' r L, BackRefs h' p := by
  obtain ⟨d0, rfl⟩ : ∃ d0, d = d0 + 1 := ⟨d - 1, by omega⟩
  obtain ⟨h', hc, _, _, hfresh, _, hroot⟩ := node_clone_depth w d0 fuel (by omega) h n hs
  exact ⟨h', h.length, hc, hroot, is_root_of_par hroot, freshTree_backRefs hfresh⟩

theorem clone_establishes_back_references_witness :
    ¬ BackRefs sample_unlinked 0 ∧ 1 ≤ 1 ∧ 1 ≤ 1 ∧ shaped 64 sample_unlinked 1 0 = true ∧
      ∃ h' r, node_t.clone_recursive 64 1 sample_unlinked 0 ((1 : Nat) : Int) = .ok (h', r) ∧
        par h' r = some none ∧ node_base_t.is_root h' r = .ok true ∧
        ∀ L, L < 1 → ∀ p ∈ level h' r L, BackRefs h' p :=
  ⟨by decide, by decide, by decide, by decide,
    clone_establishes_back_references 64 sample_unlinked 0 1 1 (by decide) (by decide)
      (by decide)⟩

/-- C17. `calculate_bound` does not depend on the order of the entries: for a
geometry whose `merge` is associative and commutative, two non-empty internal
nodes (or two non-empty leaves) whose sequences of entry bounds are permutations
of each other have the same `calculate_bound()`; in particular, after the
swap-remove of `node_t::erase` or `leaf_node_t::erase`, `calculate_bound()` is
the fold of `merge` over the bounds of the remaining entries in their former
order. -/
theorem calculate_bound_order_independent (merge : G → G → G)
    (hassoc : ∀ a b c, merge (merge a b) c = merge a (merge b c))
    (hcomm : ∀ a b, merge a b = merge b a) (w : Nat) (h1 h2 : Heap G V) :
    (∀ n1 n2 c1 c2, ents h1 n1 = some (.node c1) → ents h2 n2 = some (.node c2) → c1 ≠ [] →
      (c1.map Prod.fst).Perm (c2.map Prod.fst) →
      ∃ r, node_t.calculate_bound merge h1 n1 = .ok r ∧
        node_t.calculate_bound merge h2 n2 = .ok r) ∧
    (∀ n1 n2 c1 c2, ents h1 n1 = some (.leaf c1) → ents h2 n2 = some (.leaf c2) → c1 ≠ [] →
      (c1.map Prod.fst).Perm (c2.map Prod.fst) →
      ∃ r, leaf_node_t.calculate_bound merge h1 n1 = .ok r ∧
        leaf_node_t.calculate_bound merge h2 n2 = .ok r) ∧
    (∀ p x i cs ex e, ents h1 p = some (.node cs) → cs.length < 2 ^ w → idx h1 x = some i →
      cs[i]? = some ex → ex.2 = x → cs.getLast? = some e → e.2 < h1.length →
      cs.eraseIdx i ≠ [] →
      ∃ h' r, node_t.erase w h1 p x = .ok h' ∧ node_t.calculate_bound merge h' p = .ok r ∧
        merge_bounds merge ((cs.eraseIdx i).map Prod.fst) = some r) ∧
    (∀ p i cs ex, ents h1 p = some (.leaf cs) → cs.length < 2 ^ w → cs[i]? = some ex →
      cs.eraseIdx i ≠ [] →
      ∃ h' r, leaf_node_t.erase w h1 p i = .ok h' ∧
        leaf_node_t.calculate_bound merge h' p = .ok r ∧
        merge_bounds merge ((cs.eraseIdx i).map Prod.fst) = some r) := by
  have hbody : ∀ {γ : Type} (c : List (G × γ)), c ≠ [] →
      ∃ r, calculate_bound.body merge c = .ok r ∧
        merge_bounds merge (c.map Prod.fst) = some r := by
    intro γ c hne
    cases c with
    | nil => exact absurd rfl hne
    | cons e rest => exact ⟨_, by rw [calculate_bound_body_eq]; rfl, rfl⟩
  refine ⟨?_, ?_, ?_, ?_⟩
  · intro n1 n2 c1 c2 he1 he2 hne hp
    obtain ⟨r, hr, _⟩ := hbody c1 hne
    refine ⟨r, ?_, ?_⟩
    · simp only [node_t.calculate_bound, node_child_iff_ents.2 he1, bind_ok, hr]
    · simp only [node_t.calculate_bound, node_child_iff_ents.2 he2, bind_ok,
        ← calculate_bound_body_perm merge hassoc hcomm hp, hr]
  · intro n1 n2 c1 c2 he1 he2 hne hp
    obtain ⟨r, hr, _⟩ := hbody c1 hne
    refine ⟨r, ?_, ?_⟩
    · simp only [leaf_node_t.calculate_bound, leaf_child_iff_ents.2 he1, bind_ok, hr]
    · simp only [leaf_node_t.calculate_bound, leaf_child_iff_ents.2 he2, bind_ok,
        ← calculate_bound_body_perm merge hassoc hcomm hp, hr]
  · intro p x i cs ex e hp hw hx hrec hxe hlast hback hne
    have hi : i < cs.length := (List.getElem?_eq_some_iff.1 hrec).1
    obtain ⟨h', hs, _, he, _, _⟩ := node_erase_spec w hp hx hi hw hlast hback
    have hp' : ents h' p = some (.node (cs.set i e).dropLast) := by rw [he, if_pos rfl]
    have hperm := swap_remove_perm_eraseIdx hlast hrec
    obtain ⟨r, hr, hm⟩ := hbody (cs.eraseIdx i) hne
    refine ⟨h', r, hs, ?_, hm⟩
    simp only [node_t.calculate_bound, node_child_iff_ents.2 hp', bind_ok]
    rw [calculate_bound_body_perm merge hassoc hcomm (hperm.map Prod.fst), hr]
  · intro p i cs ex hp hw hrec hne
    have hi : i < cs.length := (List.getElem?_eq_some_iff.1 hrec).1
    obtain ⟨e, hlast⟩ : ∃ e, cs.getLast? = some e := by
      cases hc : cs.getLast? with
      | none => rw [List.getLast?_eq_none_iff] at hc; subst hc; simp at hi
      | some e => exact ⟨e, rfl⟩
    obtain ⟨h', hs, _, _, _, he⟩ := leaf_erase_spec w hp hi hw hlast
    have hp' : ents h' p = some (.leaf (cs.set i e).dropLast) := by rw [he, if_pos rfl]
    have hperm := swap_remove_perm_eraseIdx hlast hrec
    obtain ⟨r, hr, hm⟩ := hbody (cs.eraseIdx i) hne
    refine ⟨h', r, hs, ?_, hm⟩
    simp only [leaf_node_t.calculate_bound, leaf_child_iff_ents.2 hp', bind_ok]
    rw [calculate_bound_body_perm merge hassoc hcomm (hperm.map Prod.fst), hr]

theorem calculate_bound_order_independent_witness :
    (∀ a b c, interval_merge (interval_merge a b) c = interval_merge a (interval_merge b c)) ∧
      (∀ a b, interval_merge a b = interval_merge b a) ∧
      (∃ r, node_t.calculate_bound interval_merge sample_tree 0 = .ok r ∧
        node_t.calculate_bound interval_merge sample_swapped 0 = .ok r) ∧
      (∃ h' r, node_t.erase 64 sample_tree 0 1 = .ok h' ∧
        node_t.calculate_bound interval_merge h' 0 = .ok r ∧
        merge_bounds interval_merge
          (([(((0 : Int), (9 : Int)), (1 : Nat)), ((10, 20), 2)].eraseIdx 0).map Prod.fst)
            = some r) :=
  ⟨interval_merge_assoc, interval_merge_comm,
    (calculate_bound_order_independent interval_merge interval_merge_assoc
      interval_merge_comm 64 sample_tree sample_swapped).1 0 0 _ _ rfl rfl (by decide)
      (by decide),
    (calculate_bound_order_independent interval_merge interval_merge_assoc
      interval_merge_comm 64 sample_tree sample_swapped).2.2.1 0 1 0 _ ((0, 9), 1)
      ((10, 20), 2) rfl (by decide) rfl rfl rfl rfl (by decide) (by decide)⟩

/-- C18. `next()` and `prev()` terminate: when the parent links lead from `n` to
a root with a null parent in `k` steps (`n` has depth `k`), the recursion through
`parent()->next()` (`parent()->prev()`) goes to a node of depth `k - 1`, and a
budget of `k + 1` calls, the call on `n` and `k` recursive ones, is never
exhausted; a larger budget gives the same result. -/
theorem next_prev_terminate (w : Nat) (h : Heap G V) (k n : Nat)
    (hc : parent_chain h k n = true) :
    (0 < k → ∃ p, par h n = some (some p) ∧ parent_chain h (k - 1) p = true) ∧
      node_base_t.next w h (k + 1) n ≠ .error .fuel ∧
      node_base_t.prev w h (k + 1) n ≠ .error .fuel ∧
      ∀ fuel, k < fuel →
        node_base_t.next w h fuel n = node_base_t.next w h (k + 1) n ∧
          node_base_t.prev w h fuel n = node_base_t.prev w h (k + 1) n := by
  refine ⟨?_, (next_terminates w h k n hc).1, (prev_terminates w h k n hc).1,
    fun fuel hf => ⟨(next_terminates w h k n hc).2 fuel hf,
      (prev_terminates w h k n hc).2 fuel hf⟩⟩
  intro hk
  obtain ⟨j, rfl⟩ : ∃ j, k = j + 1 := ⟨k - 1, by omega⟩
  exact parent_chain_succ hc

theorem next_prev_terminate_witness :
    parent_chain sample_tree 2 4 = true ∧
      ((0 < 2 → ∃ p, par sample_tree 4 = some (some p) ∧
          parent_chain sample_tree (2 - 1) p = true) ∧
        node_base_t.next 64 sample_tree (2 + 1) 4 ≠ .error .fuel ∧
        node_base_t.prev 64 sample_tree (2 + 1) 4 ≠ .error .fuel ∧
        ∀ fuel, 2 < fuel →
          node_base_t.next 64 sample_tree fuel 4 = node_base_t.next 64 sample_tree (2 + 1) 4 ∧
            node_base_t.prev 64 sample_tree fuel 4 =
              node_base_t.prev 64 sample_tree (2 + 1) 4) :=
  ⟨by decide, next_prev_terminate 64 sample_tree 2 4 (by decide)⟩

/-- C19. `next()` and `prev()` never index out of range in a well-formed tree:
for every node `n` (at depth `L ≤ D`), `next` and `prev` return a result, so every
access `parent._child[index_on_parent + 1]`, `parent._child[index_on_parent - 1]`,
`n._child[0]` and `n._child.back()` they make is to an existing entry (an access
to a missing entry is `Fault.undefined`); and the run of `next` that faults when
`parent.size() - 1` wraps returns the same result, so the subtraction never
underflows. -/
theorem next_prev_in_range (w : Nat) (h : Heap G V) (root D : Nat)
    (wf : WellFormed w h root D) (L : Nat) (hL : L ≤ D) (n : Nat)
    (hn : n ∈ level h root L) (fuel : Nat) (hf : L < fuel) :
    (∃ r, node_base_t.next w h fuel n = .ok r ∧
        node_base_t.next_checked w h fuel n = .ok r) ∧
      ∃ r, node_base_t.prev w h fuel n = .ok r := by
  obtain ⟨i, hi⟩ := List.mem_iff_getElem?.1 hn
  have hnx := level_linked_next wf L hL fuel hf i n hi
  have hpv := level_linked_prev wf L hL fuel hf i n hi
  exact ⟨⟨_, hnx, by rw [next_checked_eq wf L hL n hn fuel, hnx]⟩, ⟨_, hpv⟩⟩

theorem next_prev_in_range_witness :
    WellFormed 64 sample_tree 0 2 ∧ 2 ≤ 2 ∧ 4 ∈ level sample_tree 0 2 ∧ 2 < 3 ∧
      ((∃ r, node_base_t.next 64 sample_tree 3 4 = .ok r ∧
          node_base_t.next_checked 64 sample_tree 3 4 = .ok r) ∧
        ∃ r, node_base_t.prev 64 sample_tree 3 4 = .ok r) :=
  ⟨sample_tree_wellFormed, by decide, by decide, by decide,
    next_prev_in_range 64 sample_tree 0 2 sample_tree_wellFormed 2 (by decide) 4 (by decide)
      3 (by decide)⟩

/-- C20. `node_t::erase` detaches the removed child without touching any subtree:
for an internal node `p` (which is not its own child) and a child `x` recorded at
position `i` of `p`, `p.erase(x)` returns; afterwards `x` has a null parent
(`x.is_root()` is true), the entry sequence of `x` and of every child of `p` is
unchanged, and nothing changes but the entry sequence of `p`, the parent link of
`x` and, when an entry was moved, the `_index_on_parent` of the last child. -/
theorem erase_detaches_without_touching_subtrees (w : Nat) (h : Heap G V) (p x i : Nat)
    (cs : List (G × Nat)) (ex e : G × Nat)
    (hp : ents h p = some (.node cs)) (hw : cs.length < 2 ^ w)
    (hx : idx h x = some i) (hrec : cs[i]? = some ex) (hxe : ex.2 = x)
    (hlast : cs.getLast? = some e) (hback : e.2 < h.length) (hself : p ∉ kids h p) :
    ∃ h', node_t.erase w h p x = .ok h' ∧
      par h' x = some none ∧ node_base_t.is_root h' x = .ok true ∧
      ents h' x = ents h x ∧ (∀ c ∈ kids h p, ents h' c = ents h c) ∧
      (∀ b, b ≠ p → ents h' b = ents h b) ∧ (∀ b, b ≠ x → par h' b = par h b) ∧
      (∀ b, b ≠ e.2 → idx h' b = idx h b) ∧
      (i + 1 = cs.length → ∀ b, idx h' b = idx h b) ∧ h'.length = h.length := by
  have hi : i < cs.length := (List.getElem?_eq_some_iff.1 hrec).1
  obtain ⟨h', hs, hl, he, hpar, hidx⟩ := node_erase_spec w hp hx hi hw hlast hback
  have hxk : x ∈ kids h p := by
    rw [← hxe]
    exact mem_kids_of_child hp (List.mem_iff_getElem?.2 ⟨i, hrec⟩)
  have hpx : par h' x = some none := by rw [hpar, if_pos rfl]
  refine ⟨h', hs, hpx, is_root_of_par hpx, ?_, ?_, ?_, ?_, ?_, ?_, hl⟩
  · have hxp : x ≠ p := fun hxp => hself (by rw [hxp] at hxk; exact hxk)
    rw [he, if_neg hxp]
  · intro c hc
    have hcp : c ≠ p := fun hcp => hself (by rw [hcp] at hc; exact hc)
    rw [he, if_neg hcp]
  · intro b hb; rw [he, if_neg hb]
  · intro b hb; rw [hpar, if_neg hb]
  · intro b hb; rw [hidx, if_neg (fun hh => hb hh.1)]
  · intro hlen b; rw [hidx, if_neg (fun hh => by omega)]

theorem erase_detaches_without_touching_subtrees_witness :
    ents sample_tree 1 = some (.node [((0, 4), 3), ((5, 9), 4)]) ∧
      [((0, 4), 3), ((5, 9), (4 : Nat))].length < 2 ^ 64 ∧ idx sample_tree 3 = some 0 ∧
      [(((0 : Int), (4 : Int)), 3), ((5, 9), (4 : Nat))][0]? = some ((0, 4), 3) ∧
      (((0 : Int), (4 : Int)), (3 : Nat)).2 = 3 ∧
      [(((0 : Int), (4 : Int)), 3), ((5, 9), (4 : Nat))].getLast? = some ((5, 9), 4) ∧
      (((5 : Int), (9 : Int)), (4 : Nat)).2 < sample_tree.length ∧ 1 ∉ kids sample_tree 1 ∧
      ∃ h', node_t.erase 64 sample_tree 1 3 = .ok h' ∧
        par h' 3 = some none ∧ node_base_t.is_root h' 3 = .ok true ∧
        ents h' 3 = ents sample_tree 3 ∧ (∀ c ∈ kids sample_tree 1, ents h' c = ents sample_tree c) ∧
        (∀ b, b ≠ 1 → ents h' b = ents sample_tree b) ∧
        (∀ b, b ≠ 3 → par h' b = par sample_tree b) ∧
        (∀ b, b ≠ (((5 : Int), (9 : Int)), (4 : Nat)).2 → idx h' b = idx sample_tree b) ∧
        (0 + 1 = [(((0 : Int), (4 : Int)), 3), ((5, 9), (4 : Nat))].length →
          ∀ b, idx h' b = idx sample_tree b) ∧
        h'.length = sample_tree.length :=
  ⟨rfl, by decide, rfl, rfl, rfl, rfl, by decide, by decide,
    erase_detaches_without_touching_subtrees 64 sample_tree 1 3 0
      [((0, 4), 3), ((5, 9), 4)] ((0, 4), 3) ((5, 9), 4) rfl (by decide) rfl rfl rfl rfl
      (by decide) (by decide)⟩

/-- C15. The default minimum fill is a legal configuration: for every `M ≥ 4`
the default `MIN_ENTRIES` `m = ⌈0.4·M⌉` satisfies `2 ≤ m ≤ ⌈M / 2⌉`; `M = 8`
gives `m = 4`; and `2·m ≤ M + 1`, so that `M + 1` entries can be divided into two
nodes of at least `m` entries each. -/
theorem default_min_entries_legal (M : Nat) (hM : 4 ≤ M) :
    2 ≤ default_min_entries M ∧ default_min_entries M ≤ ⌈(M : ℚ) / 2⌉₊ ∧
      default_min_entries 8 = 4 ∧ 2 * default_min_entries M ≤ M + 1 ∧
      ∃ a b, a + b = M + 1 ∧ default_min_entries M ≤ a ∧ default_min_entries M ≤ b := by
  rw [ceil_half_eq]
  simp only [default_min_entries_eq]
  refine ⟨by omega, by omega, by norm_num, by omega, ?_⟩
  exact ⟨(2 * M + 4) / 5, M + 1 - (2 * M + 4) / 5, by omega, le_refl _, by omega⟩

theorem default_min_entries_legal_witness :
    4 ≤ 8 ∧ (2 ≤ default_min_entries 8 ∧ default_min_entries 8 ≤ ⌈((8 : Nat) : ℚ) / 2⌉₊ ∧
      default_min_entries 8 = 4 ∧ 2 * default_min_entries 8 ≤ 8 + 1 ∧
      ∃ a b, a + b = 8 + 1 ∧ default_min_entries 8 ≤ a ∧ default_min_entries 8 ≤ b) :=
  ⟨by decide, default_min_entries_legal 8 (by decide)⟩

/-! ## The claims on the tree layer -/

/-- C12: round trip.  With parameters `2 ≤ m ≤ ⌈M/2⌉`, for every sequence `xs` of
inserts into the empty tree, iterating the tree from `begin()` to `end()` yields a permutation of `xs`: the
iterated multiset equals the inserted multiset.  When the inserted values are
distinct, every inserted value is iterated exactly once and no other value is.
The sequence is arbitrary, so this holds after each insert. -/
theorem insert_round_trip (P : Params G) (hl : P.Legal) (xs : List (G × V)) :
    (TreeState.build P xs).entries.Perm xs ∧
    ((xs.map Prod.snd).Nodup →
      ((TreeState.build P xs).entries.map Prod.snd).Nodup ∧
      ∀ v, v ∈ (TreeState.build P xs).entries.map Prod.snd ↔ v ∈ xs.map Prod.snd) := by
  have hp : (TreeState.build P xs).entries.Perm xs := by
    have := (build_spec P hl xs _ (ok_empty P)).2
    simpa [TreeState.build, TreeState.empty, TreeState.entries, entries] using this
  refine ⟨hp, fun hnd => ⟨?_, fun v => ?_⟩⟩
  · exact ((hp.map Prod.snd).nodup_iff).2 hnd
  · exact (hp.map Prod.snd).mem_iff

theorem insert_round_trip_witness :
    interval_params.Legal ∧
    (TreeState.build interval_params scenario_entries).entries.Perm scenario_entries ∧
    ((scenario_entries.map Prod.snd).Nodup →
      ((TreeState.build interval_params scenario_entries).entries.map Prod.snd).Nodup ∧
      ∀ v, v ∈ (TreeState.build interval_params scenario_entries).entries.map Prod.snd ↔
        v ∈ scenario_entries.map Prod.snd) :=
  ⟨by decide, insert_round_trip interval_params (by decide) scenario_entries⟩

set_option maxRecDepth 100000

end RTree
